import Mathlib

/-!
# pocketkaldi: the Viterbi beam-search decoder (src/src/decoder.cc)

A shallow embedding of `Decoder` and theorems about it.

Conventions of the embedding.

* `float` and `double` values are exact: a finite value is an element of an
  arbitrary linearly ordered commutative ring `α` (so the theorems hold for
  the integers, the rationals and the reals alike), and the special values
  `+inf`, `-inf` and `NaN` are the other three constructors of `Ext α`.
  Rounding is not modelled.  Token costs, arc weights and log-likelihoods are
  finite.  The one exception is the worklist of `ProcessNonemitting`, whose
  running time rests on the cost being narrowed to `float` when `InsertTok`
  takes it: it is embedded a second time on binary32 costs (`F32`, section
  "Costs as `float`").
* `std::vector` is `List`; an index outside the vector is `Fault.outOfBounds`.
* A loop with no bound in the source (`while (!queue.empty())`, the frame loop
  of `Decode`, the back-pointer walk of `BestPath`) takes a fuel argument and
  yields `Fault.outOfFuel` when it is used up. `Decode fuel` allows `fuel`
  passes of the frame loop and `fuel` pops in each call of
  `ProcessNonemitting`.
* A failing `assert` is `Fault.assertion`.
* The constants of `decoder.h` (not among the sources) are the fields of
  `Config`; `pk_fst_t`, `pk_decodable_t` and `pk_hashtable_t` are modelled by
  their interfaces.
-/

namespace pocketkaldi

/-- Ways in which a run of the embedded code fails to produce a value. -/
inductive Fault where
  | outOfFuel
  | outOfBounds
  | assertion
  deriving DecidableEq, Repr

/-- An exact `float`/`double`: a finite value or one of the special values. -/
inductive Ext (α : Type) where
  | fin (a : α)
  | pinf
  | ninf
  | nan
  deriving DecidableEq, Repr

namespace Ext

variable {α : Type} [LinearOrderedCommRing α]

/-- Floating-point addition on exact values. -/
def add : Ext α → Ext α → Ext α
  | fin a, fin b => fin (a + b)
  | nan, _ => nan
  | _, nan => nan
  | pinf, ninf => nan
  | ninf, pinf => nan
  | pinf, _ => pinf
  | _, pinf => pinf
  | ninf, _ => ninf
  | _, ninf => ninf

/-- Floating-point negation on exact values. -/
def neg : Ext α → Ext α
  | fin a => fin (-a)
  | pinf => ninf
  | ninf => pinf
  | nan => nan

/-- Floating-point subtraction on exact values. -/
def sub (x y : Ext α) : Ext α := add x (neg y)

/-- The comparison `x < y` of C++: false as soon as one side is `NaN`. -/
def lt : Ext α → Ext α → Bool
  | fin a, fin b => decide (a < b)
  | fin _, pinf => true
  | ninf, fin _ => true
  | ninf, pinf => true
  | _, _ => false

/-- The comparison `x != INFINITY` of C++ (true for `NaN`). -/
def neInf : Ext α → Bool
  | pinf => false
  | _ => true

/-- A final weight as a `float`: `none` is `+inf`. -/
def ofFinal : Option α → Ext α
  | some f => fin f
  | none => pinf

end Ext

/-- The class `Decoder::Token`. -/
structure Token (α : Type) where
  state : Int
  cost : α
  olabel_idx : Int
  deriving DecidableEq, Repr

/-- The class `Decoder::OLabel`. -/
structure OLabel where
  prev_idx : Int
  olabel : Int
  deriving DecidableEq, Repr

/-- The class `Decoder::Hypothesis`. -/
structure Hypothesis (α : Type) where
  words : List Int
  weight : Ext α
  deriving DecidableEq, Repr

/-- The struct `pk_fst_arc_t`, with the fields the decoder reads. -/
structure Arc (α : Type) where
  input_label : Int
  output_label : Int
  next_state : Int
  weight : α
  deriving DecidableEq, Repr

/-- Modelled from the spec: the WFST `pk_fst_t` (fst.h is not among the
sources), by the interface of section 6.1. `start_state` is
`pk_fst_startstate` (negative when there is none), `final` is `pk_fst_final`
(`none` is `+inf`, the weight of a non-final state) and `arcs s` is the
sequence produced by `pk_fst_iterate_arc` and `pk_fst_iter_next` at `s`. -/
structure Fst (α : Type) where
  start_state : Int
  final : Int → Option α
  arcs : Int → List (Arc α)

/-- Modelled from the spec: the acoustic scorer `pk_decodable_t`
(decodable.h is not among the sources), by the interface of section 6.2. -/
structure Decodable (α : Type) where
  loglikelihood : Int → Int → α
  islastframe : Int → Bool

/-- The constants of `decoder.h`, which is not among the sources, and the
library routine `std::nth_element`, which `GetCutoff` calls with the arguments
`(begin, end, begin + cutoff_idx)`: `nth_element costs nth last` is the content
of `costs_` after that call. -/
structure Config (α : Type) where
  kNotExist : Int
  kOLabelBeginIdx : Int
  kBeamSize : Nat
  kBeamDelta : α
  kCutoffSamples : Int
  kCutoffRandSeed : Nat
  nth_element : List α → Nat → Nat → List α

/-- The data members of `Decoder` (`fst_` is passed to the operations;
`costs_` is scratch storage that `GetCutoff` clears on entry, see there). -/
structure Decoder (α : Type) where
  toks : List (Token α)
  prev_toks : List (Token α)
  state_idx : List (Int × Int)
  olabels : List OLabel
  num_frames_decoded : Int
  beam : α
  deriving DecidableEq, Repr

variable {α : Type} [LinearOrderedCommRing α]

/-- The subscript `v[i]` of a `std::vector` with an `int` index. -/
def vecAt {τ : Type} (v : List τ) (i : Int) : Except Fault τ :=
  if i < 0 then .error .outOfBounds
  else
    match v[i.toNat]? with
    | some x => .ok x
    | none => .error .outOfBounds

/-- Modelled from the spec: `pk_hashtable_find(table, key, default)`
(hashtable.h is not among the sources): the value bound to `key`, or
`default`. The table is a finite map, here an association list in which the
first binding of a key is the current one. -/
def pk_hashtable_find (table : List (Int × Int)) (key : Int) (dflt : Int) : Int :=
  match table.lookup key with
  | some v => v
  | none => dflt

/-- Modelled from the spec: `pk_hashtable_upsert(table, key, value)` binds
`key` to `value`, replacing an earlier binding. -/
def pk_hashtable_upsert (table : List (Int × Int)) (key : Int) (value : Int) :
    List (Int × Int) :=
  (key, value) :: table

/-- The constructor `Decoder::Decoder`: empty vectors, an empty table and
`beam_ = 16.0`. The constructor leaves `num_frames_decoded_` unset;
`InitDecoding` sets it before it is read, and it is `0` here. -/
def Decoder.new : Decoder α :=
  { toks := [], prev_toks := [], state_idx := [], olabels := [],
    num_frames_decoded := 0, beam := 16 }

/-- The method `Decoder::InsertTok` (decoder.cc lines 86-115). -/
def Decoder.InsertTok (cfg : Config α) (arc : Arc α) (olabel_idx : Int) (cost : α)
    (d : Decoder α) : Except Fault (Bool × Decoder α) :=
  let next_state := arc.next_state
  let tok_idx := pk_hashtable_find d.state_idx next_state cfg.kNotExist
  let next_olabel_idx : Int :=
    if arc.output_label ≠ 0 then (d.olabels.length : Int) else olabel_idx
  let olabels : List OLabel :=
    if arc.output_label ≠ 0 then d.olabels ++ [⟨olabel_idx, arc.output_label⟩]
    else d.olabels
  if tok_idx = cfg.kNotExist then
    .ok (true, { d with
      olabels := olabels
      toks := d.toks ++ [⟨next_state, cost, next_olabel_idx⟩]
      state_idx := pk_hashtable_upsert d.state_idx next_state (d.toks.length : Int) })
  else
    match vecAt d.toks tok_idx with
    | .error e => .error e
    | .ok tok =>
      if tok.cost > cost then
        .ok (true, { d with
          olabels := olabels
          toks := d.toks.set tok_idx.toNat ⟨next_state, cost, next_olabel_idx⟩ })
      else
        .ok (false, { d with olabels := olabels })

/-- The inner loop of `ProcessNonemitting` (decoder.cc lines 182-196) over the
arcs of the popped state. `queue` is the LIFO worklist, its back at the head
of the list. The token `toks_[tok_idx]` is read again for every epsilon
arc, as in the source. -/
def Decoder.nonemittingArcs (cfg : Config α) (cutoff : Ext α) (tok_idx : Int) :
    List (Arc α) → List Int → Decoder α → Except Fault (List Int × Decoder α)
  | [], queue, d => .ok (queue, d)
  | arc :: rest, queue, d =>
    if arc.input_label ≠ 0 then nonemittingArcs cfg cutoff tok_idx rest queue d
    else
      match vecAt d.toks tok_idx with
      | .error e => .error e
      | .ok from_tok =>
        let total_cost : α := from_tok.cost + arc.weight + 0
        if Ext.lt cutoff (Ext.fin total_cost) then
          nonemittingArcs cfg cutoff tok_idx rest queue d
        else
          match Decoder.InsertTok cfg arc from_tok.olabel_idx total_cost d with
          | .error e => .error e
          | .ok (inserted, d1) =>
            nonemittingArcs cfg cutoff tok_idx rest
              (if inserted then arc.next_state :: queue else queue) d1

/-- The worklist loop of `ProcessNonemitting` (decoder.cc lines 171-197); one
unit of fuel per pop. -/
def Decoder.nonemittingLoop (cfg : Config α) (fst : Fst α) (cutoff : Ext α) :
    Nat → List Int → Decoder α → Except Fault (Decoder α)
  | _, [], d => .ok d
  | 0, _ :: _, _ => .error .outOfFuel
  | fuel + 1, state :: queue, d =>
    let tok_idx := pk_hashtable_find d.state_idx state cfg.kNotExist
    if tok_idx = cfg.kNotExist then .error .assertion
    else
      match Decoder.nonemittingArcs cfg cutoff tok_idx (fst.arcs state) queue d with
      | .error e => .error e
      | .ok (queue1, d1) => nonemittingLoop cfg fst cutoff fuel queue1 d1

/-- The method `Decoder::ProcessNonemitting` (decoder.cc lines 164-198). The
worklist starts with the states of `toks_` pushed in order, so its back is the
state of the last token. -/
def Decoder.ProcessNonemitting (cfg : Config α) (fst : Fst α) (fuel : Nat)
    (cutoff : Ext α) (d : Decoder α) : Except Fault (Decoder α) :=
  Decoder.nonemittingLoop cfg fst cutoff fuel (d.toks.map Token.state).reverse d

/-- The method `Decoder::InitDecoding` (decoder.cc lines 66-84). It clears the
two beams only; the state index and the arena are left as they are. -/
def Decoder.InitDecoding (cfg : Config α) (fst : Fst α) (fuel : Nat) (d : Decoder α) :
    Except Fault (Decoder α) :=
  let d1 : Decoder α := { d with toks := [], prev_toks := [] }
  let start_state := fst.start_state
  if start_state < 0 then .error .assertion
  else
    let dummy_arc : Arc α :=
      { input_label := 0, output_label := 0, next_state := start_state, weight := 0 }
    match Decoder.InsertTok cfg dummy_arc cfg.kNotExist 0 d1 with
    | .error e => .error e
    | .ok (_, d2) =>
      Decoder.ProcessNonemitting cfg fst fuel Ext.pinf { d2 with num_frames_decoded := 0 }

/-- The test `random_f < sample_prob` of `GetCutoff` (decoder.cc lines
123-131) in exact arithmetic, where `random_f = (next_random & 0xffff) / 65535`
and `sample_prob = kCutoffSamples / (float)toks_.size()`. With an empty
`toks_` the quotient is `+inf` for a positive `kCutoffSamples` and `NaN` or
`-inf` otherwise. -/
def sampleAccept (kCutoffSamples : Int) (ntoks : Nat) (next_random : Nat) : Bool :=
  if ntoks = 0 then decide (0 < kCutoffSamples)
  else decide (((next_random % 65536 : Nat) : Int) * (ntoks : Int) < kCutoffSamples * 65535)

/-- The scan of `GetCutoff` over `prev_toks_` (decoder.cc lines 125-139):
the 64-bit generator, the sampled costs, the best cost and its index. -/
def Decoder.cutoffScan (cfg : Config α) (ntoks : Nat) :
    List (Token α) → Nat → Nat → List α → Ext α → Int → List α × Ext α × Int
  | [], _, _, costs, best_cost, best_tokidx => (costs, best_cost, best_tokidx)
  | tok :: rest, i, next_random, costs, best_cost, best_tokidx =>
    let next_random1 := (next_random * 25214903917 + 11) % 2 ^ 64
    let costs1 :=
      if sampleAccept cfg.kCutoffSamples ntoks next_random1 then costs ++ [tok.cost]
      else costs
    if Ext.lt (Ext.fin tok.cost) best_cost then
      cutoffScan cfg ntoks rest (i + 1) next_random1 costs1 (Ext.fin tok.cost) (i : Int)
    else
      cutoffScan cfg ntoks rest (i + 1) next_random1 costs1 best_cost best_tokidx

/-- The method `Decoder::GetCutoff` (decoder.cc lines 117-160). The result is
`(beam_cutoff, *adaptive_beam, *best_tokidx)`; `best_tokidx` is the value the
caller stored in `*best_tokidx` before the call. `costs_` is cleared on entry,
so it is local here. -/
def Decoder.GetCutoff (cfg : Config α) (d : Decoder α) (best_tokidx : Int) :
    Except Fault (Ext α × Ext α × Int) :=
  match Decoder.cutoffScan cfg d.toks.length d.prev_toks 0
      (cfg.kCutoffRandSeed % 2 ^ 64) [] Ext.pinf best_tokidx with
  | (costs, best_cost, best_tokidx1) =>
    let beam_cutoff : Ext α := Ext.add best_cost (Ext.fin d.beam)
    let max_active_cutoff : Except Fault (Ext α) :=
      if d.prev_toks.length > cfg.kBeamSize then
        let cutoff_idx := costs.length * cfg.kBeamSize / d.prev_toks.length
        match (cfg.nth_element costs costs.length cutoff_idx)[cutoff_idx]? with
        | some c => .ok (Ext.fin c)
        | none => .error .outOfBounds
      else .ok Ext.nan
    match max_active_cutoff with
    | .error e => .error e
    | .ok mac =>
      if Ext.lt mac beam_cutoff then
        .ok (mac, Ext.add (Ext.sub mac best_cost) (Ext.fin cfg.kBeamDelta), best_tokidx1)
      else
        .ok (beam_cutoff, Ext.fin d.beam, best_tokidx1)

/-- The number of low bits a `float` drops from the natural number `m`: the
least `sh`, counting up from the given one, with `m / 2 ^ sh < 2 ^ 24`. -/
def droppedBits (m : Nat) : Nat → Nat → Nat
  | 0, sh => sh
  | fuel + 1, sh => if m / 2 ^ sh < 2 ^ 24 then sh else droppedBits m fuel (sh + 1)

/-- The conversion `float state = best_tok.state()` of `ProcessEmitting`
(decoder.cc line 223) followed by the conversion back to `int` at the call of
`pk_fst_iterate_arc`: the nearest value with a 24-bit significand, ties to
even. It is the identity below `2 ^ 24`. -/
def stateViaFloat (n : Int) : Int :=
  let m := n.natAbs
  if m < 2 ^ 24 then n
  else
    let sh := droppedBits m m 0
    let q := m / 2 ^ sh
    let r := m % 2 ^ sh
    let half := 2 ^ (sh - 1)
    let q1 := if r > half ∨ (r = half ∧ q % 2 = 1) then q + 1 else q
    Int.sign n * ((q1 * 2 ^ sh : Nat) : Int)

/-- The first pass of `ProcessEmitting` over the arcs of the best token
(decoder.cc lines 227-238). -/
def Decoder.bestTokBound (decodable : Decodable α) (frame : Int) (best_tok : Token α)
    (adaptive_beam : Ext α) : List (Arc α) → Ext α → Ext α
  | [], next_weight_cutoff => next_weight_cutoff
  | arc :: rest, next_weight_cutoff =>
    if arc.input_label = 0 then
      bestTokBound decodable frame best_tok adaptive_beam rest next_weight_cutoff
    else
      let acoustic_cost : α := -decodable.loglikelihood frame arc.input_label
      let total_cost : α := best_tok.cost + arc.weight + acoustic_cost
      if Ext.lt (Ext.add (Ext.fin total_cost) adaptive_beam) next_weight_cutoff then
        bestTokBound decodable frame best_tok adaptive_beam rest
          (Ext.add (Ext.fin total_cost) adaptive_beam)
      else
        bestTokBound decodable frame best_tok adaptive_beam rest next_weight_cutoff

/-- The arc loop inside the sweep of `ProcessEmitting` (decoder.cc lines
252-269). -/
def Decoder.emittingArcs (cfg : Config α) (decodable : Decodable α) (from_tok : Token α)
    (adaptive_beam : Ext α) :
    List (Arc α) → Ext α → Decoder α → Except Fault (Ext α × Decoder α)
  | [], next_weight_cutoff, d => .ok (next_weight_cutoff, d)
  | arc :: rest, next_weight_cutoff, d =>
    if arc.input_label = 0 then
      emittingArcs cfg decodable from_tok adaptive_beam rest next_weight_cutoff d
    else
      let ac_cost : α := -decodable.loglikelihood d.num_frames_decoded arc.input_label
      let total_cost : α := from_tok.cost + arc.weight + ac_cost
      if Ext.lt next_weight_cutoff (Ext.fin total_cost) then
        emittingArcs cfg decodable from_tok adaptive_beam rest next_weight_cutoff d
      else
        let next_weight_cutoff1 :=
          if Ext.lt (Ext.add (Ext.fin total_cost) adaptive_beam) next_weight_cutoff then
            Ext.add (Ext.fin total_cost) adaptive_beam
          else next_weight_cutoff
        match Decoder.InsertTok cfg arc from_tok.olabel_idx total_cost d with
        | .error e => .error e
        | .ok (_, d1) =>
          emittingArcs cfg decodable from_tok adaptive_beam rest next_weight_cutoff1 d1

/-- The sweep of `ProcessEmitting` over `prev_toks_` (decoder.cc lines
242-270). -/
def Decoder.emittingSweep (cfg : Config α) (fst : Fst α) (decodable : Decodable α)
    (weight_cutoff adaptive_beam : Ext α) :
    List (Token α) → Ext α → Decoder α → Except Fault (Ext α × Decoder α)
  | [], next_weight_cutoff, d => .ok (next_weight_cutoff, d)
  | from_tok :: rest, next_weight_cutoff, d =>
    if Ext.lt weight_cutoff (Ext.fin from_tok.cost) then
      emittingSweep cfg fst decodable weight_cutoff adaptive_beam rest next_weight_cutoff d
    else
      match Decoder.emittingArcs cfg decodable from_tok adaptive_beam
          (fst.arcs from_tok.state) next_weight_cutoff d with
      | .error e => .error e
      | .ok (next_weight_cutoff1, d1) =>
        emittingSweep cfg fst decodable weight_cutoff adaptive_beam rest
          next_weight_cutoff1 d1

/-- The method `Decoder::ProcessEmitting` (decoder.cc lines 202-273). -/
def Decoder.ProcessEmitting (cfg : Config α) (fst : Fst α) (decodable : Decodable α)
    (d : Decoder α) : Except Fault (Ext α × Decoder α) :=
  let d1 : Decoder α := { d with prev_toks := d.toks, toks := [], state_idx := [] }
  match Decoder.GetCutoff cfg d1 0 with
  | .error e => .error e
  | .ok (weight_cutoff, adaptive_beam, best_tokidx) =>
    match vecAt d1.prev_toks best_tokidx with
    | .error e => .error e
    | .ok best_tok =>
      let state := stateViaFloat best_tok.state
      let next_weight_cutoff := Decoder.bestTokBound decodable d1.num_frames_decoded
        best_tok adaptive_beam (fst.arcs state) Ext.pinf
      match Decoder.emittingSweep cfg fst decodable weight_cutoff adaptive_beam
          d1.prev_toks next_weight_cutoff d1 with
      | .error e => .error e
      | .ok (next_weight_cutoff1, d2) =>
        .ok (next_weight_cutoff1, { d2 with num_frames_decoded := d2.num_frames_decoded + 1 })

/-- One pass of the body of the loop of `Decode` (decoder.cc lines 50-56):
`ProcessEmitting`, then `ProcessNonemitting` with the cutoff it returned. -/
def Decoder.frameRound (cfg : Config α) (fst : Fst α) (decodable : Decodable α)
    (fuel : Nat) (d : Decoder α) : Except Fault (Decoder α) :=
  match Decoder.ProcessEmitting cfg fst decodable d with
  | .error e => .error e
  | .ok (cutoff, d1) => Decoder.ProcessNonemitting cfg fst fuel cutoff d1

/-- The frame loop of `Decode` (decoder.cc lines 49-57); one unit of fuel per
pass, and `fuel0` for the worklist of each pass. -/
def Decoder.decodeLoop (cfg : Config α) (fst : Fst α) (decodable : Decodable α)
    (fuel0 : Nat) : Nat → Decoder α → Except Fault (Decoder α)
  | 0, d =>
    if decodable.islastframe (d.num_frames_decoded - 1) then .ok d
    else .error .outOfFuel
  | fuel + 1, d =>
    if decodable.islastframe (d.num_frames_decoded - 1) then .ok d
    else
      match Decoder.frameRound cfg fst decodable fuel0 d with
      | .error e => .error e
      | .ok d1 => decodeLoop cfg fst decodable fuel0 fuel d1

/-- The method `Decoder::Decode` (decoder.cc lines 40-64), without the
timing output: the returned flag and the decoder it leaves behind. -/
def Decoder.Decode (cfg : Config α) (fst : Fst α) (decodable : Decodable α)
    (fuel : Nat) (d : Decoder α) : Except Fault (Bool × Decoder α) :=
  match Decoder.InitDecoding cfg fst fuel d with
  | .error e => .error e
  | .ok d0 =>
    match Decoder.decodeLoop cfg fst decodable fuel fuel d0 with
    | .error e => .error e
    | .ok d1 => .ok (decide (d1.toks.length > 0), d1)

/-- The search for the best token in `BestPath` (decoder.cc lines 281-291):
`(best_idx, best_cost)` after the tokens from position `i` on. -/
def Decoder.bestTokScan (fst : Fst α) :
    List (Token α) → Nat → Int → Ext α → Int × Ext α
  | [], _, best_idx, best_cost => (best_idx, best_cost)
  | tok :: rest, i, best_idx, best_cost =>
    let cost : Ext α := Ext.add (Ext.fin tok.cost) (Ext.ofFinal (fst.final tok.state))
    if Ext.neInf cost && Ext.lt cost best_cost then
      bestTokScan fst rest (i + 1) (i : Int) cost
    else
      bestTokScan fst rest (i + 1) best_idx best_cost

/-- The back-pointer walk of `BestPath` (decoder.cc lines 298-302); one unit
of fuel per hop. -/
def Decoder.walkOLabels (cfg : Config α) (olabels : List OLabel) :
    Nat → Int → List Int → Except Fault (List Int)
  | 0, olabel_idx, words =>
    if olabel_idx = cfg.kOLabelBeginIdx then .ok words else .error .outOfFuel
  | fuel + 1, olabel_idx, words =>
    if olabel_idx = cfg.kOLabelBeginIdx then .ok words
    else
      match vecAt olabels olabel_idx with
      | .error e => .error e
      | .ok olabel => walkOLabels cfg olabels fuel olabel.prev_idx (words ++ [olabel.olabel])

/-- The method `Decoder::BestPath` (decoder.cc lines 276-308). -/
def Decoder.BestPath (cfg : Config α) (fst : Fst α) (fuel : Nat) (d : Decoder α) :
    Except Fault (Hypothesis α) :=
  match Decoder.bestTokScan fst d.toks 0 cfg.kNotExist Ext.pinf with
  | (best_idx, best_cost) =>
    if best_idx = cfg.kNotExist then .ok ⟨[], Ext.fin 0⟩
    else
      match vecAt d.toks best_idx with
      | .error e => .error e
      | .ok best_tok =>
        match Decoder.walkOLabels cfg d.olabels fuel best_tok.olabel_idx [] with
        | .error e => .error e
        | .ok words =>
          .ok ⟨words, Ext.add best_cost (Ext.ofFinal (fst.final best_tok.state))⟩

/-! ## Notions of the specification -/

/-- The total cost `tok.cost + final_weight(tok.state)` of section 4.5 of the
specification: `none` when it is `+inf`, that is when the state is not final. -/
def Decoder.totalCost (fst : Fst α) (tok : Token α) : Option α :=
  match fst.final tok.state with
  | some f => some (tok.cost + f)
  | none => none

/-- The back-pointer chain of section 3.1 of the specification: `ChainTo cfg
olabels idx hops` says that following `prev_idx` from the arena index `idx`
meets exactly the entries `hops` (index and record, in the order met) and then
the sentinel. -/
inductive Decoder.ChainTo (cfg : Config α) (olabels : List OLabel) :
    Int → List (Nat × OLabel) → Prop where
  | sentinel : ChainTo cfg olabels cfg.kOLabelBeginIdx []
  | hop (idx : Int) (i : Nat) (ol : OLabel) (rest : List (Nat × OLabel)) :
      idx ≠ cfg.kOLabelBeginIdx → idx = (i : Int) → olabels[i]? = some ol →
      ChainTo cfg olabels ol.prev_idx rest → ChainTo cfg olabels idx ((i, ol) :: rest)

/-- Every record of the arena points to the sentinel or to an earlier record. -/
def Decoder.ArenaOrdered (cfg : Config α) (olabels : List OLabel) : Prop :=
  ∀ (i : Nat) (ol : OLabel), olabels[i]? = some ol →
    ol.prev_idx = cfg.kOLabelBeginIdx ∨ (0 ≤ ol.prev_idx ∧ ol.prev_idx < (i : Int))

/-- The back-pointer `idx` is the sentinel or an index into the arena. -/
def Decoder.Linked (cfg : Config α) (olabels : List OLabel) (idx : Int) : Prop :=
  idx = cfg.kOLabelBeginIdx ∨ (0 ≤ idx ∧ idx < (olabels.length : Int))

/-- Invariant P3 of the specification in structural form: the arena is ordered
and the back-pointer of every token of `cur` and of `prev` is the sentinel or an
index into the arena. -/
def Decoder.LinkedState (cfg : Config α) (d : Decoder α) : Prop :=
  Decoder.ArenaOrdered cfg d.olabels ∧
  ∀ t, (t ∈ d.toks ∨ t ∈ d.prev_toks) → Decoder.Linked cfg d.olabels t.olabel_idx

/-- Invariant P1 of the specification (uniqueness): no state id occurs twice
among the tokens of `cur`, and the state index binds a state `s` to a position
`p` exactly when the token at position `p` of `cur` is at state `s`. -/
def Decoder.P1 (d : Decoder α) : Prop :=
  (d.toks.map Token.state).Nodup ∧
  ∀ (s p : Int), d.state_idx.lookup s = some p ↔
    (0 ≤ p ∧ (d.toks.map Token.state)[p.toNat]? = some s)

/-- A property `I` of decoder states, with a set `Q` of WFST states, that the
calls of `InsertTok` made inside the decoder keep: the back-pointer passed is
`kNotExist` or that of a live token, and the target state is in `Q`, which
holds the states of the live tokens and is closed under the arcs. -/
structure Decoder.InsertInvariant (cfg : Config α) (fst : Fst α)
    (I : Decoder α → Prop) (Q : Int → Prop) : Prop where
  insert : ∀ (d : Decoder α) (arc : Arc α) (b : Int) (cost : α) (r : Bool) (d1 : Decoder α),
    I d → (b = cfg.kNotExist ∨ ∃ t, (t ∈ d.toks ∨ t ∈ d.prev_toks) ∧ b = t.olabel_idx) →
    Q arc.next_state → Decoder.InsertTok cfg arc b cost d = .ok (r, d1) → I d1
  states : ∀ (d : Decoder α) (t : Token α), I d → (t ∈ d.toks ∨ t ∈ d.prev_toks) → Q t.state
  closed : ∀ (s : Int) (arc : Arc α), Q s → arc ∈ fst.arcs s → Q arc.next_state

/-- An `InsertInvariant` that the clearing and swapping of the beams and the
frame counter keep as well, and whose `Q` holds the start state: a property
that `InitDecoding`, `ProcessEmitting` and `ProcessNonemitting` maintain. -/
structure Decoder.LoopInvariant (cfg : Config α) (fst : Fst α)
    (I : Decoder α → Prop) (Q : Int → Prop)
    extends Decoder.InsertInvariant cfg fst I Q : Prop where
  start : Q fst.start_state
  swap : ∀ (d : Decoder α), I d → I { d with prev_toks := d.toks, toks := [], state_idx := [] }
  clear : ∀ (d : Decoder α), I d → I { d with toks := [], prev_toks := [] }
  frames : ∀ (d : Decoder α) (n : Int), I d → I { d with num_frames_decoded := n }

/-- The decoder states that arise from a freshly constructed decoder by
`InitDecoding`, `ProcessEmitting`, `ProcessNonemitting` and `InsertTok`, the last
with a back-pointer that a caller inside the decoder passes: `kNotExist` (the
seed of `InitDecoding`) or the back-pointer of a token of `cur` or `prev`. -/
inductive Decoder.Reachable (cfg : Config α) (fst : Fst α) : Decoder α → Prop where
  | new : Reachable cfg fst Decoder.new
  | initDecoding (d d1 : Decoder α) (fuel : Nat) : Reachable cfg fst d →
      Decoder.InitDecoding cfg fst fuel d = .ok d1 → Reachable cfg fst d1
  | processEmitting (d d1 : Decoder α) (decodable : Decodable α) (c : Ext α) :
      Reachable cfg fst d →
      Decoder.ProcessEmitting cfg fst decodable d = .ok (c, d1) → Reachable cfg fst d1
  | processNonemitting (d d1 : Decoder α) (fuel : Nat) (cutoff : Ext α) :
      Reachable cfg fst d →
      Decoder.ProcessNonemitting cfg fst fuel cutoff d = .ok d1 → Reachable cfg fst d1
  | insertTok (d d1 : Decoder α) (arc : Arc α) (b : Int) (cost : α) (r : Bool) :
      Reachable cfg fst d →
      (b = cfg.kNotExist ∨ ∃ t, (t ∈ d.toks ∨ t ∈ d.prev_toks) ∧ b = t.olabel_idx) →
      Decoder.InsertTok cfg arc b cost d = .ok (r, d1) → Reachable cfg fst d1

/-- The states of the WFST that are reachable from the start state along arcs. -/
inductive Fst.Accessible (fst : Fst α) : Int → Prop where
  | start : Accessible fst fst.start_state
  | step (s : Int) (arc : Arc α) :
      Accessible fst s → arc ∈ fst.arcs s → Accessible fst arc.next_state

/-- The frame round `ProcessEmitting`, `ProcessNonemitting` performed `n`
times in a row. -/
def Decoder.frameRounds (cfg : Config α) (fst : Fst α) (decodable : Decodable α)
    (fuel0 : Nat) : Nat → Decoder α → Except Fault (Decoder α)
  | 0, d => .ok d
  | n + 1, d =>
    match Decoder.frameRound cfg fst decodable fuel0 d with
    | .error e => .error e
    | .ok d1 => frameRounds cfg fst decodable fuel0 n d1

/-! ## Concrete inputs -/

/-- A configuration over the integers: both sentinels are `-1`, `BEAM_SIZE` and
`CUTOFF_SAMPLES` are the example values of section 4.1 of the specification,
and `nth_element` leaves the samples as they are. -/
def exampleConfig : Config ℤ :=
  { kNotExist := -1, kOLabelBeginIdx := -1, kBeamSize := 3000, kBeamDelta := 1,
    kCutoffSamples := 200, kCutoffRandSeed := 1, nth_element := fun costs _ _ => costs }

/-- A scorer with `n` frames and the same log-likelihood `l` everywhere:
`islastframe i` holds exactly for `i = n - 1`. -/
def constScorer (n : Int) (l : ℤ) : Decodable ℤ :=
  { loglikelihood := fun _ _ => l, islastframe := fun i => decide (i = n - 1) }

/-- The single-state WFST: state `0` is the start state and is final with weight
`f`; there is no arc. -/
def singleStateFst (f : ℤ) : Fst ℤ :=
  { start_state := 0
    final := fun s => if s = 0 then some f else none
    arcs := fun _ => [] }

/-- A WFST in which no final state is reachable: the start state `0` has one
emitting self-loop (input `1`, no output, weight `0`), and the only final state,
`1`, has no arc into it. -/
def selfLoopFst : Fst ℤ :=
  { start_state := 0
    final := fun s => if s = 1 then some 0 else none
    arcs := fun s => if s = 0 then [⟨1, 0, 0, 0⟩] else [] }

/-- A WFST whose start state `0` reaches the final state `1` (final weight `0`)
by one epsilon-input arc with output `7` and weight `1`. -/
def epsToFinalFst : Fst ℤ :=
  { start_state := 0
    final := fun s => if s = 1 then some 0 else none
    arcs := fun s => if s = 0 then [⟨0, 7, 1, 1⟩] else [] }

/-- The WFST of scenario 2 of section 8.4 of the specification, with its labels
and weights as parameters: states `0`, `1`, `2`; start state `0`; state `2` the
only final state, with final weight `0`; the arcs `0 -[in = epsilon, out = a,
weight w1]-> 1` and `1 -[in = i, out = epsilon, weight w2]-> 2`. -/
def epsClosureFst (a i : Int) (w1 w2 : α) : Fst α :=
  { start_state := 0
    final := fun s => if s = 2 then some 0 else none
    arcs := fun s =>
      if s = 0 then [⟨0, a, 1, w1⟩] else if s = 1 then [⟨i, 0, 2, w2⟩] else [] }

/-- The decoder that `InitDecoding` leaves on a WFST whose start state `0` has
no epsilon-input arc: `cur` holds the seed token only. -/
def seedOnly : Decoder ℤ :=
  { toks := [⟨0, 0, -1⟩], prev_toks := [], state_idx := [(0, 0)], olabels := [],
    num_frames_decoded := 0, beam := 16 }

/-- The decoder that `Decode` leaves on `selfLoopFst` after three frames. -/
def selfLoopDecoded : Decoder ℤ :=
  { toks := [⟨0, 0, -1⟩], prev_toks := [⟨0, 0, -1⟩], state_idx := [(0, 0)], olabels := [],
    num_frames_decoded := 3, beam := 16 }

/-- The decoder that `InitDecoding` leaves on `epsToFinalFst`: the seed token
and the token the epsilon closure adds, with one record in the arena. -/
def closureDecoder : Decoder ℤ :=
  { toks := [⟨0, 0, -1⟩, ⟨1, 1, 0⟩], prev_toks := [], state_idx := [(1, 1), (0, 0)],
    olabels := [⟨-1, 7⟩], num_frames_decoded := 0, beam := 16 }

/-- A decoder whose `cur` holds one token, at state `3` with cost `5`. -/
def beamAtThree : Decoder ℤ :=
  { toks := [⟨3, 5, -1⟩], prev_toks := [], state_idx := [(3, 0)], olabels := [],
    num_frames_decoded := 1, beam := 16 }

/-- A decoder whose `cur` holds one token at state `2`, at the end of a chain of
two records: record `1` (symbol `9`) points to record `0` (symbol `7`), which
points to the sentinel. -/
def twoHopDecoder : Decoder ℤ :=
  { toks := [⟨2, 5, 1⟩], prev_toks := [], state_idx := [(2, 0)],
    olabels := [⟨-1, 7⟩, ⟨0, 9⟩], num_frames_decoded := 2, beam := 16 }

/-! ## Further notions and inputs -/

/-- The sample set as the specification words it (section 4.4.3): the cost of
the `k`-th token of `prev` is sampled exactly when the low 16 bits of the
generator after `k + 1` steps, divided by `65535`, are below
`CUTOFF_SAMPLES / |prev|`. `nprev` is `|prev|`, constant along the scan. -/
def specSamples (kCutoffSamples : Int) (nprev : Nat) :
    List (Token α) → Nat → List α
  | [], _ => []
  | tok :: rest, next_random =>
    let next_random1 := (next_random * 25214903917 + 11) % 2 ^ 64
    if decide (((next_random1 % 65536 : Nat) : Int) * (nprev : Int) < kCutoffSamples * 65535)
    then tok.cost :: specSamples kCutoffSamples nprev rest next_random1
    else specSamples kCutoffSamples nprev rest next_random1

/-- The element of rank `k` of the samples as the specification words it: the
value at index `k` when the samples are sorted in ascending order. -/
def rankElement (samples : List ℤ) (k : Nat) : Option ℤ :=
  (samples.insertionSort (· ≤ ·))[k]?

/-- The decoder that `Decode` leaves on `epsClosureFst 7 1 0 0` after the one
frame of a scorer with log-likelihood `0`. -/
def epsClosureDecoded : Decoder ℤ :=
  { toks := [⟨2, 0, 0⟩], prev_toks := [⟨0, 0, -1⟩, ⟨1, 0, 0⟩], state_idx := [(2, 0)],
    olabels := [⟨-1, 7⟩], num_frames_decoded := 1, beam := 16 }

/-- A beam of `300` tokens, at the states `0` to `299`, all with cost `0`. -/
def wideBeam : List (Token ℤ) :=
  ⟨0, 0, -1⟩ :: (List.range 299).map (fun (i : Nat) => ⟨Int.ofNat i + 1, 0, -1⟩)

/-- A decoder right after the swap of `ProcessEmitting`, with `wideBeam` as
`prev` and an empty `cur`. -/
def wideBeamPrev : Decoder ℤ :=
  { toks := [], prev_toks := wideBeam, state_idx := [], olabels := [],
    num_frames_decoded := 1, beam := 16 }

/-- The configuration `exampleConfig` with `BEAM_SIZE = 1`. -/
def tightConfig : Config ℤ :=
  { exampleConfig with kBeamSize := 1 }

/-- A decoder right after the swap of `ProcessEmitting`: `cur` is empty and
`prev` holds two tokens, with costs `5` and `3`. -/
def twoTokenPrev : Decoder ℤ :=
  { toks := [], prev_toks := [⟨0, 5, -1⟩, ⟨1, 3, -1⟩], state_idx := [], olabels := [],
    num_frames_decoded := 1, beam := 16 }

/-- A WFST with a state id that a `float` does not hold: the start state is
`16777217 = 2 ^ 24 + 1`, with one emitting arc of weight `10` to state `5`;
state `16777216` has one emitting arc of weight `0` to state `6`. -/
def wideStateFst : Fst ℤ :=
  { start_state := 16777217
    final := fun _ => none
    arcs := fun s =>
      if s = 16777217 then [⟨1, 0, 5, 10⟩]
      else if s = 16777216 then [⟨1, 0, 6, 0⟩] else [] }

/-- The decoder that `InitDecoding` leaves on `wideStateFst`. -/
def wideStateSeed : Decoder ℤ :=
  { toks := [⟨16777217, 0, -1⟩], prev_toks := [], state_idx := [(16777217, 0)],
    olabels := [], num_frames_decoded := 0, beam := 16 }

/-- A WFST with an epsilon cycle of negative weight: the start state `0` has an
epsilon-input self-loop of weight `-1` and no output. -/
def negLoopFst : Fst ℤ :=
  { start_state := 0
    final := fun _ => none
    arcs := fun s => if s = 0 then [⟨0, 0, 0, -1⟩] else [] }

/-- The decoder after the frame round on `wideStateFst` with log-likelihood
`0`. -/
def wideStateFrame : Decoder ℤ :=
  { toks := [⟨5, 10, -1⟩], prev_toks := [⟨16777217, 0, -1⟩], state_idx := [(5, 0)],
    olabels := [], num_frames_decoded := 1, beam := 16 }

/-- The cost of the token that the state index binds to state `s`, if there is
one: the cost `ProcessNonemitting` and `InsertTok` read for `s`. -/
def Decoder.costAt (d : Decoder α) (s : Int) : Option α :=
  match d.state_idx.lookup s with
  | some p =>
    match vecAt d.toks p with
    | .ok t => some t.cost
    | .error _ => none
  | none => none

/-- Invariant P4 of the specification for the state `s` and the arcs `arcs`: if
`s` holds a token of cost `c`, every epsilon-input arc among `arcs` whose total
`c + weight` is not above `cutoff` leads to a state that holds a token of cost
at most that total. -/
def Decoder.ClosedAt (cutoff : Ext α) (d : Decoder α) (s : Int) (arcs : List (Arc α)) :
    Prop :=
  ∀ c, Decoder.costAt d s = some c → ∀ a ∈ arcs, a.input_label = 0 →
    Ext.lt cutoff (Ext.fin (c + a.weight)) = false →
    ∃ c1, Decoder.costAt d a.next_state = some c1 ∧ c1 ≤ c + a.weight

/-- `EpsReach fst s w s1`: a walk along epsilon-input arcs leads from state `s`
to state `s1` with total weight `w`. -/
inductive Fst.EpsReach (fst : Fst α) : Int → α → Int → Prop where
  | refl (s : Int) : EpsReach fst s 0 s
  | tail (s : Int) (w : α) (s1 : Int) (a : Arc α) :
      EpsReach fst s w s1 → a ∈ fst.arcs s1 → a.input_label = 0 →
      EpsReach fst s (w + a.weight) a.next_state

/-- No cycle of epsilon-input arcs of the WFST has a negative total weight. -/
def Fst.NoNegEpsCycle (fst : Fst α) : Prop :=
  ∀ (s : Int) (w : α), fst.EpsReach s w s → 0 ≤ w

/-- The states and costs at the end of the walks of at most `n` epsilon-input
arcs that start at state `s` with cost `c`. -/
def Fst.pathEnds (fst : Fst α) : Nat → Int → α → List (Int × α)
  | 0, s, c => [(s, c)]
  | n + 1, s, c =>
    (s, c) :: ((fst.arcs s).filter (fun a => decide (a.input_label = 0))).flatMap
      (fun a => pathEnds fst n a.next_state (c + a.weight))

/-- The costs that a token can get in a run of `ProcessNonemitting` from the
tokens `toks` when no state is met twice: the costs at the end of the walks of
at most `n` epsilon-input arcs from the tokens. -/
def Fst.pathCosts (fst : Fst α) (n : Nat) (toks : List (Token α)) : List α :=
  toks.flatMap (fun t => (fst.pathEnds n t.state t.cost).map Prod.snd)

/-- `EpsPath fst init H s c vis`: the cost `c` at state `s` comes from a token of
the start (`init`) along epsilon-input arcs through the states `vis`, last one
first and no state twice, and `H` holds of every state on the way with the
cost the walk had there. -/
inductive Decoder.EpsPath (fst : Fst α) (init : Int → Option α) (H : Int → α → Prop) :
    Int → α → List Int → Prop where
  | init (s : Int) (c : α) : init s = some c → H s c → EpsPath fst init H s c [s]
  | step (s : Int) (c : α) (vis : List Int) (a : Arc α) :
      EpsPath fst init H s c vis → a ∈ fst.arcs s → a.input_label = 0 →
      a.next_state ∉ vis → H a.next_state (c + a.weight) →
      EpsPath fst init H a.next_state (c + a.weight) (a.next_state :: vis)

/-- The number of candidate costs below the cost at a state, one more than
all of them for a state without token. -/
def costRank (V : List α) : Option α → Nat
  | none => V.length + 1
  | some c => V.countP (fun v => decide (v < c))

/-- The measure that bounds the insertions of `ProcessNonemitting`: the sum of
the ranks of the costs at the states `S`. -/
def Decoder.rankSum (S : List Int) (V : List α) (d : Decoder α) : Nat :=
  (S.map (fun s => costRank V (Decoder.costAt d s))).sum

/-- A WFST with a cycle of epsilon-input arcs of weight `1`: `0 -> 1` with
weight `1` and output `7`, and `1 -> 0` with weight `0`. -/
def epsCycleFst : Fst ℤ :=
  { start_state := 0
    final := fun _ => none
    arcs := fun s => if s = 0 then [⟨0, 7, 1, 1⟩] else if s = 1 then [⟨0, 0, 0, 0⟩] else [] }

/-- Every cost that the state index of `d` gives comes from a token of `d0`
along a path of epsilon-input arcs that visits no state twice, and every state
on the path holds in `d` a token that costs no more than the path did there. -/
def Decoder.Derived (fst : Fst α) (d0 d : Decoder α) : Prop :=
  ∀ s c, Decoder.costAt d s = some c →
    ∃ vis, Decoder.EpsPath fst (Decoder.costAt d0)
      (fun s1 c1 => ∃ c2, Decoder.costAt d s1 = some c2 ∧ c2 ≤ c1) s c vis

/-- The decoder whose `cur` is one token at state `0` of cost `k`. -/
def negLoopSeed (k : ℤ) : Decoder ℤ :=
  { toks := [⟨0, k, -1⟩], prev_toks := [], state_idx := [(0, 0)], olabels := [],
    num_frames_decoded := 0, beam := 16 }

/-! ## Costs as `float`

`InsertTok` takes its cost as a `float` (decoder.cc line 86) and `Token` is
built from a `float` (line 13), so a cost that `cur` holds is one of the
finitely many values of that type. The definitions above leave this out; the
worklist of `ProcessNonemitting` is embedded here a second time with it, for
the question of how long the worklist runs. A `double` stays exact: it is a
value of `Ext ℚ`. -/

/-- A value of the type `float` (IEEE 754 binary32) by its three fields: the
sign bit, the biased exponent and the fraction. -/
structure F32 where
  sign : Bool
  expo : Fin 256
  frac : Fin 8388608
  deriving DecidableEq, Repr

/-- The magnitude of a finite `float` in units of `2 ^ (-149)`, its least
positive value: the fraction of a subnormal (`expo = 0`), and otherwise
`(2 ^ 23 + frac) * 2 ^ (expo - 1)`. -/
def F32.scaled (x : F32) : Nat :=
  if x.expo.val = 0 then x.frac.val else (8388608 + x.frac.val) * 2 ^ (x.expo.val - 1)

/-- The value of a `float`, which is also its conversion to `double`: the
exponent `255` holds the infinities (fraction `0`) and the `NaN`s. -/
def F32.toExt (x : F32) : Ext ℚ :=
  if x.expo.val = 255 then
    if x.frac.val = 0 then (if x.sign then Ext.ninf else Ext.pinf) else Ext.nan
  else Ext.fin ((if x.sign then -(x.scaled : ℚ) else (x.scaled : ℚ)) / 2 ^ 149)

/-- The conversion of a finite `double` to `float`: the nearest value, ties to
the even significand, and an infinity past the largest finite value. `b` is the
magnitude in units of `2 ^ (-150)`, cut off, `sticky` tells that something was
cut off, and `sh` is the number of low bits of `b` that the significand drops. -/
def F32.ofRat (q : ℚ) : F32 :=
  let n := q.num.natAbs * 2 ^ 150
  let b := n / q.den
  let sticky := decide (n % q.den ≠ 0)
  let sh := max 1 (droppedBits b b 0)
  let q0 := b / 2 ^ sh
  let r := b % 2 ^ sh
  let half := 2 ^ (sh - 1)
  let m := if r > half ∨ (r = half ∧ (sticky = true ∨ q0 % 2 = 1)) then q0 + 1 else q0
  let e := if m < 8388608 then 0 else if m = 16777216 then sh + 1 else sh
  let f := if m < 8388608 then m else if m = 16777216 then 0 else m - 8388608
  if h : e < 255 then
    ⟨decide (q < 0), ⟨e, Nat.lt_trans h (by decide)⟩, ⟨f % 8388608, Nat.mod_lt _ (by decide)⟩⟩
  else ⟨decide (q < 0), 255, 0⟩

/-- The conversion of a `double` to `float`, which the call
`InsertTok(arc, from_tok.olabel_idx(), total_cost)` makes (decoder.cc line 194). -/
def F32.ofExt : Ext ℚ → F32
  | .fin q => F32.ofRat q
  | .pinf => ⟨false, 255, 0⟩
  | .ninf => ⟨true, 255, 0⟩
  | .nan => ⟨false, 255, 4194304⟩

/-- The place of a `float` in the order of the values: the sign-and-magnitude
bit pattern read as a number, counted down from `2 ^ 31` under the sign bit. -/
def F32.key (x : F32) : Nat :=
  if x.sign then 2147483648 - (x.expo.val * 8388608 + x.frac.val)
  else 2147483648 + (x.expo.val * 8388608 + x.frac.val)

/-- The method `Decoder::InsertTok` (decoder.cc lines 86-115) on `float`
costs: the test `toks_[tok_idx].cost() > cost` of line 106 compares two values
of that type. -/
def Decoder.InsertTokFloat (cfg : Config F32) (arc : Arc (Ext ℚ)) (olabel_idx : Int) (cost : F32)
    (d : Decoder F32) : Except Fault (Bool × Decoder F32) :=
  let next_state := arc.next_state
  let tok_idx := pk_hashtable_find d.state_idx next_state cfg.kNotExist
  let next_olabel_idx : Int :=
    if arc.output_label ≠ 0 then (d.olabels.length : Int) else olabel_idx
  let olabels : List OLabel :=
    if arc.output_label ≠ 0 then d.olabels ++ [⟨olabel_idx, arc.output_label⟩]
    else d.olabels
  if tok_idx = cfg.kNotExist then
    .ok (true, { d with
      olabels := olabels
      toks := d.toks ++ [⟨next_state, cost, next_olabel_idx⟩]
      state_idx := pk_hashtable_upsert d.state_idx next_state (d.toks.length : Int) })
  else
    match vecAt d.toks tok_idx with
    | .error e => .error e
    | .ok tok =>
      if Ext.lt cost.toExt tok.cost.toExt then
        .ok (true, { d with
          olabels := olabels
          toks := d.toks.set tok_idx.toNat ⟨next_state, cost, next_olabel_idx⟩ })
      else
        .ok (false, { d with olabels := olabels })

/-- The addition of two `float`s evaluated in `float`: the exact sum, rounded. -/
def F32.plus (x y : Ext ℚ) : Ext ℚ := (F32.ofExt (Ext.add x y)).toExt

/-- The inner loop of `ProcessNonemitting` (decoder.cc lines 182-196) on
`float` costs. `total_cost` is a `double`, the sum
`from_tok.cost() + arc->weight + ac_cost` with `ac_cost = 0.0`; it is compared
with the `double` cutoff as it is and converted to `float` at the call of
`InsertTok`. The type of `arc->weight` and the precision in which the two
additions are evaluated depend on decoder.h and fst.h (not among the sources):
a weight is any value of `Ext ℚ`, a `float` or a `double` among them, and the
operator is the parameter `plus`, of which `Ext.add` is the exact sum and
`F32.plus` the sum in `float`. -/
def Decoder.nonemittingArcsFloat (cfg : Config F32) (plus : Ext ℚ → Ext ℚ → Ext ℚ)
    (cutoff : Ext ℚ) (tok_idx : Int) :
    List (Arc (Ext ℚ)) → List Int → Decoder F32 → Except Fault (List Int × Decoder F32)
  | [], queue, d => .ok (queue, d)
  | arc :: rest, queue, d =>
    if arc.input_label ≠ 0 then nonemittingArcsFloat cfg plus cutoff tok_idx rest queue d
    else
      match vecAt d.toks tok_idx with
      | .error e => .error e
      | .ok from_tok =>
        let total_cost : Ext ℚ :=
          plus (plus from_tok.cost.toExt arc.weight) (Ext.fin 0)
        if Ext.lt cutoff total_cost then
          nonemittingArcsFloat cfg plus cutoff tok_idx rest queue d
        else
          match Decoder.InsertTokFloat cfg arc from_tok.olabel_idx (F32.ofExt total_cost) d with
          | .error e => .error e
          | .ok (inserted, d1) =>
            nonemittingArcsFloat cfg plus cutoff tok_idx rest
              (if inserted then arc.next_state :: queue else queue) d1

/-- The worklist loop of `ProcessNonemitting` (decoder.cc lines 171-197) on
`float` costs; `fuel` bounds the number of pops. -/
def Decoder.nonemittingLoopFloat (cfg : Config F32) (plus : Ext ℚ → Ext ℚ → Ext ℚ)
    (fst : Fst (Ext ℚ)) (cutoff : Ext ℚ) :
    Nat → List Int → Decoder F32 → Except Fault (Decoder F32)
  | _, [], d => .ok d
  | 0, _ :: _, _ => .error .outOfFuel
  | fuel + 1, state :: queue, d =>
    let tok_idx := pk_hashtable_find d.state_idx state cfg.kNotExist
    if tok_idx = cfg.kNotExist then .error .assertion
    else
      match Decoder.nonemittingArcsFloat cfg plus cutoff tok_idx (fst.arcs state) queue d with
      | .error e => .error e
      | .ok (queue1, d1) => nonemittingLoopFloat cfg plus fst cutoff fuel queue1 d1

/-- The method `Decoder::ProcessNonemitting` (decoder.cc lines 164-198) on
`float` costs. -/
def Decoder.ProcessNonemittingFloat (cfg : Config F32) (plus : Ext ℚ → Ext ℚ → Ext ℚ)
    (fst : Fst (Ext ℚ)) (fuel : Nat) (cutoff : Ext ℚ) (d : Decoder F32) :
    Except Fault (Decoder F32) :=
  Decoder.nonemittingLoopFloat cfg plus fst cutoff fuel (d.toks.map Token.state).reverse d

/-- The measure of a state in the worklist: the place of the cost that `cur`
holds there, and `2 ^ 32`, above every place, where it holds none. -/
def F32.rank : Option F32 → Nat
  | none => 4294967296
  | some c => F32.key c

/-- The measure of `cur` over the states `S`. -/
def Decoder.rankSumFloat (S : List Int) (d : Decoder F32) : Nat :=
  (S.map (fun s => F32.rank (Decoder.costAt d s))).sum

/-- The constants of `exampleConfig` as `float`s. -/
def floatConfig : Config F32 :=
  { kNotExist := -1, kOLabelBeginIdx := -1, kBeamSize := 3000, kBeamDelta := ⟨false, 127, 0⟩,
    kCutoffSamples := 200, kCutoffRandSeed := 1, nth_element := fun costs _ _ => costs }

/-- The WFST of `negLoopFst` for the worklist on `float` costs: the start state
`0` has an epsilon-input self-loop of weight `-1.0`. -/
def negLoopFloatFst : Fst (Ext ℚ) :=
  { start_state := 0
    final := fun _ => none
    arcs := fun s => if s = 0 then [⟨0, 0, 0, Ext.fin (-1)⟩] else [] }

/-- The decoder whose `cur` is one token at state `0` with the `float` cost `c`. -/
def floatSeed (c : F32) : Decoder F32 :=
  { toks := [⟨0, c, -1⟩], prev_toks := [], state_idx := [(0, 0)], olabels := [],
    num_frames_decoded := 0, beam := ⟨false, 131, 0⟩ }

/-! ## Theorems -/

set_option linter.unusedSectionVars false

open Decoder

/-! ### `BestPath` -/

theorem Ext.lt_fin_of_lt_of_lt {x y : α} {b : Ext α} (h1 : y < x)
    (h2 : Ext.lt (Ext.fin x) b = true) : Ext.lt (Ext.fin y) b = true := by
  cases b <;> simp_all [Ext.lt]
  exact lt_trans h1 h2

theorem Ext.lt_of_lt_fin_of_not {x y : α} {b : Ext α}
    (h1 : Ext.lt (Ext.fin y) b = true) (h2 : Ext.lt (Ext.fin x) b = false) : y < x := by
  cases b <;> simp_all [Ext.lt]
  exact lt_of_lt_of_le h1 h2

theorem bestTokScan_spec (fst : Fst α) (toks : List (Token α)) :
    ∀ (i : Nat) (bi : Int) (bc : Ext α),
      (bestTokScan fst toks i bi bc = (bi, bc) ∧
        ∀ t ∈ toks, ∀ c, totalCost fst t = some c → Ext.lt (Ext.fin c) bc = false) ∨
      (∃ (k : Nat) (t : Token α) (c : α), toks[k]? = some t ∧ totalCost fst t = some c ∧
        bestTokScan fst toks i bi bc = (((i + k : Nat) : Int), Ext.fin c) ∧
        Ext.lt (Ext.fin c) bc = true ∧
        (∀ u ∈ toks, ∀ e, totalCost fst u = some e → c ≤ e) ∧
        (∀ j u e, j < k → toks[j]? = some u → totalCost fst u = some e → c < e)) := by
  induction toks with
  | nil => intro i bi bc; left; simp [bestTokScan]
  | cons tok rest ih =>
    intro i bi bc
    cases hf : fst.final tok.state with
    | none =>
      have htc : totalCost fst tok = none := by simp [totalCost, hf]
      have hstep : bestTokScan fst (tok :: rest) i bi bc = bestTokScan fst rest (i + 1) bi bc := by
        simp [bestTokScan, hf, Ext.ofFinal, Ext.add, Ext.neInf]
      rcases ih (i + 1) bi bc with ⟨h1, h2⟩ | ⟨k, t, c, hk, hc, hres, hlt, hmin, hfirst⟩
      · left
        refine ⟨by rw [hstep, h1], ?_⟩
        intro t ht c hc
        rcases List.mem_cons.1 ht with rfl | ht
        · rw [htc] at hc; cases hc
        · exact h2 t ht c hc
      · right
        refine ⟨k + 1, t, c, by simpa using hk, hc, ?_, hlt, ?_, ?_⟩
        · rw [hstep, hres]; congr 2; omega
        · intro u hu e he
          rcases List.mem_cons.1 hu with rfl | hu
          · rw [htc] at he; cases he
          · exact hmin u hu e he
        · intro j u e hj hu he
          cases j with
          | zero =>
            simp at hu; subst hu; rw [htc] at he; cases he
          | succ j => exact hfirst j u e (by omega) (by simpa using hu) he
    | some f =>
      have htc : totalCost fst tok = some (tok.cost + f) := by simp [totalCost, hf]
      by_cases hlt0 : Ext.lt (Ext.fin (tok.cost + f)) bc = true
      · have hstep : bestTokScan fst (tok :: rest) i bi bc =
            bestTokScan fst rest (i + 1) (i : Int) (Ext.fin (tok.cost + f)) := by
          simp [bestTokScan, hf, Ext.ofFinal, Ext.add, Ext.neInf, hlt0]
        right
        rcases ih (i + 1) (i : Int) (Ext.fin (tok.cost + f)) with
          ⟨h1, h2⟩ | ⟨k, t, c, hk, hc, hres, hlt, hmin, hfirst⟩
        · refine ⟨0, tok, tok.cost + f, by simp, htc, by rw [hstep, h1]; simp, hlt0, ?_, ?_⟩
          · intro u hu e he
            rcases List.mem_cons.1 hu with rfl | hu
            · rw [htc] at he; cases he; exact le_refl _
            · have := h2 u hu e he
              simpa [Ext.lt] using this
          · intro j u e hj; omega
        · have hcf : c < tok.cost + f := by simpa [Ext.lt] using hlt
          refine ⟨k + 1, t, c, by simpa using hk, hc, ?_, Ext.lt_fin_of_lt_of_lt hcf hlt0, ?_, ?_⟩
          · rw [hstep, hres]; congr 2; omega
          · intro u hu e he
            rcases List.mem_cons.1 hu with rfl | hu
            · rw [htc] at he; cases he; exact le_of_lt hcf
            · exact hmin u hu e he
          · intro j u e hj hu he
            cases j with
            | zero => simp at hu; subst hu; rw [htc] at he; cases he; exact hcf
            | succ j => exact hfirst j u e (by omega) (by simpa using hu) he
      · have hlt0' : Ext.lt (Ext.fin (tok.cost + f)) bc = false := by simpa using hlt0
        have hstep : bestTokScan fst (tok :: rest) i bi bc = bestTokScan fst rest (i + 1) bi bc := by
          simp [bestTokScan, hf, Ext.ofFinal, Ext.add, Ext.neInf, hlt0']
        rcases ih (i + 1) bi bc with ⟨h1, h2⟩ | ⟨k, t, c, hk, hc, hres, hlt, hmin, hfirst⟩
        · left
          refine ⟨by rw [hstep, h1], ?_⟩
          intro t ht c hc
          rcases List.mem_cons.1 ht with rfl | ht
          · rw [htc] at hc; cases hc; exact hlt0'
          · exact h2 t ht c hc
        · right
          have hcf : c < tok.cost + f := Ext.lt_of_lt_fin_of_not hlt hlt0'
          refine ⟨k + 1, t, c, by simpa using hk, hc, ?_, hlt, ?_, ?_⟩
          · rw [hstep, hres]; congr 2; omega
          · intro u hu e he
            rcases List.mem_cons.1 hu with rfl | hu
            · rw [htc] at he; cases he; exact le_of_lt hcf
            · exact hmin u hu e he
          · intro j u e hj hu he
            cases j with
            | zero => simp at hu; subst hu; rw [htc] at he; cases he; exact hcf
            | succ j => exact hfirst j u e (by omega) (by simpa using hu) he

theorem vecAt_natCast {τ : Type} (v : List τ) (k : Nat) (x : τ) (h : v[k]? = some x) :
    vecAt v (k : Int) = .ok x := by
  have h0 : ¬ ((k : Int) < 0) := by omega
  simp [vecAt, h0, h]

theorem vecAt_ok {τ : Type} (v : List τ) (i : Int) (x : τ) (h : vecAt v i = .ok x) :
    0 ≤ i ∧ v[i.toNat]? = some x := by
  unfold vecAt at h
  split at h
  · cases h
  · split at h
    · rename_i y hy
      cases h
      exact ⟨by omega, hy⟩
    · cases h

theorem totalCost_none_iff (fst : Fst α) (t : Token α) :
    totalCost fst t = none ↔ fst.final t.state = none := by
  unfold totalCost
  cases fst.final t.state <;> simp

theorem walkOLabels_of_chain (cfg : Config α) (olabels : List OLabel) {idx : Int}
    {hops : List (Nat × OLabel)} (h : ChainTo cfg olabels idx hops) :
    ∀ (fuel : Nat) (acc : List Int), hops.length ≤ fuel →
      walkOLabels cfg olabels fuel idx acc = .ok (acc ++ hops.map (fun p => p.2.olabel)) := by
  induction h with
  | sentinel =>
    intro fuel acc _
    cases fuel <;> simp [walkOLabels]
  | hop idx i ol rest hne hidx hol _ ih =>
    intro fuel acc hlen
    cases fuel with
    | zero => simp at hlen
    | succ fuel =>
      have hlen1 : rest.length ≤ fuel := by simpa using hlen
      subst hidx
      simp [walkOLabels, hne, vecAt_natCast olabels i ol hol, ih fuel _ hlen1]

theorem chain_le_start (cfg : Config α) (olabels : List OLabel)
    (hord : ArenaOrdered cfg olabels) {idx : Int} {hops : List (Nat × OLabel)}
    (h : ChainTo cfg olabels idx hops) : ∀ p ∈ hops, (p.1 : Int) ≤ idx := by
  induction h with
  | sentinel => intro p hp; cases hp
  | hop idx i ol rest hne hidx hol hrest ih =>
    intro p hp
    rcases List.mem_cons.1 hp with rfl | hp
    · simp [hidx]
    · have h1 := ih p hp
      rcases hord i ol hol with hs | ⟨_, hlt⟩
      · rw [hs] at hrest
        cases hrest with
        | sentinel => cases hp
        | hop _ _ _ _ hne2 => exact absurd rfl hne2
      · omega

theorem chain_decreasing (cfg : Config α) (olabels : List OLabel)
    (hord : ArenaOrdered cfg olabels) {idx : Int} {hops : List (Nat × OLabel)}
    (h : ChainTo cfg olabels idx hops) : hops.Pairwise (fun p q => q.1 < p.1) := by
  induction h with
  | sentinel => exact List.Pairwise.nil
  | hop idx i ol rest hne hidx hol hrest ih =>
    refine List.Pairwise.cons ?_ ih
    intro q hq
    have h1 := chain_le_start cfg olabels hord hrest q hq
    rcases hord i ol hol with hs | ⟨_, hlt⟩
    · rw [hs] at hrest
      cases hrest with
      | sentinel => cases hq
      | hop _ _ _ _ hne2 => exact absurd rfl hne2
    · show q.1 < i
      omega

theorem chain_of_ordered (cfg : Config α) (olabels : List OLabel)
    (hord : ArenaOrdered cfg olabels) :
    ∀ (n : Nat) (idx : Int), n ≤ olabels.length →
      (idx = cfg.kOLabelBeginIdx ∨ (0 ≤ idx ∧ idx < (n : Int))) →
      ∃ hops, ChainTo cfg olabels idx hops ∧ hops.length ≤ n := by
  intro n
  induction n with
  | zero =>
    intro idx _ h
    rcases h with rfl | ⟨h1, h2⟩
    · exact ⟨[], ChainTo.sentinel, le_refl _⟩
    · omega
  | succ n ih =>
    intro idx hn h
    by_cases hs : idx = cfg.kOLabelBeginIdx
    · subst hs; exact ⟨[], ChainTo.sentinel, by simp⟩
    · rcases h with h | ⟨h1, h2⟩
      · exact absurd h hs
      · have hi : idx = ((idx.toNat : Nat) : Int) := by omega
        have hlt : idx.toNat < olabels.length := by omega
        have hol : olabels[idx.toNat]? = some (olabels[idx.toNat]) := List.getElem?_eq_getElem hlt
        have hprev := hord idx.toNat _ hol
        have hprev' : olabels[idx.toNat].prev_idx = cfg.kOLabelBeginIdx ∨
            (0 ≤ olabels[idx.toNat].prev_idx ∧ olabels[idx.toNat].prev_idx < (n : Int)) := by
          rcases hprev with hp | ⟨hp1, hp2⟩
          · exact Or.inl hp
          · exact Or.inr ⟨hp1, by omega⟩
        obtain ⟨rest, hrest, hlen⟩ := ih _ (by omega) hprev'
        exact ⟨(idx.toNat, olabels[idx.toNat]) :: rest,
          ChainTo.hop idx idx.toNat _ rest hs hi hol hrest, by simpa using hlen⟩

theorem BestPath_of_none (cfg : Config α) (fst : Fst α) (fuel : Nat) (d : Decoder α)
    (h : ∀ t ∈ d.toks, totalCost fst t = none) :
    BestPath cfg fst fuel d = .ok ⟨[], Ext.fin 0⟩ := by
  rcases bestTokScan_spec fst d.toks 0 cfg.kNotExist Ext.pinf with
    ⟨h1, _⟩ | ⟨k, t, c, hk, hc, _⟩
  · simp [BestPath, h1]
  · have := h t (List.getElem?_mem hk)
    rw [hc] at this; cases this

theorem BestPath_of_some (cfg : Config α) (fst : Fst α) (d : Decoder α)
    (hneg : cfg.kNotExist < 0) (h : ∃ t ∈ d.toks, totalCost fst t ≠ none) :
    ∃ (k : Nat) (w : Token α) (c : α), d.toks[k]? = some w ∧ totalCost fst w = some c ∧
      (∀ u ∈ d.toks, ∀ e, totalCost fst u = some e → c ≤ e) ∧
      (∀ j u e, j < k → d.toks[j]? = some u → totalCost fst u = some e → c < e) ∧
      ∀ fuel, BestPath cfg fst fuel d =
        (match walkOLabels cfg d.olabels fuel w.olabel_idx [] with
          | .error e => .error e
          | .ok words => .ok ⟨words, Ext.add (Ext.fin c) (Ext.ofFinal (fst.final w.state))⟩) := by
  rcases bestTokScan_spec fst d.toks 0 cfg.kNotExist Ext.pinf with
    ⟨_, h2⟩ | ⟨k, t, c, hk, hc, hres, _, hmin, hfirst⟩
  · obtain ⟨t, ht, hne⟩ := h
    cases hc : totalCost fst t with
    | none => exact absurd hc hne
    | some c => have := h2 t ht c hc; simp [Ext.lt] at this
  · refine ⟨k, t, c, hk, hc, hmin, hfirst, ?_⟩
    intro fuel
    have hk0 : ((0 + k : Nat) : Int) ≠ cfg.kNotExist := by omega
    simp only [BestPath, hres]
    rw [if_neg hk0]
    have hv : vecAt d.toks ((0 + k : Nat) : Int) = .ok t := by
      simpa using vecAt_natCast d.toks k t hk
    rw [hv]

/-- C1 (the code departs from the claim). On the single-state WFST whose start
state is final with weight `1` and has no arc, `Decode` over zero frames leaves
the seed token (state `0`, cost `0`) in `cur`, and `BestPath` then returns the
empty word list with weight `2`: the final weight is counted twice, where the
claim has the winning total cost `0 + 1 = 1`. Over one frame the beam dies and
`BestPath` returns weight `0`. -/
theorem BestPath_single_state_counts_final_twice :
    Decode exampleConfig (singleStateFst 1) (constScorer 0 0) 1 Decoder.new =
        .ok (true, seedOnly) ∧
      seedOnly.toks = [⟨0, 0, -1⟩] ∧
      totalCost (singleStateFst 1) ⟨0, 0, -1⟩ = some 1 ∧
      BestPath exampleConfig (singleStateFst 1) 0 seedOnly = .ok ⟨[], Ext.fin 2⟩ ∧
      (∃ d, Decode exampleConfig (singleStateFst 1) (constScorer 1 0) 1 Decoder.new =
          .ok (false, d) ∧
        BestPath exampleConfig (singleStateFst 1) 0 d = .ok ⟨[], Ext.fin 0⟩) := by
  refine ⟨by rfl, by rfl, by rfl, by rfl, ?_⟩
  exact ⟨_, by rfl, by rfl⟩

/-- C2. In a decoder state in which every token of `cur` has a back-pointer
chain that reaches the sentinel (chain validity) and some token has a finite
total cost, `BestPath` returns, with any fuel that covers the hops, exactly the
output symbols of the records met on the chain of the winning token, in the
order met; the number of words is the number of hops; and when every record
points to an earlier one, as in every state the decoder builds, the indices
met are strictly decreasing, so the first word is the most recently created
record and the last word the earliest one. -/
theorem BestPath_words_follow_chain (cfg : Config α) (fst : Fst α) (d : Decoder α)
    (hneg : cfg.kNotExist < 0)
    (hvalid : ∀ t ∈ d.toks, ∃ hops, ChainTo cfg d.olabels t.olabel_idx hops)
    (hfin : ∃ t ∈ d.toks, totalCost fst t ≠ none) :
    ∃ (k : Nat) (w : Token α) (c : α) (hops : List (Nat × OLabel)),
      d.toks[k]? = some w ∧ totalCost fst w = some c ∧
      (∀ u ∈ d.toks, ∀ e, totalCost fst u = some e → c ≤ e) ∧
      ChainTo cfg d.olabels w.olabel_idx hops ∧
      (∀ fuel, hops.length ≤ fuel → ∃ h : Hypothesis α,
        BestPath cfg fst fuel d = .ok h ∧
        h.words = hops.map (fun p => p.2.olabel) ∧ h.words.length = hops.length) ∧
      (ArenaOrdered cfg d.olabels → hops.Pairwise (fun p q => q.1 < p.1)) := by
  obtain ⟨k, w, c, hk, hc, hmin, _, hbest⟩ := BestPath_of_some cfg fst d hneg hfin
  obtain ⟨hops, hchain⟩ := hvalid w (List.getElem?_mem hk)
  refine ⟨k, w, c, hops, hk, hc, hmin, hchain, ?_, ?_⟩
  · intro fuel hfuel
    have hwalk := walkOLabels_of_chain cfg d.olabels hchain fuel [] hfuel
    rw [hbest fuel, hwalk]
    exact ⟨_, rfl, by simp, by simp⟩
  · intro hord
    exact chain_decreasing cfg d.olabels hord hchain

/-- Witness of C2: the chain of two records of `twoHopDecoder`. -/
theorem BestPath_words_follow_chain_witness :
    exampleConfig.kNotExist < 0 ∧
    ∃ (k : Nat) (w : Token ℤ) (c : ℤ) (hops : List (Nat × OLabel)),
      twoHopDecoder.toks[k]? = some w ∧ totalCost (epsClosureFst 7 1 (0 : ℤ) 0) w = some c ∧
      (∀ u ∈ twoHopDecoder.toks,
        ∀ e, totalCost (epsClosureFst 7 1 (0 : ℤ) 0) u = some e → c ≤ e) ∧
      ChainTo exampleConfig twoHopDecoder.olabels w.olabel_idx hops ∧
      (∀ fuel, hops.length ≤ fuel → ∃ h : Hypothesis ℤ,
        BestPath exampleConfig (epsClosureFst 7 1 (0 : ℤ) 0) fuel twoHopDecoder = .ok h ∧
        h.words = hops.map (fun p => p.2.olabel) ∧ h.words.length = hops.length) ∧
      (ArenaOrdered exampleConfig twoHopDecoder.olabels →
        hops.Pairwise (fun p q => q.1 < p.1)) :=
  ⟨by decide,
    BestPath_words_follow_chain exampleConfig (epsClosureFst 7 1 (0 : ℤ) 0) twoHopDecoder
      (by decide)
      (by
        intro t ht
        simp only [twoHopDecoder, List.mem_singleton] at ht
        subst ht
        exact ⟨[(1, ⟨0, 9⟩), (0, ⟨-1, 7⟩)],
          ChainTo.hop 1 1 ⟨0, 9⟩ _ (by decide) rfl rfl
            (ChainTo.hop 0 0 ⟨-1, 7⟩ _ (by decide) rfl rfl ChainTo.sentinel)⟩)
      ⟨⟨2, 5, 1⟩, by simp [twoHopDecoder], by simp [totalCost, epsClosureFst]⟩⟩

/-- C3. When no token of `cur` has a finite total cost, in particular when
`cur` is empty, `BestPath` returns the empty word list with weight `0`, without
walking any chain. Otherwise the token whose chain it walks is at the lowest
position among the tokens whose total cost is the minimum over `cur`. -/
theorem BestPath_picks_min_total (cfg : Config α) (fst : Fst α)
    (d : Decoder α) (hneg : cfg.kNotExist < 0) :
    ((∀ t ∈ d.toks, totalCost fst t = none) →
      ∀ fuel, BestPath cfg fst fuel d = .ok ⟨[], Ext.fin 0⟩) ∧
    ((∃ t ∈ d.toks, totalCost fst t ≠ none) →
      ∃ (k : Nat) (w : Token α) (c : α), d.toks[k]? = some w ∧ totalCost fst w = some c ∧
        (∀ u ∈ d.toks, ∀ e, totalCost fst u = some e → c ≤ e) ∧
        (∀ j u e, j < k → d.toks[j]? = some u → totalCost fst u = some e → c < e) ∧
        ∀ fuel, BestPath cfg fst fuel d =
          (match walkOLabels cfg d.olabels fuel w.olabel_idx [] with
            | .error e => .error e
            | .ok words =>
              .ok ⟨words, Ext.add (Ext.fin c) (Ext.ofFinal (fst.final w.state))⟩)) :=
  ⟨fun h fuel => BestPath_of_none cfg fst fuel d h, BestPath_of_some cfg fst d hneg⟩

/-- Witness of C3: the one finite token of `twoHopDecoder` is the winner. -/
theorem BestPath_picks_min_total_witness :
    exampleConfig.kNotExist < 0 ∧
    ∃ (k : Nat) (w : Token ℤ) (c : ℤ), twoHopDecoder.toks[k]? = some w ∧
      totalCost (epsClosureFst 7 1 (0 : ℤ) 0) w = some c ∧
      (∀ u ∈ twoHopDecoder.toks,
        ∀ e, totalCost (epsClosureFst 7 1 (0 : ℤ) 0) u = some e → c ≤ e) ∧
      (∀ j u e, j < k → twoHopDecoder.toks[j]? = some u →
        totalCost (epsClosureFst 7 1 (0 : ℤ) 0) u = some e → c < e) ∧
      ∀ fuel, BestPath exampleConfig (epsClosureFst 7 1 (0 : ℤ) 0) fuel twoHopDecoder =
        (match walkOLabels exampleConfig twoHopDecoder.olabels fuel w.olabel_idx [] with
          | .error e => .error e
          | .ok words => .ok ⟨words, Ext.add (Ext.fin c)
              (Ext.ofFinal ((epsClosureFst 7 1 (0 : ℤ) 0).final w.state))⟩) :=
  ⟨by decide,
    (BestPath_picks_min_total exampleConfig (epsClosureFst 7 1 (0 : ℤ) 0) twoHopDecoder
      (by decide)).2
      ⟨⟨2, 5, 1⟩, by simp [twoHopDecoder], by simp [totalCost, epsClosureFst]⟩⟩

/-! ### `InsertTok` -/

theorem lookup_upsert (table : List (Int × Int)) (key value s : Int) :
    (pk_hashtable_upsert table key value).lookup s =
      if s = key then some value else table.lookup s := by
  unfold pk_hashtable_upsert
  rw [List.lookup_cons]
  by_cases h : s = key
  · simp [h]
  · have : (s == key) = false := by simpa using h
    simp [this, h]

/-- What `InsertTok` does when the target state has no token yet. -/
theorem InsertTok_absent (cfg : Config α) (arc : Arc α) (b : Int) (cost : α) (d : Decoder α)
    (h : d.state_idx.lookup arc.next_state = none) :
    InsertTok cfg arc b cost d = .ok (true, { d with
      olabels := if arc.output_label ≠ 0 then d.olabels ++ [⟨b, arc.output_label⟩]
        else d.olabels
      toks := d.toks ++ [⟨arc.next_state, cost,
        if arc.output_label ≠ 0 then (d.olabels.length : Int) else b⟩]
      state_idx := pk_hashtable_upsert d.state_idx arc.next_state (d.toks.length : Int) }) := by
  simp [InsertTok, pk_hashtable_find, h]

/-- What `InsertTok` does when the state index binds the target state to a
position of `cur`. -/
theorem InsertTok_present (cfg : Config α) (arc : Arc α) (b : Int) (cost : α) (d : Decoder α)
    (hneg : cfg.kNotExist < 0) (p : Int) (tok : Token α)
    (h : d.state_idx.lookup arc.next_state = some p) (hp : 0 ≤ p)
    (htok : d.toks[p.toNat]? = some tok) :
    InsertTok cfg arc b cost d =
      if tok.cost > cost then
        .ok (true, { d with
          olabels := if arc.output_label ≠ 0 then d.olabels ++ [⟨b, arc.output_label⟩]
            else d.olabels
          toks := d.toks.set p.toNat ⟨arc.next_state, cost,
            if arc.output_label ≠ 0 then (d.olabels.length : Int) else b⟩ })
      else
        .ok (false, { d with
          olabels := if arc.output_label ≠ 0 then d.olabels ++ [⟨b, arc.output_label⟩]
            else d.olabels }) := by
  have hne : p ≠ cfg.kNotExist := by omega
  have hv : vecAt d.toks p = .ok tok := by
    have h0 : ¬ (p < 0) := by omega
    simp [vecAt, h0, htok]
  simp only [InsertTok, pk_hashtable_find, h, if_neg hne, hv]

omit [LinearOrderedCommRing α] in
theorem P1_lookup_none (d : Decoder α) (hP : P1 d) (s : Int)
    (h : d.state_idx.lookup s = none) : s ∉ d.toks.map Token.state := by
  intro hmem
  obtain ⟨n, hn⟩ := List.getElem?_of_mem hmem
  have := (hP.2 s (n : Int)).2 ⟨by omega, by simpa using hn⟩
  rw [h] at this; cases this

omit [LinearOrderedCommRing α] in
theorem P1_append (d : Decoder α) (hP : P1 d) (s : Int)
    (h : d.state_idx.lookup s = none) (tok : Token α) (hs : tok.state = s)
    (ols : List OLabel) :
    P1 { d with olabels := ols, toks := d.toks ++ [tok],
                state_idx := pk_hashtable_upsert d.state_idx s (d.toks.length : Int) } := by
  have hnot := P1_lookup_none d hP s h
  constructor
  · simp only [List.map_append, List.map_cons, List.map_nil]
    rw [List.nodup_append]
    refine ⟨hP.1, List.nodup_singleton _, ?_⟩
    intro x hx hx'
    simp only [List.mem_singleton] at hx'
    subst hx'
    rw [hs] at hx
    exact hnot hx
  · intro s' p
    simp only [List.map_append, List.map_cons, List.map_nil]
    rw [lookup_upsert]
    have hlen : (d.toks.map Token.state).length = d.toks.length := by simp
    by_cases hs' : s' = s
    · subst hs'
      simp only [if_true]
      constructor
      · intro hp
        cases hp
        refine ⟨by omega, ?_⟩
        have : ((d.toks.length : Int)).toNat = (d.toks.map Token.state).length := by simp
        rw [this, List.getElem?_concat_length, hs]
      · rintro ⟨hp0, hget⟩
        by_cases hlt : p.toNat < d.toks.length
        · rw [List.getElem?_append_left (by simpa using hlt)] at hget
          exact absurd (List.getElem?_mem hget) hnot
        · have hge : (d.toks.map Token.state).length ≤ p.toNat := by simp; omega
          rw [List.getElem?_append_right hge] at hget
          have hidx : p.toNat - (d.toks.map Token.state).length = 0 := by
            by_contra hne
            have : [tok.state][p.toNat - (d.toks.map Token.state).length]? = none := by
              apply List.getElem?_eq_none; simp; omega
            rw [this] at hget; cases hget
          congr 1
          simp at hidx hge
          omega
    · simp only [if_neg hs']
      rw [hP.2 s' p]
      constructor
      · rintro ⟨hp0, hget⟩
        refine ⟨hp0, ?_⟩
        have hlt : p.toNat < (d.toks.map Token.state).length := by
          rcases List.getElem?_eq_some.1 hget with ⟨hlt, _⟩; exact hlt
        rw [List.getElem?_append_left hlt]; exact hget
      · rintro ⟨hp0, hget⟩
        refine ⟨hp0, ?_⟩
        by_cases hlt : p.toNat < (d.toks.map Token.state).length
        · rw [List.getElem?_append_left hlt] at hget; exact hget
        · have hge : (d.toks.map Token.state).length ≤ p.toNat := by omega
          rw [List.getElem?_append_right hge] at hget
          have : tok.state = s' := by
            rcases List.getElem?_eq_some.1 hget with ⟨hlt', hv⟩
            simp at hlt'
            simpa [hlt'] using hv
          exact absurd (this.symm.trans hs) hs'

omit [LinearOrderedCommRing α] in
theorem P1_set (d : Decoder α) (hP : P1 d) (s p : Int)
    (h : d.state_idx.lookup s = some p) (tok : Token α) (hs : tok.state = s)
    (ols : List OLabel) :
    P1 { d with olabels := ols, toks := d.toks.set p.toNat tok } := by
  have hget := ((hP.2 s p).1 h).2
  have hmap : (d.toks.set p.toNat tok).map Token.state = d.toks.map Token.state := by
    rw [List.map_set, hs]
    apply List.ext_getElem? 
    intro n
    rw [List.getElem?_set]
    split
    · rename_i heq
      subst heq
      rcases List.getElem?_eq_some.1 hget with ⟨hlt, _⟩
      simp only [hlt, if_true]
      exact hget.symm
    · rfl
  unfold P1
  simp only [hmap]
  exact hP

omit [LinearOrderedCommRing α] in
theorem P1_olabels (d : Decoder α) (hP : P1 d) (ols : List OLabel) :
    P1 { d with olabels := ols } := hP

theorem InsertTok_preserves_P1_aux (cfg : Config α) (arc : Arc α) (b : Int) (cost : α)
    (d : Decoder α) (hneg : cfg.kNotExist < 0) (hP : P1 d) :
    ∃ r d1, InsertTok cfg arc b cost d = .ok (r, d1) ∧ P1 d1 := by
  cases h : d.state_idx.lookup arc.next_state with
  | none =>
    rw [InsertTok_absent cfg arc b cost d h]
    exact ⟨_, _, rfl, P1_append d hP _ h _ rfl _⟩
  | some p =>
    obtain ⟨hp0, hget⟩ := (hP.2 _ p).1 h
    obtain ⟨tok, htok, _⟩ : ∃ tok, d.toks[p.toNat]? = some tok ∧ tok.state = arc.next_state := by
      simpa [List.getElem?_map] using hget
    rw [InsertTok_present cfg arc b cost d hneg p tok h hp0 htok]
    split
    · exact ⟨_, _, rfl, P1_set d hP _ p h _ rfl _⟩
    · exact ⟨_, _, rfl, P1_olabels d hP _⟩

theorem P1_new : P1 (Decoder.new : Decoder α) := by
  constructor
  · simp [Decoder.new]
  · intro s p
    simp [Decoder.new]

omit [LinearOrderedCommRing α] in
theorem P1_lookup_none_of_absent (d : Decoder α) (hP : P1 d) (s : Int)
    (hs : ∀ t ∈ d.toks, t.state ≠ s) : d.state_idx.lookup s = none := by
  cases h : d.state_idx.lookup s with
  | none => rfl
  | some p =>
    obtain ⟨_, hget⟩ := (hP.2 s p).1 h
    have hmem := List.getElem?_mem hget
    obtain ⟨t, ht, hts⟩ := List.mem_map.1 hmem
    exact absurd hts (hs t ht)

/-- Two arrivals at a state that holds no token: the first is appended, the
second replaces it exactly when it is strictly cheaper. -/
theorem InsertTok_twice (cfg : Config α) (d : Decoder α) (hneg : cfg.kNotExist < 0)
    (hP : P1 d) (a a' : Arc α) (hsame : a'.next_state = a.next_state)
    (hs : ∀ t ∈ d.toks, t.state ≠ a.next_state) (b b' : Int) (c c' : α) :
    ∃ d1 d2 t1 t2, InsertTok cfg a b c d = .ok (true, d1) ∧
      InsertTok cfg a' b' c' d1 = .ok (decide (c' < c), d2) ∧
      d1.toks = d.toks ++ [t1] ∧ t1.state = a.next_state ∧ t1.cost = c ∧
      d2.toks = d.toks ++ [t2] ∧ t2.state = a.next_state ∧
      t2.cost = (if c' < c then c' else c) ∧
      (¬ c' < c → d2.toks = d1.toks ∧ d2.state_idx = d1.state_idx) := by
  have hnone := P1_lookup_none_of_absent d hP _ hs
  have h1 := InsertTok_absent cfg a b c d hnone
  have hlk : (pk_hashtable_upsert d.state_idx a.next_state (d.toks.length : Int)).lookup
      a'.next_state = some (d.toks.length : Int) := by
    rw [lookup_upsert, if_pos hsame]
  have hget : (d.toks ++ [(⟨a.next_state, c,
      if a.output_label ≠ 0 then (d.olabels.length : Int) else b⟩ : Token α)])[
        ((d.toks.length : Int)).toNat]? = some ⟨a.next_state, c,
      if a.output_label ≠ 0 then (d.olabels.length : Int) else b⟩ := by
    simp
  have h2 := InsertTok_present cfg a' b' c'
    { d with
      olabels := if a.output_label ≠ 0 then d.olabels ++ [⟨b, a.output_label⟩] else d.olabels
      toks := d.toks ++ [⟨a.next_state, c,
        if a.output_label ≠ 0 then (d.olabels.length : Int) else b⟩]
      state_idx := pk_hashtable_upsert d.state_idx a.next_state (d.toks.length : Int) }
    hneg (d.toks.length : Int) _ hlk (by omega) hget
  by_cases hlt : c' < c
  · simp only [gt_iff_lt, hlt, if_true] at h2
    have hdec : decide (c' < c) = true := by simp [hlt]
    rw [hdec]
    simp only [if_pos hlt]
    exact ⟨_, _, ⟨a.next_state, c, if a.output_label ≠ 0 then (d.olabels.length : Int) else b⟩,
      ⟨a'.next_state, c', if a'.output_label ≠ 0 then
        ((if a.output_label ≠ 0 then d.olabels ++ [⟨b, a.output_label⟩]
          else d.olabels).length : Int) else b'⟩,
      h1, h2, rfl, rfl, rfl, by simp, hsame, rfl, fun hn => absurd hlt hn⟩
  · simp only [gt_iff_lt, hlt, if_false] at h2
    have hdec : decide (c' < c) = false := by simp [hlt]
    rw [hdec]
    simp only [if_neg hlt]
    exact ⟨_, _, ⟨a.next_state, c, if a.output_label ≠ 0 then (d.olabels.length : Int) else b⟩,
      ⟨a.next_state, c, if a.output_label ≠ 0 then (d.olabels.length : Int) else b⟩,
      h1, h2, rfl, rfl, rfl, rfl, rfl, rfl, fun _ => ⟨rfl, rfl⟩⟩

/-- C8. `InsertTok` preserves invariant P1: from a state in which no state id
occurs twice in `cur` and the state index agrees with the positions of `cur`,
the call returns, for every arc, back-pointer and cost, and the same holds
afterwards, whether the token was appended, overwritten or discarded. The
absent value `kNotExist` is taken to be negative, so that it is no position. -/
theorem InsertTok_preserves_P1 (cfg : Config α) (arc : Arc α) (b : Int) (cost : α)
    (d : Decoder α) (hneg : cfg.kNotExist < 0) (hP : P1 d) :
    ∃ r d1, InsertTok cfg arc b cost d = .ok (r, d1) ∧ P1 d1 :=
  InsertTok_preserves_P1_aux cfg arc b cost d hneg hP

/-- Witness of C8: an overwrite on a beam with one token. -/
theorem InsertTok_preserves_P1_witness :
    exampleConfig.kNotExist < 0 ∧ P1 beamAtThree ∧
    ∃ r d1, InsertTok exampleConfig ⟨1, 9, 3, 0⟩ (-1) 2 beamAtThree = .ok (r, d1) ∧ P1 d1 :=
  have hP : P1 beamAtThree := by
    constructor
    · simp [beamAtThree]
    · intro s p
      simp only [beamAtThree, List.lookup_cons, List.lookup_nil, List.map_cons, List.map_nil]
      by_cases hs : s = 3
      · subst hs
        constructor
        · intro h; cases h; simp
        · rintro ⟨h0, h1⟩
          by_cases hp : p.toNat = 0
          · have : p = 0 := by omega
            rw [this]; rfl
          · obtain ⟨k, hk⟩ := Nat.exists_eq_succ_of_ne_zero hp
            rw [hk] at h1; simp at h1
      · have : (s == 3) = false := by simpa using hs
        simp only [this]
        constructor
        · intro h; cases h
        · rintro ⟨h0, h1⟩
          by_cases hp : p.toNat = 0
          · rw [hp] at h1; simp at h1; exact absurd h1.symm hs
          · obtain ⟨k, hk⟩ := Nat.exists_eq_succ_of_ne_zero hp
            rw [hk] at h1; simp at h1
  ⟨by decide, hP, InsertTok_preserves_P1 exampleConfig ⟨1, 9, 3, 0⟩ (-1) 2 beamAtThree
    (by decide) hP⟩

/-- C9. Cost-minimality of merging (P2). From a `cur` that satisfies P1 and has
no token at state `s`, two arrivals at `s` with costs `c1 ≤ c2` leave one token
at `s`, appended to `cur`, and its cost is `c1` in either order. When the
cheaper one comes first, the second call returns false and leaves `cur` and the
state index as they were; when it comes second, the call reports an insertion
exactly when `c1 < c2`, and on a tie `c1 = c2` it returns false and leaves `cur`
and the state index as they were, so the first arrival stays. -/
theorem InsertTok_merge_keeps_min (cfg : Config α) (d : Decoder α)
    (hneg : cfg.kNotExist < 0) (hP : P1 d) (a1 a2 : Arc α)
    (hsame : a2.next_state = a1.next_state)
    (hs : ∀ t ∈ d.toks, t.state ≠ a1.next_state) (b1 b2 : Int) (c1 c2 : α)
    (hle : c1 ≤ c2) :
    (∃ d1 d2 t, InsertTok cfg a1 b1 c1 d = .ok (true, d1) ∧
      InsertTok cfg a2 b2 c2 d1 = .ok (false, d2) ∧
      d2.toks = d1.toks ∧ d2.state_idx = d1.state_idx ∧
      d2.toks = d.toks ++ [t] ∧ t.state = a1.next_state ∧ t.cost = c1) ∧
    (∃ d1 d2 t, InsertTok cfg a2 b2 c2 d = .ok (true, d1) ∧
      InsertTok cfg a1 b1 c1 d1 = .ok (decide (c1 < c2), d2) ∧
      d2.toks = d.toks ++ [t] ∧ t.state = a1.next_state ∧ t.cost = c1 ∧
      (c1 = c2 → d2.toks = d1.toks ∧ d2.state_idx = d1.state_idx)) := by
  constructor
  · obtain ⟨d1, d2, t1, t2, h1, h2, ht1, hst1, hc1, ht2, hst2, hc2, hkeep⟩ :=
      InsertTok_twice cfg d hneg hP a1 a2 hsame hs b1 b2 c1 c2
    have hn : ¬ c2 < c1 := not_lt.2 hle
    refine ⟨d1, d2, t2, h1, ?_, (hkeep hn).1, (hkeep hn).2, ht2, hst2, ?_⟩
    · simpa [hn] using h2
    · simpa [hn] using hc2
  · have hs' : ∀ t ∈ d.toks, t.state ≠ a2.next_state := by rw [hsame]; exact hs
    obtain ⟨d1, d2, t1, t2, h1, h2, ht1, hst1, hc1, ht2, hst2, hc2, hkeep⟩ :=
      InsertTok_twice cfg d hneg hP a2 a1 hsame.symm hs' b2 b1 c2 c1
    refine ⟨d1, d2, t2, h1, h2, ht2, hst2.trans hsame, ?_, ?_⟩
    · by_cases hlt : c1 < c2
      · simpa [hlt] using hc2
      · have : c1 = c2 := le_antisymm hle (not_lt.1 hlt)
        simpa [hlt, this] using hc2
    · intro heq
      exact hkeep (by rw [heq]; exact lt_irrefl _)

/-- Witness of C9: arrivals with costs `2` and `4` at state `3` of a fresh
decoder. -/
theorem InsertTok_merge_keeps_min_witness :
    (∃ d1 d2 t, InsertTok exampleConfig ⟨1, 9, 3, 0⟩ (-1) 2 Decoder.new = .ok (true, d1) ∧
      InsertTok exampleConfig ⟨2, 8, 3, 0⟩ (-1) 4 d1 = .ok (false, d2) ∧
      d2.toks = d1.toks ∧ d2.state_idx = d1.state_idx ∧
      d2.toks = (Decoder.new : Decoder ℤ).toks ++ [t] ∧ t.state = 3 ∧ t.cost = 2) ∧
    (∃ d1 d2 t, InsertTok exampleConfig ⟨2, 8, 3, 0⟩ (-1) 4 Decoder.new = .ok (true, d1) ∧
      InsertTok exampleConfig ⟨1, 9, 3, 0⟩ (-1) 2 d1 = .ok (decide ((2 : ℤ) < 4), d2) ∧
      d2.toks = (Decoder.new : Decoder ℤ).toks ++ [t] ∧ t.state = 3 ∧ t.cost = 2 ∧
      ((2 : ℤ) = 4 → d2.toks = d1.toks ∧ d2.state_idx = d1.state_idx)) :=
  InsertTok_merge_keeps_min exampleConfig Decoder.new (by decide) P1_new
    ⟨1, 9, 3, 0⟩ ⟨2, 8, 3, 0⟩ rfl (by intro t ht; cases ht) (-1) (-1) 2 4 (by decide)

/-! ### Properties kept by the loops -/

/-- The effect of a call of `InsertTok` that returns: the arena grows by at most
the new record, and the token is appended, written over a token, or dropped. -/
theorem InsertTok_cases (cfg : Config α) (arc : Arc α) (b : Int) (cost : α)
    (d : Decoder α) (r : Bool) (d1 : Decoder α)
    (h : InsertTok cfg arc b cost d = .ok (r, d1)) :
    d1.olabels = (if arc.output_label ≠ 0 then d.olabels ++ [⟨b, arc.output_label⟩]
      else d.olabels) ∧
    d1.prev_toks = d.prev_toks ∧ d1.num_frames_decoded = d.num_frames_decoded ∧
    d1.beam = d.beam ∧
    ((r = true ∧ d1.toks = d.toks ++ [⟨arc.next_state, cost,
          if arc.output_label ≠ 0 then (d.olabels.length : Int) else b⟩] ∧
        d1.state_idx = pk_hashtable_upsert d.state_idx arc.next_state (d.toks.length : Int)) ∨
     (r = true ∧ d1.state_idx = d.state_idx ∧ ∃ n : Nat, d1.toks = d.toks.set n
          ⟨arc.next_state, cost, if arc.output_label ≠ 0 then (d.olabels.length : Int) else b⟩) ∨
     (r = false ∧ d1.state_idx = d.state_idx ∧ d1.toks = d.toks)) := by
  unfold InsertTok at h
  simp only at h
  split at h
  · cases h
    exact ⟨rfl, rfl, rfl, rfl, Or.inl ⟨rfl, rfl, rfl⟩⟩
  · split at h
    · cases h
    · split at h
      · cases h
        exact ⟨rfl, rfl, rfl, rfl, Or.inr (Or.inl ⟨rfl, rfl, _, rfl⟩)⟩
      · cases h
        exact ⟨rfl, rfl, rfl, rfl, Or.inr (Or.inr ⟨rfl, rfl, rfl⟩)⟩

theorem vecAt_mem {τ : Type} (v : List τ) (i : Int) (x : τ) (h : vecAt v i = .ok x) :
    x ∈ v :=
  List.getElem?_mem (vecAt_ok v i x h).2

theorem nonemittingArcs_inv (cfg : Config α) (fst : Fst α) (I : Decoder α → Prop)
    (Q : Int → Prop) (hI : InsertInvariant cfg fst I Q) (cutoff : Ext α) (tok_idx : Int) :
    ∀ (arcs : List (Arc α)) (queue : List Int) (d : Decoder α) (q1 : List Int)
      (d1 : Decoder α), I d → (∀ arc ∈ arcs, Q arc.next_state) → (∀ s ∈ queue, Q s) →
      nonemittingArcs cfg cutoff tok_idx arcs queue d = .ok (q1, d1) →
      I d1 ∧ (∀ s ∈ q1, Q s) ∧ d1.prev_toks = d.prev_toks ∧
        d1.num_frames_decoded = d.num_frames_decoded ∧ d1.beam = d.beam := by
  intro arcs
  induction arcs with
  | nil =>
    intro queue d q1 d1 hd _ hq h
    simp only [nonemittingArcs] at h
    cases h
    exact ⟨hd, hq, rfl, rfl, rfl⟩
  | cons arc rest ih =>
    intro queue d q1 d1 hd harcs hq h
    have hrest : ∀ a ∈ rest, Q a.next_state := fun a ha => harcs a (List.mem_cons_of_mem _ ha)
    simp only [nonemittingArcs] at h
    split at h
    · exact ih queue d q1 d1 hd hrest hq h
    · split at h
      · cases h
      · rename_i from_tok hv
        split at h
        · exact ih queue d q1 d1 hd hrest hq h
        · split at h
          · cases h
          · rename_i inserted d2 hins
            have hQ := harcs arc (List.mem_cons_self _ _)
            have hd2 := hI.insert d arc _ _ inserted d2 hd
              (Or.inr ⟨from_tok, Or.inl (vecAt_mem _ _ _ hv), rfl⟩) hQ hins
            obtain ⟨_, hp, hn, hb, _⟩ := InsertTok_cases cfg arc _ _ d inserted d2 hins
            have hq2 : ∀ s ∈ (if inserted = true then arc.next_state :: queue else queue), Q s := by
              intro s hs
              split at hs
              · rcases List.mem_cons.1 hs with rfl | hs
                · exact hQ
                · exact hq s hs
              · exact hq s hs
            obtain ⟨h1, h2, h3, h4, h5⟩ := ih _ d2 q1 d1 hd2 hrest hq2 h
            exact ⟨h1, h2, h3.trans hp, h4.trans hn, h5.trans hb⟩

theorem nonemittingLoop_inv (cfg : Config α) (fst : Fst α) (I : Decoder α → Prop)
    (Q : Int → Prop) (hI : InsertInvariant cfg fst I Q) (cutoff : Ext α) :
    ∀ (fuel : Nat) (queue : List Int) (d d1 : Decoder α), I d → (∀ s ∈ queue, Q s) →
      nonemittingLoop cfg fst cutoff fuel queue d = .ok d1 →
      I d1 ∧ d1.prev_toks = d.prev_toks ∧
        d1.num_frames_decoded = d.num_frames_decoded ∧ d1.beam = d.beam := by
  intro fuel
  induction fuel with
  | zero =>
    intro queue d d1 hd hq h
    cases queue with
    | nil => simp only [nonemittingLoop] at h; cases h; exact ⟨hd, rfl, rfl, rfl⟩
    | cons s q => simp only [nonemittingLoop] at h; cases h
  | succ fuel ih =>
    intro queue d d1 hd hq h
    cases queue with
    | nil => simp only [nonemittingLoop] at h; cases h; exact ⟨hd, rfl, rfl, rfl⟩
    | cons s q =>
      simp only [nonemittingLoop] at h
      split at h
      · cases h
      · split at h
        · cases h
        · rename_i q2 d2 harcs
          have hs : Q s := hq s (List.mem_cons_self _ _)
          obtain ⟨h1, h2, h3, h4, h5⟩ := nonemittingArcs_inv cfg fst I Q hI cutoff _
            (fst.arcs s) q d q2 d2 hd (fun a ha => hI.closed s a hs ha)
            (fun x hx => hq x (List.mem_cons_of_mem _ hx)) harcs
          obtain ⟨k1, k3, k4, k5⟩ := ih q2 d2 d1 h1 h2 h
          exact ⟨k1, k3.trans h3, k4.trans h4, k5.trans h5⟩

theorem ProcessNonemitting_inv (cfg : Config α) (fst : Fst α) (I : Decoder α → Prop)
    (Q : Int → Prop) (hI : InsertInvariant cfg fst I Q) (fuel : Nat) (cutoff : Ext α)
    (d d1 : Decoder α) (hd : I d) (h : ProcessNonemitting cfg fst fuel cutoff d = .ok d1) :
    I d1 ∧ d1.prev_toks = d.prev_toks ∧
      d1.num_frames_decoded = d.num_frames_decoded ∧ d1.beam = d.beam := by
  refine nonemittingLoop_inv cfg fst I Q hI cutoff fuel _ d d1 hd ?_ h
  intro s hs
  rw [List.mem_reverse, List.mem_map] at hs
  obtain ⟨t, ht, rfl⟩ := hs
  exact hI.states d t hd (Or.inl ht)

theorem emittingArcs_inv (cfg : Config α) (fst : Fst α) (I : Decoder α → Prop)
    (Q : Int → Prop) (hI : InsertInvariant cfg fst I Q) (decodable : Decodable α)
    (from_tok : Token α) (adaptive_beam : Ext α) :
    ∀ (arcs : List (Arc α)) (c : Ext α) (d : Decoder α) (c1 : Ext α) (d1 : Decoder α),
      I d → from_tok ∈ d.prev_toks → (∀ arc ∈ arcs, Q arc.next_state) →
      emittingArcs cfg decodable from_tok adaptive_beam arcs c d = .ok (c1, d1) →
      I d1 ∧ d1.prev_toks = d.prev_toks ∧
        d1.num_frames_decoded = d.num_frames_decoded ∧ d1.beam = d.beam := by
  intro arcs
  induction arcs with
  | nil =>
    intro c d c1 d1 hd _ _ h
    simp only [emittingArcs] at h
    cases h
    exact ⟨hd, rfl, rfl, rfl⟩
  | cons arc rest ih =>
    intro c d c1 d1 hd hfrom harcs h
    have hrest : ∀ a ∈ rest, Q a.next_state := fun a ha => harcs a (List.mem_cons_of_mem _ ha)
    simp only [emittingArcs] at h
    split at h
    · exact ih c d c1 d1 hd hfrom hrest h
    · split at h
      · exact ih c d c1 d1 hd hfrom hrest h
      · split at h
        · cases h
        · rename_i r d2 hins
          have hd2 := hI.insert d arc _ _ r d2 hd (Or.inr ⟨from_tok, Or.inr hfrom, rfl⟩)
            (harcs arc (List.mem_cons_self _ _)) hins
          obtain ⟨_, hp, hn, hb, _⟩ := InsertTok_cases cfg arc _ _ d r d2 hins
          obtain ⟨h1, h3, h4, h5⟩ := ih _ d2 c1 d1 hd2 (by rw [hp]; exact hfrom) hrest h
          exact ⟨h1, h3.trans hp, h4.trans hn, h5.trans hb⟩

theorem emittingSweep_inv (cfg : Config α) (fst : Fst α) (I : Decoder α → Prop)
    (Q : Int → Prop) (hI : InsertInvariant cfg fst I Q) (decodable : Decodable α)
    (weight_cutoff adaptive_beam : Ext α) :
    ∀ (from_toks : List (Token α)) (c : Ext α) (d : Decoder α) (c1 : Ext α)
      (d1 : Decoder α), I d → (∀ t ∈ from_toks, t ∈ d.prev_toks) →
      emittingSweep cfg fst decodable weight_cutoff adaptive_beam from_toks c d = .ok (c1, d1) →
      I d1 ∧ d1.prev_toks = d.prev_toks ∧
        d1.num_frames_decoded = d.num_frames_decoded ∧ d1.beam = d.beam := by
  intro from_toks
  induction from_toks with
  | nil =>
    intro c d c1 d1 hd _ h
    simp only [emittingSweep] at h
    cases h
    exact ⟨hd, rfl, rfl, rfl⟩
  | cons t rest ih =>
    intro c d c1 d1 hd hsub h
    have hrest : ∀ u ∈ rest, u ∈ d.prev_toks := fun u hu => hsub u (List.mem_cons_of_mem _ hu)
    simp only [emittingSweep] at h
    split at h
    · exact ih c d c1 d1 hd hrest h
    · split at h
      · cases h
      · rename_i c2 d2 harcs
        have ht := hsub t (List.mem_cons_self _ _)
        have hQ : Q t.state := hI.states d t hd (Or.inr ht)
        obtain ⟨h1, h3, h4, h5⟩ := emittingArcs_inv cfg fst I Q hI decodable t adaptive_beam
          (fst.arcs t.state) c d c2 d2 hd ht (fun a ha => hI.closed _ a hQ ha) harcs
        obtain ⟨k1, k3, k4, k5⟩ := ih c2 d2 c1 d1 h1 (by rw [h3]; exact hrest) h
        exact ⟨k1, k3.trans h3, k4.trans h4, k5.trans h5⟩

theorem ProcessEmitting_inv (cfg : Config α) (fst : Fst α) (I : Decoder α → Prop)
    (Q : Int → Prop) (hI : LoopInvariant cfg fst I Q) (decodable : Decodable α)
    (d : Decoder α) (c : Ext α) (d1 : Decoder α) (hd : I d)
    (h : ProcessEmitting cfg fst decodable d = .ok (c, d1)) :
    I d1 ∧ d1.prev_toks = d.toks ∧
      d1.num_frames_decoded = d.num_frames_decoded + 1 ∧ d1.beam = d.beam := by
  unfold ProcessEmitting at h
  simp only at h
  split at h
  · cases h
  · split at h
    · cases h
    · split at h
      · cases h
      · rename_i c2 d2 hsweep
        obtain ⟨h1, h3, h4, h5⟩ := emittingSweep_inv cfg fst I Q hI.toInsertInvariant decodable _ _ _ _ _ c2 d2
          (hI.swap d hd) (fun t ht => ht) hsweep
        have h6 := hI.frames d2 (d2.num_frames_decoded + 1) h1
        cases h
        exact ⟨h6, h3, by simp [h4], h5⟩

theorem frameRound_inv (cfg : Config α) (fst : Fst α) (I : Decoder α → Prop)
    (Q : Int → Prop) (hI : LoopInvariant cfg fst I Q) (decodable : Decodable α)
    (fuel : Nat) (d d1 : Decoder α) (hd : I d)
    (h : frameRound cfg fst decodable fuel d = .ok d1) :
    I d1 ∧ d1.num_frames_decoded = d.num_frames_decoded + 1 ∧ d1.beam = d.beam := by
  unfold frameRound at h
  split at h
  · cases h
  · rename_i c d2 hpe
    obtain ⟨h1, _, h4, h5⟩ := ProcessEmitting_inv cfg fst I Q hI decodable d c d2 hd hpe
    obtain ⟨k1, _, k4, k5⟩ := ProcessNonemitting_inv cfg fst I Q hI.toInsertInvariant fuel c d2 d1 h1 h
    exact ⟨k1, k4.trans h4, k5.trans h5⟩

theorem InitDecoding_inv (cfg : Config α) (fst : Fst α) (I : Decoder α → Prop)
    (Q : Int → Prop) (hI : LoopInvariant cfg fst I Q) (fuel : Nat) (d d1 : Decoder α)
    (hd : I d) (h : InitDecoding cfg fst fuel d = .ok d1) :
    I d1 ∧ d1.num_frames_decoded = 0 ∧ d1.beam = d.beam := by
  unfold InitDecoding at h
  simp only at h
  split at h
  · cases h
  · split at h
    · cases h
    · rename_i r d2 hins
      have hd2 := hI.insert _ _ _ _ r d2 (hI.clear d hd) (Or.inl rfl) hI.start hins
      obtain ⟨_, _, _, hb, _⟩ := InsertTok_cases cfg _ _ _ _ r d2 hins
      obtain ⟨k1, _, k4, k5⟩ := ProcessNonemitting_inv cfg fst I Q hI.toInsertInvariant fuel _ _ d1
        (hI.frames d2 0 hd2) h
      exact ⟨k1, k4, k5.trans hb⟩

theorem decodeLoop_inv (cfg : Config α) (fst : Fst α) (I : Decoder α → Prop)
    (Q : Int → Prop) (hI : LoopInvariant cfg fst I Q) (decodable : Decodable α)
    (fuel0 : Nat) :
    ∀ (fuel : Nat) (d d1 : Decoder α), I d →
      decodeLoop cfg fst decodable fuel0 fuel d = .ok d1 → I d1 := by
  intro fuel
  induction fuel with
  | zero =>
    intro d d1 hd h
    simp only [decodeLoop] at h
    split at h
    · cases h; exact hd
    · cases h
  | succ fuel ih =>
    intro d d1 hd h
    simp only [decodeLoop] at h
    split at h
    · cases h; exact hd
    · split at h
      · cases h
      · rename_i d2 hround
        exact ih d2 d1 (frameRound_inv cfg fst I Q hI decodable fuel0 d d2 hd hround).1 h

theorem Decode_inv (cfg : Config α) (fst : Fst α) (I : Decoder α → Prop)
    (Q : Int → Prop) (hI : LoopInvariant cfg fst I Q) (decodable : Decodable α)
    (fuel : Nat) (d : Decoder α) (r : Bool) (d1 : Decoder α) (hd : I d)
    (h : Decode cfg fst decodable fuel d = .ok (r, d1)) : I d1 := by
  unfold Decode at h
  split at h
  · cases h
  · rename_i d0 hinit
    split at h
    · cases h
    · rename_i d2 hloop
      have h2 := decodeLoop_inv cfg fst I Q hI decodable fuel fuel d0 d2
        (InitDecoding_inv cfg fst I Q hI fuel d d0 hd hinit).1 hloop
      cases h
      exact h2

theorem LoopInvariant_trivial (cfg : Config α) (fst : Fst α) :
    LoopInvariant cfg fst (fun _ => True) (fun _ => True) where
  insert := fun _ _ _ _ _ _ _ _ _ _ => trivial
  states := fun _ _ _ _ => trivial
  closed := fun _ _ _ _ => trivial
  start := trivial
  swap := fun _ _ => trivial
  clear := fun _ _ => trivial
  frames := fun _ _ _ => trivial

theorem Linked_mono (cfg : Config α) (ols ols1 : List OLabel) (idx : Int)
    (hlen : ols.length ≤ ols1.length) (h : Linked cfg ols idx) : Linked cfg ols1 idx := by
  rcases h with h | ⟨h0, h1⟩
  · exact Or.inl h
  · exact Or.inr ⟨h0, by omega⟩

theorem ArenaOrdered_append (cfg : Config α) (ols : List OLabel) (b out : Int)
    (hord : ArenaOrdered cfg ols) (hb : Linked cfg ols b) :
    ArenaOrdered cfg (ols ++ [⟨b, out⟩]) := by
  intro i ol hget
  by_cases hlt : i < ols.length
  · rw [List.getElem?_append_left hlt] at hget
    exact hord i ol hget
  · have hge : ols.length ≤ i := by omega
    rw [List.getElem?_append_right hge] at hget
    rcases List.getElem?_eq_some.1 hget with ⟨hlt', hv⟩
    simp at hlt'
    simp [hlt'] at hv
    subst hv
    rcases hb with hb | ⟨h0, h1⟩
    · exact Or.inl hb
    · exact Or.inr ⟨h0, by show b < (i : Int); omega⟩

theorem LinkedState_insert (cfg : Config α) (hsame : cfg.kNotExist = cfg.kOLabelBeginIdx)
    (d : Decoder α) (arc : Arc α) (b : Int) (cost : α) (r : Bool) (d1 : Decoder α)
    (hd : LinkedState cfg d)
    (hb : b = cfg.kNotExist ∨ ∃ t, (t ∈ d.toks ∨ t ∈ d.prev_toks) ∧ b = t.olabel_idx)
    (h : InsertTok cfg arc b cost d = .ok (r, d1)) : LinkedState cfg d1 := by
  have hbl : Linked cfg d.olabels b := by
    rcases hb with hb | ⟨t, ht, hbt⟩
    · exact Or.inl (hb.trans hsame)
    · rw [hbt]; exact hd.2 t ht
  obtain ⟨hols, hprev, _, _, htoks⟩ := InsertTok_cases cfg arc b cost d r d1 h
  have hlen : d.olabels.length ≤ d1.olabels.length := by
    rw [hols]; split <;> simp
  have hord : ArenaOrdered cfg d1.olabels := by
    rw [hols]
    split
    · exact ArenaOrdered_append cfg _ _ _ hd.1 hbl
    · exact hd.1
  have hnew : Linked cfg d1.olabels
      (if arc.output_label ≠ 0 then (d.olabels.length : Int) else b) := by
    split
    · rename_i hout
      right
      rw [hols, if_pos hout]
      simp
    · exact Linked_mono cfg _ _ _ hlen hbl
  have hold : ∀ t, (t ∈ d.toks ∨ t ∈ d.prev_toks) → Linked cfg d1.olabels t.olabel_idx :=
    fun t ht => Linked_mono cfg _ _ _ hlen (hd.2 t ht)
  refine ⟨hord, ?_⟩
  intro t ht
  rcases ht with ht | ht
  · rcases htoks with ⟨_, ht1, _⟩ | ⟨_, _, n, ht1⟩ | ⟨_, _, ht1⟩
    · rw [ht1] at ht
      rcases List.mem_append.1 ht with ht | ht
      · exact hold t (Or.inl ht)
      · simp only [List.mem_singleton] at ht
        subst ht; exact hnew
    · rw [ht1] at ht
      rcases List.mem_or_eq_of_mem_set ht with ht | ht
      · exact hold t (Or.inl ht)
      · subst ht; exact hnew
    · rw [ht1] at ht
      exact hold t (Or.inl ht)
  · rw [hprev] at ht
    exact hold t (Or.inr ht)

theorem LoopInvariant_linked (cfg : Config α) (fst : Fst α)
    (hsame : cfg.kNotExist = cfg.kOLabelBeginIdx) :
    LoopInvariant cfg fst (LinkedState cfg) (fun _ => True) where
  insert := fun d arc b cost r d1 hd hb _ h =>
    LinkedState_insert cfg hsame d arc b cost r d1 hd hb h
  states := fun _ _ _ _ => trivial
  closed := fun _ _ _ _ => trivial
  start := trivial
  swap := fun d hd => ⟨hd.1, fun t ht => by
    rcases ht with ht | ht
    · cases ht
    · exact hd.2 t (Or.inl ht)⟩
  clear := fun d hd => ⟨hd.1, fun t ht => by
    rcases ht with ht | ht
    · cases ht
    · cases ht⟩
  frames := fun d n hd => hd

theorem LinkedState_new (cfg : Config α) : LinkedState cfg (Decoder.new : Decoder α) := by
  constructor
  · intro i ol h
    simp [Decoder.new] at h
  · intro t ht
    rcases ht with ht | ht <;> simp [Decoder.new] at ht

theorem Reachable_linked (cfg : Config α) (fst : Fst α)
    (hsame : cfg.kNotExist = cfg.kOLabelBeginIdx) (d : Decoder α)
    (hr : Reachable cfg fst d) : LinkedState cfg d := by
  have hI := LoopInvariant_linked cfg fst hsame
  induction hr with
  | new => exact LinkedState_new cfg
  | initDecoding d d1 fuel _ h ih =>
    exact (InitDecoding_inv cfg fst _ _ hI fuel d d1 ih h).1
  | processEmitting d d1 decodable c _ h ih =>
    exact (ProcessEmitting_inv cfg fst _ _ hI decodable d c d1 ih h).1
  | processNonemitting d d1 fuel cutoff _ h ih =>
    exact (ProcessNonemitting_inv cfg fst _ _ hI.toInsertInvariant fuel cutoff d d1 ih h).1
  | insertTok d d1 arc b cost r _ hb h ih =>
    exact LinkedState_insert cfg hsame d arc b cost r d1 ih hb h

/-- C10. Chain termination (P3). With the seed back-pointer of `InitDecoding`
equal to the sentinel that `BestPath` tests for, every decoder state reachable
from a freshly constructed decoder has an ordered arena (the `prev_idx` of the
record at index `i` is the sentinel or lies in `[0, i)`), and the back-pointer
of every token of `cur` and `prev` is the sentinel or an arena index; its chain
reaches the sentinel in at most `arena.size()` hops, and the walk of `BestPath`
from it returns with that much fuel, so no arena access is out of bounds. -/
theorem reachable_chains_terminate (cfg : Config α) (fst : Fst α)
    (hsame : cfg.kNotExist = cfg.kOLabelBeginIdx) (d : Decoder α)
    (hr : Reachable cfg fst d) :
    ArenaOrdered cfg d.olabels ∧
    ∀ t, (t ∈ d.toks ∨ t ∈ d.prev_toks) →
      Linked cfg d.olabels t.olabel_idx ∧
      ∃ hops, ChainTo cfg d.olabels t.olabel_idx hops ∧ hops.length ≤ d.olabels.length ∧
        ∀ fuel, d.olabels.length ≤ fuel →
          walkOLabels cfg d.olabels fuel t.olabel_idx [] =
            .ok (hops.map (fun p => p.2.olabel)) := by
  have hl := Reachable_linked cfg fst hsame d hr
  refine ⟨hl.1, fun t ht => ⟨hl.2 t ht, ?_⟩⟩
  obtain ⟨hops, hchain, hlen⟩ :=
    chain_of_ordered cfg d.olabels hl.1 d.olabels.length t.olabel_idx (le_refl _) (hl.2 t ht)
  refine ⟨hops, hchain, hlen, fun fuel hfuel => ?_⟩
  simpa using walkOLabels_of_chain cfg d.olabels hchain fuel [] (le_trans hlen hfuel)

/-- Witness of C10: the state `InitDecoding` leaves on `epsToFinalFst`. -/
theorem reachable_chains_terminate_witness :
    exampleConfig.kNotExist = exampleConfig.kOLabelBeginIdx ∧
    Reachable exampleConfig epsToFinalFst closureDecoder ∧
    ArenaOrdered exampleConfig closureDecoder.olabels ∧
    ∀ t, (t ∈ closureDecoder.toks ∨ t ∈ closureDecoder.prev_toks) →
      Linked exampleConfig closureDecoder.olabels t.olabel_idx ∧
      ∃ hops, ChainTo exampleConfig closureDecoder.olabels t.olabel_idx hops ∧
        hops.length ≤ closureDecoder.olabels.length ∧
        ∀ fuel, closureDecoder.olabels.length ≤ fuel →
          walkOLabels exampleConfig closureDecoder.olabels fuel t.olabel_idx [] =
            .ok (hops.map (fun p => p.2.olabel)) :=
  have hr : Reachable exampleConfig epsToFinalFst closureDecoder :=
    Reachable.initDecoding Decoder.new closureDecoder 2 Reachable.new rfl
  ⟨rfl, hr, reachable_chains_terminate exampleConfig epsToFinalFst rfl closureDecoder hr⟩

/-! ### `Decode` -/

theorem frameRound_frames (cfg : Config α) (fst : Fst α) (decodable : Decodable α)
    (fuel : Nat) (d d1 : Decoder α) (h : frameRound cfg fst decodable fuel d = .ok d1) :
    d1.num_frames_decoded = d.num_frames_decoded + 1 :=
  (frameRound_inv cfg fst _ _ (LoopInvariant_trivial cfg fst) decodable fuel d d1 trivial h).2.1

theorem InitDecoding_frames (cfg : Config α) (fst : Fst α) (fuel : Nat) (d d1 : Decoder α)
    (h : InitDecoding cfg fst fuel d = .ok d1) : d1.num_frames_decoded = 0 :=
  (InitDecoding_inv cfg fst _ _ (LoopInvariant_trivial cfg fst) fuel d d1 trivial h).2.1

/-- The frame loop on a scorer with `N` frames, from a decoder with `m` frames to
go: it returns exactly when the `m` rounds return and the fuel covers them. -/
theorem decodeLoop_eq_frameRounds (cfg : Config α) (fst : Fst α) (decodable : Decodable α)
    (fuel0 : Nat) (N : Int)
    (hlast : ∀ i : Int, decodable.islastframe i = decide (i = N - 1)) :
    ∀ (fuel m : Nat) (d d1 : Decoder α), d.num_frames_decoded + (m : Int) = N →
      (decodeLoop cfg fst decodable fuel0 fuel d = .ok d1 ↔
        (m ≤ fuel ∧ frameRounds cfg fst decodable fuel0 m d = .ok d1)) := by
  intro fuel
  induction fuel with
  | zero =>
    intro m d d1 hm
    simp only [decodeLoop, hlast]
    cases m with
    | zero =>
      have : d.num_frames_decoded - 1 = N - 1 := by simp at hm; omega
      simp [this, frameRounds]
    | succ m =>
      have : ¬ (d.num_frames_decoded - 1 = N - 1) := by push_cast at hm; omega
      simp [this]
  | succ fuel ih =>
    intro m d d1 hm
    simp only [decodeLoop, hlast]
    cases m with
    | zero =>
      have : d.num_frames_decoded - 1 = N - 1 := by simp at hm; omega
      simp [this, frameRounds]
    | succ m =>
      have : ¬ (d.num_frames_decoded - 1 = N - 1) := by push_cast at hm; omega
      simp only [this, decide_False, Bool.false_eq_true, if_false, frameRounds]
      cases hround : frameRound cfg fst decodable fuel0 d with
      | error e => simp
      | ok d2 =>
        have hf := frameRound_frames cfg fst decodable fuel0 d d2 hround
        have hm2 : d2.num_frames_decoded + (m : Int) = N := by rw [hf]; push_cast at hm; omega
        simp only [ih m d2 d1 hm2]
        constructor
        · rintro ⟨h1, h2⟩; exact ⟨by omega, h2⟩
        · rintro ⟨h1, h2⟩; exact ⟨by omega, h2⟩

theorem frameRounds_frames (cfg : Config α) (fst : Fst α) (decodable : Decodable α)
    (fuel0 : Nat) : ∀ (n : Nat) (d d1 : Decoder α),
      frameRounds cfg fst decodable fuel0 n d = .ok d1 →
      d1.num_frames_decoded = d.num_frames_decoded + (n : Int) := by
  intro n
  induction n with
  | zero => intro d d1 h; simp only [frameRounds] at h; cases h; simp
  | succ n ih =>
    intro d d1 h
    simp only [frameRounds] at h
    split at h
    · cases h
    · rename_i d2 hround
      rw [ih d2 d1 h, frameRound_frames cfg fst decodable fuel0 d d2 hround]
      push_cast; omega

/-- C4. On a scorer with `N ≥ 1` frames, a `Decode` that completes has run
`InitDecoding` and then exactly `N` rounds of `ProcessEmitting` and
`ProcessNonemitting`, `num_frames_decoded` ends at `N`, and the value returned
is true if and only if `cur` holds a token after the last round. Conversely
`Decode` completes whenever `InitDecoding` and the `N` rounds return and the
fuel covers `N` passes of the loop. -/
theorem Decode_runs_N_rounds (cfg : Config α) (fst : Fst α) (decodable : Decodable α)
    (N : Nat) (_hN : 1 ≤ N)
    (hlast : ∀ i : Int, decodable.islastframe i = decide (i = (N : Int) - 1))
    (fuel : Nat) (d : Decoder α) :
    (∀ r d1, Decode cfg fst decodable fuel d = .ok (r, d1) →
      (∃ d0, InitDecoding cfg fst fuel d = .ok d0 ∧
        frameRounds cfg fst decodable fuel N d0 = .ok d1) ∧
      d1.num_frames_decoded = (N : Int) ∧ (r = true ↔ d1.toks ≠ [])) ∧
    (∀ d0 d1, InitDecoding cfg fst fuel d = .ok d0 →
      frameRounds cfg fst decodable fuel N d0 = .ok d1 → N ≤ fuel →
      Decode cfg fst decodable fuel d = .ok (decide (d1.toks.length > 0), d1)) := by
  constructor
  · intro r d1 h
    unfold Decode at h
    split at h
    · cases h
    · rename_i d0 hinit
      split at h
      · cases h
      · rename_i d2 hloop
        have h0 := InitDecoding_frames cfg fst fuel d d0 hinit
        have hrounds := (decodeLoop_eq_frameRounds cfg fst decodable fuel (N : Int) hlast
          fuel N d0 d2 (by rw [h0]; simp)).1 hloop
        have hfr := frameRounds_frames cfg fst decodable fuel N d0 d2 hrounds.2
        cases h
        refine ⟨⟨d0, hinit, hrounds.2⟩, by rw [hfr, h0]; simp, ?_⟩
        simp [List.length_pos]
  · intro d0 d1 hinit hrounds hfuel
    have h0 := InitDecoding_frames cfg fst fuel d d0 hinit
    have hloop := (decodeLoop_eq_frameRounds cfg fst decodable fuel (N : Int) hlast
      fuel N d0 d1 (by rw [h0]; simp)).2 ⟨hfuel, hrounds⟩
    simp [Decode, hinit, hloop]

/-- Witness of C4: three frames on the self-loop WFST. -/
theorem Decode_runs_N_rounds_witness :
    (1 ≤ 3) ∧
    (∀ r d1, Decode exampleConfig selfLoopFst (constScorer 3 0) 3 Decoder.new = .ok (r, d1) →
      (∃ d0, InitDecoding exampleConfig selfLoopFst 3 Decoder.new = .ok d0 ∧
        frameRounds exampleConfig selfLoopFst (constScorer 3 0) 3 3 d0 = .ok d1) ∧
      d1.num_frames_decoded = ((3 : Nat) : Int) ∧ (r = true ↔ d1.toks ≠ [])) ∧
    (∃ d1, Decode exampleConfig selfLoopFst (constScorer 3 0) 3 Decoder.new =
      .ok (true, d1)) :=
  ⟨by decide,
    (Decode_runs_N_rounds exampleConfig selfLoopFst (constScorer 3 0) 3 (by decide)
      (fun _ => rfl) 3 Decoder.new).1,
    ⟨_, rfl⟩⟩

theorem selfLoopFst_accessible (s : Int) (h : selfLoopFst.Accessible s) : s = 0 := by
  induction h with
  | start => rfl
  | step s arc _ harc ih =>
    subst ih
    simp [selfLoopFst] at harc
    rw [harc]

/-- The tokens of `cur` and `prev` are at states in `R`, a set of states that
holds the start state and is closed under the arcs. -/
theorem LoopInvariant_states (cfg : Config α) (fst : Fst α) (R : Int → Prop)
    (hstart : R fst.start_state)
    (hclosed : ∀ (s : Int) (arc : Arc α), R s → arc ∈ fst.arcs s → R arc.next_state) :
    LoopInvariant cfg fst (fun d => ∀ t, (t ∈ d.toks ∨ t ∈ d.prev_toks) → R t.state) R where
  insert := fun d arc b cost r d1 hd _ hQ h => by
    obtain ⟨_, hprev, _, _, htoks⟩ := InsertTok_cases cfg arc b cost d r d1 h
    intro t ht
    rcases ht with ht | ht
    · rcases htoks with ⟨_, ht1, _⟩ | ⟨_, _, n, ht1⟩ | ⟨_, _, ht1⟩
      · rw [ht1] at ht
        rcases List.mem_append.1 ht with ht | ht
        · exact hd t (Or.inl ht)
        · simp only [List.mem_singleton] at ht
          subst ht; exact hQ
      · rw [ht1] at ht
        rcases List.mem_or_eq_of_mem_set ht with ht | ht
        · exact hd t (Or.inl ht)
        · subst ht; exact hQ
      · rw [ht1] at ht
        exact hd t (Or.inl ht)
    · rw [hprev] at ht
      exact hd t (Or.inr ht)
  states := fun d t hd ht => hd t ht
  closed := hclosed
  start := hstart
  swap := fun d hd t ht => by
    rcases ht with ht | ht
    · cases ht
    · exact hd t (Or.inl ht)
  clear := fun d hd t ht => by
    rcases ht with ht | ht
    · cases ht
    · cases ht
  frames := fun d n hd => hd

theorem Decode_states_accessible (cfg : Config α) (fst : Fst α) (decodable : Decodable α)
    (fuel : Nat) (d : Decoder α) (r : Bool) (d1 : Decoder α)
    (h : Decode cfg fst decodable fuel d = .ok (r, d1)) :
    ∀ t ∈ d1.toks, fst.Accessible t.state := by
  have hI := LoopInvariant_states cfg fst fst.Accessible Fst.Accessible.start
    (fun s arc hs harc => Fst.Accessible.step s arc hs harc)
  have hcl : Decode cfg fst decodable fuel { d with toks := [], prev_toks := [] } =
      .ok (r, d1) := h
  have := Decode_inv cfg fst _ _ hI decodable fuel _ r d1
    (fun t ht => by rcases ht with ht | ht <;> cases ht) hcl
  exact fun t ht => this t (Or.inl ht)

/-- C6 (as amended). On a WFST in which no final state is reachable from the
start state, whenever `Decode` completes, from any decoder and for any scorer,
`BestPath` returns the empty hypothesis, the empty word list with weight `0`.
The value `Decode` returns is true if and only if `cur` holds a token after the
last frame; it is not false in general. -/
theorem Decode_no_final_reachable (cfg : Config α) (fst : Fst α) (decodable : Decodable α)
    (hnofinal : ∀ s, fst.Accessible s → fst.final s = none)
    (fuel : Nat) (d : Decoder α) (r : Bool) (d1 : Decoder α)
    (h : Decode cfg fst decodable fuel d = .ok (r, d1)) :
    (∀ fuel1, BestPath cfg fst fuel1 d1 = .ok ⟨[], Ext.fin 0⟩) ∧
    (r = true ↔ d1.toks ≠ []) := by
  have hacc := Decode_states_accessible cfg fst decodable fuel d r d1 h
  refine ⟨fun fuel1 => BestPath_of_none cfg fst fuel1 d1
    (fun t ht => (totalCost_none_iff fst t).2 (hnofinal _ (hacc t ht))), ?_⟩
  unfold Decode at h
  split at h
  · cases h
  · split at h
    · cases h
    · cases h
      simp [List.length_pos]

/-- Witness of C6 as amended: the self-loop WFST over three frames. -/
theorem Decode_no_final_reachable_witness :
    (∀ s, selfLoopFst.Accessible s → selfLoopFst.final s = none) ∧
    (∀ fuel1, BestPath exampleConfig selfLoopFst fuel1 selfLoopDecoded =
      .ok ⟨[], Ext.fin 0⟩) ∧
    (true = true ↔ selfLoopDecoded.toks ≠ []) :=
  have hno : ∀ s, selfLoopFst.Accessible s → selfLoopFst.final s = none := by
    intro s hs
    rw [selfLoopFst_accessible s hs]
    rfl
  ⟨hno, Decode_no_final_reachable exampleConfig selfLoopFst (constScorer 3 0) hno 3
    Decoder.new true selfLoopDecoded rfl⟩

/-- C6 (the claim as stated fails). In the self-loop WFST no final state is
reachable from the start state, and over three frames `Decode` returns true,
not false: the token at the start state survives every frame. -/
theorem Decode_no_final_returns_true :
    (∀ s, selfLoopFst.Accessible s → selfLoopFst.final s = none) ∧
    ∃ d, Decode exampleConfig selfLoopFst (constScorer 3 0) 3 Decoder.new = .ok (true, d) := by
  refine ⟨?_, _, rfl⟩
  intro s hs
  rw [selfLoopFst_accessible s hs]
  rfl

/-! ### The epsilon-closure scenario -/

theorem epsClosure_InitDecoding (cfg : Config α) (hneg : cfg.kNotExist < 0)
    (a i : Int) (ha : a ≠ 0) (hi : i ≠ 0) (w1 w2 : α) (n : Nat) :
    InitDecoding cfg (epsClosureFst a i w1 w2) (n + 2) Decoder.new =
      .ok { toks := [⟨0, 0, cfg.kNotExist⟩, ⟨1, w1, 0⟩], prev_toks := [],
            state_idx := [(1, 1), (0, 0)], olabels := [⟨cfg.kNotExist, a⟩],
            num_frames_decoded := 0, beam := 16 } := by
  have h0 : (0 : Int) ≠ cfg.kNotExist := by omega
  have h1 : (1 : Int) ≠ cfg.kNotExist := by omega
  simp [InitDecoding, InsertTok, ProcessNonemitting, nonemittingLoop, nonemittingArcs,
    pk_hashtable_find, pk_hashtable_upsert, Decoder.new, epsClosureFst, vecAt, Ext.lt,
    h0, h1, ha, hi, List.lookup]

theorem epsClosure_ProcessEmitting (cfg : Config α)
    (hbeam : 2 ≤ cfg.kBeamSize) (a i : Int) (hi : i ≠ 0) (w1 w2 l : α)
    (h1 : 0 ≤ w1) (hw : w1 ≤ 16) (decodable : Decodable α)
    (hl : decodable.loglikelihood 0 i = l) :
    ProcessEmitting cfg (epsClosureFst a i w1 w2) decodable
        { toks := [⟨0, 0, cfg.kNotExist⟩, ⟨1, w1, 0⟩], prev_toks := [],
          state_idx := [(1, 1), (0, 0)], olabels := [⟨cfg.kNotExist, a⟩],
          num_frames_decoded := 0, beam := 16 } =
      .ok (Ext.fin (w1 + w2 + -l + 16),
        { toks := [⟨2, w1 + w2 + -l, 0⟩],
          prev_toks := [⟨0, 0, cfg.kNotExist⟩, ⟨1, w1, 0⟩],
          state_idx := [(2, 0)], olabels := [⟨cfg.kNotExist, a⟩],
          num_frames_decoded := 1, beam := 16 }) := by
  have hb : ¬ (cfg.kBeamSize < 2) := by omega
  have h16 : ¬ ((16 : α) < 0) := by norm_num
  have hw1 : ¬ (w1 < 0) := not_lt.2 h1
  have hw16 : ¬ ((16 : α) < w1) := not_lt.2 hw
  have hsv : stateViaFloat 0 = 0 := by decide
  simp [ProcessEmitting, GetCutoff, cutoffScan, bestTokBound, emittingSweep, emittingArcs,
    InsertTok, pk_hashtable_find, pk_hashtable_upsert, epsClosureFst, vecAt, Ext.lt, Ext.add,
    hb, h16, hw1, hw16, hsv, hi, hl, List.lookup]

theorem epsClosure_ProcessNonemitting (cfg : Config α) (hneg : cfg.kNotExist < 0)
    (a i : Int) (w1 w2 : α) (c : α) (cutoff : Ext α) (n : Nat)
    (prev : List (Token α)) (ols : List OLabel) :
    ProcessNonemitting cfg (epsClosureFst a i w1 w2) (n + 1) cutoff
        { toks := [⟨2, c, 0⟩], prev_toks := prev,
          state_idx := [(2, 0)], olabels := ols, num_frames_decoded := 1, beam := 16 } =
      .ok { toks := [⟨2, c, 0⟩], prev_toks := prev,
            state_idx := [(2, 0)], olabels := ols, num_frames_decoded := 1, beam := 16 } := by
  have h0 : (0 : Int) ≠ cfg.kNotExist := by omega
  simp [ProcessNonemitting, nonemittingLoop, nonemittingArcs, pk_hashtable_find,
    epsClosureFst, h0, List.lookup]

theorem walkOLabels_sentinel (cfg : Config α) (olabels : List OLabel) (fuel : Nat)
    (acc : List Int) : walkOLabels cfg olabels fuel cfg.kOLabelBeginIdx acc = .ok acc := by
  cases fuel <;> simp [walkOLabels]

theorem epsClosure_BestPath (cfg : Config α) (hsame : cfg.kNotExist = cfg.kOLabelBeginIdx)
    (hneg : cfg.kNotExist < 0) (a i : Int) (w1 w2 c : α) (n : Nat)
    (prev : List (Token α)) (idx : List (Int × Int)) (frames : Int) :
    BestPath cfg (epsClosureFst a i w1 w2) (n + 1)
        { toks := [⟨2, c, 0⟩], prev_toks := prev, state_idx := idx,
          olabels := [⟨cfg.kNotExist, a⟩], num_frames_decoded := frames, beam := 16 } =
      .ok ⟨[a], Ext.fin c⟩ := by
  have h0 : (0 : Int) ≠ cfg.kNotExist := by omega
  have h0' : (0 : Int) ≠ cfg.kOLabelBeginIdx := by omega
  simp [BestPath, bestTokScan, walkOLabels, epsClosureFst, vecAt, Ext.lt, Ext.add, Ext.neInf,
    Ext.ofFinal, h0, h0', hsame, walkOLabels_sentinel]

/-- C7 (as amended). On the WFST with states `0`, `1`, `2`, start state `0`,
state `2` the only final state with final weight `0`, and the arcs
`0 -[epsilon, a, w1]-> 1` and `1 -[i, epsilon, w2]-> 2` with `a ≠ 0`, `i ≠ 0`,
`0 ≤ w1`, `0 ≤ w2` and, in addition, `w1 ≤ BEAM = 16`, and on every one-frame
scorer with `loglikelihood(0, i) = l`, `Decode` on a fresh decoder returns true
and `BestPath` returns the words `[a]` with weight `w1 + w2 - l`. The constants
are taken with both sentinels equal and negative and `BEAM_SIZE ≥ 2`. -/
theorem Decode_epsilon_closure_scenario (cfg : Config α)
    (hsame : cfg.kNotExist = cfg.kOLabelBeginIdx) (hneg : cfg.kNotExist < 0)
    (hbeam : 2 ≤ cfg.kBeamSize) (a i : Int) (ha : a ≠ 0) (hi : i ≠ 0) (w1 w2 l : α)
    (h1 : 0 ≤ w1) (_h2 : 0 ≤ w2) (hw : w1 ≤ 16) (decodable : Decodable α)
    (hlast : ∀ f : Int, decodable.islastframe f = decide (f = 0))
    (hl : decodable.loglikelihood 0 i = l) (fuel : Nat) (hfuel : 2 ≤ fuel) :
    ∃ d, Decode cfg (epsClosureFst a i w1 w2) decodable fuel Decoder.new = .ok (true, d) ∧
      ∀ fuel1, 1 ≤ fuel1 →
        BestPath cfg (epsClosureFst a i w1 w2) fuel1 d = .ok ⟨[a], Ext.fin (w1 + w2 - l)⟩ := by
  obtain ⟨n, rfl⟩ : ∃ n, fuel = n + 2 := ⟨fuel - 2, by omega⟩
  have hinit := epsClosure_InitDecoding cfg hneg a i ha hi w1 w2 n
  have hpe := epsClosure_ProcessEmitting cfg hbeam a i hi w1 w2 l h1 hw decodable hl
  have hpn := epsClosure_ProcessNonemitting cfg hneg a i w1 w2 (w1 + w2 + -l)
    (Ext.fin (w1 + w2 + -l + 16)) (n + 1) [⟨0, 0, cfg.kNotExist⟩, ⟨1, w1, 0⟩]
    [⟨cfg.kNotExist, a⟩]
  have hround : frameRound cfg (epsClosureFst a i w1 w2) decodable (n + 2)
      { toks := [⟨0, 0, cfg.kNotExist⟩, ⟨1, w1, 0⟩], prev_toks := [],
        state_idx := [(1, 1), (0, 0)], olabels := [⟨cfg.kNotExist, a⟩],
        num_frames_decoded := 0, beam := 16 } =
      .ok { toks := [⟨2, w1 + w2 + -l, 0⟩],
            prev_toks := [⟨0, 0, cfg.kNotExist⟩, ⟨1, w1, 0⟩],
            state_idx := [(2, 0)], olabels := [⟨cfg.kNotExist, a⟩],
            num_frames_decoded := 1, beam := 16 } := by
    simp only [frameRound, hpe]
    exact hpn
  refine ⟨{ toks := [⟨2, w1 + w2 + -l, 0⟩],
            prev_toks := [⟨0, 0, cfg.kNotExist⟩, ⟨1, w1, 0⟩],
            state_idx := [(2, 0)], olabels := [⟨cfg.kNotExist, a⟩],
            num_frames_decoded := 1, beam := 16 }, ?_, ?_⟩
  · have hloop1 : ∀ m, decodeLoop cfg (epsClosureFst a i w1 w2) decodable (n + 2) m
        { toks := [⟨2, w1 + w2 + -l, 0⟩],
          prev_toks := [⟨0, 0, cfg.kNotExist⟩, ⟨1, w1, 0⟩],
          state_idx := [(2, 0)], olabels := [⟨cfg.kNotExist, a⟩],
          num_frames_decoded := 1, beam := 16 } =
        .ok { toks := [⟨2, w1 + w2 + -l, 0⟩],
              prev_toks := [⟨0, 0, cfg.kNotExist⟩, ⟨1, w1, 0⟩],
              state_idx := [(2, 0)], olabels := [⟨cfg.kNotExist, a⟩],
              num_frames_decoded := 1, beam := 16 } := by
      intro m
      cases m <;> simp [decodeLoop, hlast]
    have hloop : decodeLoop cfg (epsClosureFst a i w1 w2) decodable (n + 2) (n + 1 + 1)
        { toks := [⟨0, 0, cfg.kNotExist⟩, ⟨1, w1, 0⟩], prev_toks := [],
          state_idx := [(1, 1), (0, 0)], olabels := [⟨cfg.kNotExist, a⟩],
          num_frames_decoded := 0, beam := 16 } =
        .ok { toks := [⟨2, w1 + w2 + -l, 0⟩],
              prev_toks := [⟨0, 0, cfg.kNotExist⟩, ⟨1, w1, 0⟩],
              state_idx := [(2, 0)], olabels := [⟨cfg.kNotExist, a⟩],
              num_frames_decoded := 1, beam := 16 } := by
      rw [decodeLoop, hlast, hround]
      simp only [hloop1]
      simp
    simp only [Decode, hinit]
    rw [show n + 2 = n + 1 + 1 from rfl] at *
    rw [hloop]
    simp
  · intro fuel1 hf1
    obtain ⟨m, rfl⟩ : ∃ m, fuel1 = m + 1 := ⟨fuel1 - 1, by omega⟩
    rw [epsClosure_BestPath cfg hsame hneg a i w1 w2 _ m]
    simp [sub_eq_add_neg]

/-- Witness of C7 as amended: the instance of the specification, `a = 7`,
`i = 1`, `w1 = w2 = 0` and `l = 0`, with words `[7]` and weight `0`. -/
theorem Decode_epsilon_closure_scenario_witness :
    ∃ d, Decode exampleConfig (epsClosureFst 7 1 (0 : ℤ) 0) (constScorer 1 0) 2 Decoder.new =
        .ok (true, d) ∧
      ∀ fuel1, 1 ≤ fuel1 →
        BestPath exampleConfig (epsClosureFst 7 1 (0 : ℤ) 0) fuel1 d =
          .ok ⟨[7], Ext.fin (0 + 0 - 0)⟩ :=
  Decode_epsilon_closure_scenario exampleConfig rfl (by decide) (by decide) 7 1
    (by decide) (by decide) 0 0 0 (le_refl _) (le_refl _) (by decide) (constScorer 1 0)
    (fun _ => rfl) rfl 2 (le_refl _)

/-- C7 (the claim as stated fails). With `w1 = 17`, above the beam width `16`,
and `a = 7`, `i = 1`, `w2 = 0`, `l = 0`, the token at state `1` is pruned in the
only frame: `Decode` returns false and `BestPath` returns the empty word list
with weight `0`, where the claim has the words `[7]` and weight `17`. -/
theorem Decode_epsilon_closure_pruned :
    (7 : Int) ≠ 0 ∧ (1 : Int) ≠ 0 ∧ (0 : ℤ) ≤ 17 ∧ (0 : ℤ) ≤ 0 ∧
    (constScorer 1 0).loglikelihood 0 1 = 0 ∧
    ∃ d, Decode exampleConfig (epsClosureFst 7 1 (17 : ℤ) 0) (constScorer 1 0) 2 Decoder.new =
        .ok (false, d) ∧
      BestPath exampleConfig (epsClosureFst 7 1 (17 : ℤ) 0) 1 d = .ok ⟨[], Ext.fin 0⟩ :=
  ⟨by decide, by decide, by decide, by decide, rfl, _, rfl, rfl⟩

/-! ### Reuse of the decoder, the dead beam -/

/-- C14 (the code departs from the claim). `InitDecoding` clears `cur` and
`prev` only. On the decoder that `Decode` left on the self-loop WFST the state
index still binds the start state `0` to position `0`, so the seed insertion
reads `toks_[0]` of the emptied `cur`: out of bounds. On the decoder that
`Decode` left on `epsClosureFst 7 1 0 0`, `InitDecoding` returns, but the state
index keeps the old binding of state `2` to position `0`, and the arena keeps its
old record next to the new one. -/
theorem InitDecoding_leaves_index_and_arena :
    Decode exampleConfig selfLoopFst (constScorer 3 0) 3 Decoder.new =
      .ok (true, selfLoopDecoded) ∧
    InitDecoding exampleConfig selfLoopFst 3 selfLoopDecoded = .error .outOfBounds ∧
    Decode exampleConfig (epsClosureFst 7 1 (0 : ℤ) 0) (constScorer 1 0) 2 Decoder.new =
      .ok (true, epsClosureDecoded) ∧
    InitDecoding exampleConfig (epsClosureFst 7 1 (0 : ℤ) 0) 2 epsClosureDecoded =
      .ok { toks := [⟨0, 0, -1⟩, ⟨1, 0, 1⟩], prev_toks := [],
            state_idx := [(1, 1), (0, 0), (2, 0)], olabels := [⟨-1, 7⟩, ⟨-1, 7⟩],
            num_frames_decoded := 0, beam := 16 } :=
  ⟨rfl, rfl, rfl, rfl⟩

/-- C19 (the code departs from the claim). On the single-state WFST without
arcs the only frame round that has a token leaves `cur` empty; over two frames
the second `ProcessEmitting` reads `prev_toks_[0]` of an empty `prev`, which is
out of bounds, where the claim has `Decode` return false. Over one frame
`Decode` does return false. -/
theorem Decode_dead_beam_out_of_bounds :
    0 ≤ (singleStateFst 0).start_state ∧
    (∃ d, Decode exampleConfig (singleStateFst 0) (constScorer 1 0) 2 Decoder.new =
      .ok (false, d) ∧ d.toks = []) ∧
    Decode exampleConfig (singleStateFst 0) (constScorer 2 0) 2 Decoder.new =
      .error .outOfBounds ∧
    ProcessEmitting exampleConfig (singleStateFst 0) (constScorer 2 0)
      { toks := [], prev_toks := [⟨0, 0, -1⟩], state_idx := [], olabels := [],
        num_frames_decoded := 1, beam := 16 } = .error .outOfBounds :=
  ⟨by decide, ⟨_, rfl, rfl⟩, rfl, rfl⟩

/-! ### `GetCutoff` -/

/-- With an empty `cur` and a positive `CUTOFF_SAMPLES` the scan of `GetCutoff`
samples the cost of every token of `prev`. -/
theorem cutoffScan_samples_all (cfg : Config α) (hpos : 0 < cfg.kCutoffSamples) :
    ∀ (prev : List (Token α)) (i x : Nat) (costs : List α) (best : Ext α) (bi : Int),
      (cutoffScan cfg 0 prev i x costs best bi).1 = costs ++ prev.map Token.cost := by
  intro prev
  induction prev with
  | nil => intro i x costs best bi; simp [cutoffScan]
  | cons tok rest ih =>
    intro i x costs best bi
    simp only [cutoffScan, sampleAccept, if_true, hpos, decide_True]
    split <;> simp [ih]

theorem specSamples_length_le (k : Int) (n : Nat) :
    ∀ (prev : List (Token α)) (x : Nat), (specSamples k n prev x).length ≤ prev.length := by
  intro prev
  induction prev with
  | nil => intro x; simp [specSamples]
  | cons tok rest ih =>
    intro x
    simp only [specSamples]
    split
    · simpa using ih _
    · exact le_trans (ih _) (by simp)

theorem specSamples_cons_reject (k : Int) (n : Nat) (tok : Token α) (rest : List (Token α))
    (x : Nat)
    (h : ¬ ((((x * 25214903917 + 11) % 2 ^ 64 % 65536 : Nat) : Int) * (n : Int) < k * 65535)) :
    specSamples k n (tok :: rest) x =
      specSamples k n rest ((x * 25214903917 + 11) % 2 ^ 64) := by
  simp only [specSamples]
  rw [if_neg (by simpa using h)]

/-- C17 (the code departs from the claim). `GetCutoff` divides `CUTOFF_SAMPLES`
by the size of `cur`, which `ProcessEmitting` has just emptied, not by `|prev|`:
the quotient is `+inf` and every token is sampled. With `CUTOFF_SAMPLES = 200`,
the seed `1` and a `prev` of `300` tokens, the generator gives `59000` in its low
16 bits for token `0`, and `59000 / 65535 < 200 / 300` is false, so the rule of
the claim leaves token `0` out and samples fewer than `300` costs; the code
samples all `300`. -/
theorem GetCutoff_samples_every_token :
    wideBeamPrev.toks.length = 0 ∧ wideBeamPrev.prev_toks.length = 300 ∧
    (1 * 25214903917 + 11) % 2 ^ 64 % 65536 = 59000 ∧
    ¬ ((59000 : Int) * 300 < exampleConfig.kCutoffSamples * 65535) ∧
    (cutoffScan exampleConfig wideBeamPrev.toks.length wideBeamPrev.prev_toks 0
      (exampleConfig.kCutoffRandSeed % 2 ^ 64) [] Ext.pinf 0).1 =
        wideBeamPrev.prev_toks.map Token.cost ∧
    (specSamples exampleConfig.kCutoffSamples wideBeamPrev.prev_toks.length
      wideBeamPrev.prev_toks (exampleConfig.kCutoffRandSeed % 2 ^ 64)).length < 300 := by
  have hlen : wideBeam.length = 300 := by simp [wideBeam]
  refine ⟨rfl, hlen, by decide, by decide, ?_, ?_⟩
  · have := cutoffScan_samples_all exampleConfig (by decide) wideBeam 0
      (exampleConfig.kCutoffRandSeed % 2 ^ 64) [] Ext.pinf 0
    simpa [wideBeamPrev] using this
  · show (specSamples exampleConfig.kCutoffSamples wideBeam.length wideBeam
      (exampleConfig.kCutoffRandSeed % 2 ^ 64)).length < 300
    rw [hlen]
    have hstep : specSamples exampleConfig.kCutoffSamples 300 wideBeam
        (exampleConfig.kCutoffRandSeed % 2 ^ 64) =
        specSamples exampleConfig.kCutoffSamples 300
          ((List.range 299).map (fun (i : Nat) => (⟨Int.ofNat i + 1, 0, -1⟩ : Token ℤ)))
          ((exampleConfig.kCutoffRandSeed % 2 ^ 64 * 25214903917 + 11) % 2 ^ 64) :=
      specSamples_cons_reject _ _ _ _ _ (by decide)
    rw [hstep]
    refine lt_of_le_of_lt (specSamples_length_le _ _ _ _) ?_
    simp

/-- C18 (the code departs from the claim). `GetCutoff` calls `std::nth_element`
with `(begin, end, begin + k)`, the second and third argument exchanged, so the
routine is handed the range before index `k`, and `costs_[k]` is the `k`-th
sample in scan order. With `BEAM_SIZE = 1` and a `prev` with the costs `5, 3`,
both sampled, `k = 2 * 1 / 2 = 1` and `max_active_cutoff = 3`, which `GetCutoff`
returns as cutoff with `adaptive_beam = 3 - 3 + 1`; the element of rank `1` of
the samples is `5`. -/
theorem GetCutoff_takes_unsorted_sample :
    twoTokenPrev.prev_toks.length > tightConfig.kBeamSize ∧
    (cutoffScan tightConfig twoTokenPrev.toks.length twoTokenPrev.prev_toks 0
      (tightConfig.kCutoffRandSeed % 2 ^ 64) [] Ext.pinf 0).1 = [5, 3] ∧
    [(5 : ℤ), 3].length * tightConfig.kBeamSize / twoTokenPrev.prev_toks.length = 1 ∧
    rankElement [5, 3] 1 = some 5 ∧
    GetCutoff tightConfig twoTokenPrev 0 = .ok (Ext.fin 3, Ext.fin 1, 1) :=
  ⟨by decide, rfl, rfl, by decide, rfl⟩
/-- The best cost and its index after the scan of `GetCutoff`: either no token
of `prev` is below the cost so far, or the scan ends on the first token of
minimum cost. -/
theorem cutoffScan_best (cfg : Config α) (ntoks : Nat) (prev : List (Token α)) :
    ∀ (i x : Nat) (costs : List α) (best : Ext α) (bi : Int),
      ((cutoffScan cfg ntoks prev i x costs best bi).2 = (best, bi) ∧
        ∀ u ∈ prev, Ext.lt (Ext.fin u.cost) best = false) ∨
      (∃ (k : Nat) (tok : Token α), prev[k]? = some tok ∧
        (cutoffScan cfg ntoks prev i x costs best bi).2 =
          (Ext.fin tok.cost, ((i + k : Nat) : Int)) ∧
        Ext.lt (Ext.fin tok.cost) best = true ∧
        (∀ u ∈ prev, tok.cost ≤ u.cost) ∧
        (∀ j u, j < k → prev[j]? = some u → tok.cost < u.cost)) := by
  induction prev with
  | nil => intro i x costs best bi; left; simp [cutoffScan]
  | cons t rest ih =>
    intro i x costs best bi
    by_cases hlt0 : Ext.lt (Ext.fin t.cost) best = true
    · have hstep' : cutoffScan cfg ntoks (t :: rest) i x costs best bi =
          cutoffScan cfg ntoks rest (i + 1) ((x * 25214903917 + 11) % 2 ^ 64)
            (if sampleAccept cfg.kCutoffSamples ntoks ((x * 25214903917 + 11) % 2 ^ 64) = true
              then costs ++ [t.cost] else costs) (Ext.fin t.cost) (i : Int) := by
        simp [cutoffScan, hlt0]
      right
      rcases ih (i + 1) ((x * 25214903917 + 11) % 2 ^ 64)
          (if sampleAccept cfg.kCutoffSamples ntoks ((x * 25214903917 + 11) % 2 ^ 64) = true
            then costs ++ [t.cost] else costs) (Ext.fin t.cost) (i : Int) with
        ⟨h1, h2⟩ | ⟨k, tok, hk, hres, hlt, hmin, hfirst⟩
      · refine ⟨0, t, by simp, by rw [hstep', h1]; simp, hlt0, ?_, ?_⟩
        · intro u hu
          rcases List.mem_cons.1 hu with rfl | hu
          · exact le_refl _
          · have := h2 u hu
            simpa [Ext.lt] using this
        · intro j u hj; omega
      · have hcf : tok.cost < t.cost := by simpa [Ext.lt] using hlt
        refine ⟨k + 1, tok, by simpa using hk, ?_, Ext.lt_fin_of_lt_of_lt hcf hlt0, ?_, ?_⟩
        · rw [hstep', hres]; congr 2; omega
        · intro u hu
          rcases List.mem_cons.1 hu with rfl | hu
          · exact le_of_lt hcf
          · exact hmin u hu
        · intro j u hj hu
          cases j with
          | zero => simp at hu; subst hu; exact hcf
          | succ j => exact hfirst j u (by omega) (by simpa using hu)
    · have hlt0' : Ext.lt (Ext.fin t.cost) best = false := by simpa using hlt0
      have hstep' : cutoffScan cfg ntoks (t :: rest) i x costs best bi =
          cutoffScan cfg ntoks rest (i + 1) ((x * 25214903917 + 11) % 2 ^ 64)
            (if sampleAccept cfg.kCutoffSamples ntoks ((x * 25214903917 + 11) % 2 ^ 64) = true
              then costs ++ [t.cost] else costs) best bi := by
        simp [cutoffScan, hlt0']
      rcases ih (i + 1) ((x * 25214903917 + 11) % 2 ^ 64)
          (if sampleAccept cfg.kCutoffSamples ntoks ((x * 25214903917 + 11) % 2 ^ 64) = true
            then costs ++ [t.cost] else costs) best bi with
        ⟨h1, h2⟩ | ⟨k, tok, hk, hres, hlt, hmin, hfirst⟩
      · left
        refine ⟨by rw [hstep', h1], ?_⟩
        intro u hu
        rcases List.mem_cons.1 hu with rfl | hu
        · exact hlt0'
        · exact h2 u hu
      · right
        have hcf : tok.cost < t.cost := Ext.lt_of_lt_fin_of_not hlt hlt0'
        refine ⟨k + 1, tok, by simpa using hk, ?_, hlt, ?_, ?_⟩
        · rw [hstep', hres]; congr 2; omega
        · intro u hu
          rcases List.mem_cons.1 hu with rfl | hu
          · exact le_of_lt hcf
          · exact hmin u hu
        · intro j u hj hu
          cases j with
          | zero => simp at hu; subst hu; exact hcf
          | succ j => exact hfirst j u (by omega) (by simpa using hu)

/-- C15. When `prev` holds at most `BEAM_SIZE` tokens, `GetCutoff` returns
`weight_cutoff = best_cost + BEAM` and `adaptive_beam = BEAM`, where `best_cost`
is the minimum token cost of `prev` and the index it reports is that of the
first token that attains it. For an empty `prev` the best cost is `+inf`, so is
the cutoff, and the index is left as the caller set it. -/
theorem GetCutoff_within_beam_size (cfg : Config α) (d : Decoder α) (bi0 : Int)
    (hsize : d.prev_toks.length ≤ cfg.kBeamSize) :
    (d.prev_toks = [] → GetCutoff cfg d bi0 = .ok (Ext.pinf, Ext.fin d.beam, bi0)) ∧
    (d.prev_toks ≠ [] → ∃ (k : Nat) (tok : Token α), d.prev_toks[k]? = some tok ∧
      (∀ u ∈ d.prev_toks, tok.cost ≤ u.cost) ∧
      (∀ j u, j < k → d.prev_toks[j]? = some u → tok.cost < u.cost) ∧
      GetCutoff cfg d bi0 = .ok (Ext.fin (tok.cost + d.beam), Ext.fin d.beam, (k : Int))) := by
  have hn : ¬ (d.prev_toks.length > cfg.kBeamSize) := by omega
  constructor
  · intro hnil
    simp [GetCutoff, hnil, cutoffScan, Ext.lt, Ext.add]
  · intro hne
    rcases cutoffScan_best cfg d.toks.length d.prev_toks 0 (cfg.kCutoffRandSeed % 2 ^ 64) []
        Ext.pinf bi0 with ⟨_, h2⟩ | ⟨k, tok, hk, hres, _, hmin, hfirst⟩
    · obtain ⟨u, hu⟩ := List.exists_mem_of_ne_nil _ hne
      have := h2 u hu
      simp [Ext.lt] at this
    · refine ⟨k, tok, hk, hmin, hfirst, ?_⟩
      simp only [Nat.zero_add] at hres
      have hres' : cutoffScan cfg d.toks.length d.prev_toks 0 (cfg.kCutoffRandSeed % 2 ^ 64) []
          Ext.pinf bi0 = ((cutoffScan cfg d.toks.length d.prev_toks 0
            (cfg.kCutoffRandSeed % 2 ^ 64) [] Ext.pinf bi0).1, Ext.fin tok.cost, (k : Int)) :=
        Prod.ext rfl hres
      simp only [GetCutoff]
      rw [hres']
      simp [hn, Ext.lt, Ext.add]

/-- Witness of C15: two tokens with costs `5` and `3` and `BEAM_SIZE = 3000`. -/
theorem GetCutoff_within_beam_size_witness :
    twoTokenPrev.prev_toks.length ≤ exampleConfig.kBeamSize ∧
    ∃ (k : Nat) (tok : Token ℤ), twoTokenPrev.prev_toks[k]? = some tok ∧
      (∀ u ∈ twoTokenPrev.prev_toks, tok.cost ≤ u.cost) ∧
      (∀ j u, j < k → twoTokenPrev.prev_toks[j]? = some u → tok.cost < u.cost) ∧
      GetCutoff exampleConfig twoTokenPrev 0 =
        .ok (Ext.fin (tok.cost + twoTokenPrev.beam), Ext.fin twoTokenPrev.beam, (k : Int)) :=
  ⟨by decide,
    (GetCutoff_within_beam_size exampleConfig twoTokenPrev 0 (by decide)).2
      (by simp [twoTokenPrev])⟩

/-! ### The arena under `InsertTok` -/

/-- C16. A call of `InsertTok` that returns leaves the arena it found as a
front part of the new arena. The arena has grown by exactly the record
`{prev = b, symbol = arc.output_label}` when `arc.output_label ≠ 0`, whatever
became of the token, and not at all when `arc.output_label = 0`. A token that
was appended or written over a token is at `arc.next_state` with the given
cost, and its back-pointer is the index of the new record when
`arc.output_label ≠ 0` and `b` otherwise; a discarded token leaves `cur` as it
was. -/
theorem InsertTok_arena_append_only (cfg : Config α) (arc : Arc α) (b : Int) (cost : α)
    (d : Decoder α) (r : Bool) (d1 : Decoder α)
    (h : InsertTok cfg arc b cost d = .ok (r, d1)) :
    d.olabels <+: d1.olabels ∧
    (arc.output_label ≠ 0 → d1.olabels = d.olabels ++ [⟨b, arc.output_label⟩]) ∧
    (arc.output_label = 0 → d1.olabels = d.olabels) ∧
    (r = true → ∃ (n : Nat) (tok : Token α), d1.toks[n]? = some tok ∧
      tok = ⟨arc.next_state, cost,
        if arc.output_label ≠ 0 then (d.olabels.length : Int) else b⟩ ∧
      ((n = d.toks.length ∧ d1.toks = d.toks ++ [tok]) ∨
       (n < d.toks.length ∧ d1.toks = d.toks.set n tok))) ∧
    (r = false → d1.toks = d.toks) := by
  have hols : d.olabels <+: (if arc.output_label ≠ 0 then d.olabels ++ [⟨b, arc.output_label⟩]
      else d.olabels) := by
    split
    · exact List.prefix_append _ _
    · exact List.prefix_refl _
  unfold InsertTok at h
  simp only at h
  split at h
  · cases h
    refine ⟨hols, fun ho => (by simp [ho]), fun ho => (by simp [ho]), fun _ => ?_, fun hr => ?_⟩
    · exact ⟨d.toks.length, _, by simp, rfl, Or.inl ⟨rfl, rfl⟩⟩
    · cases hr
  · split at h
    · cases h
    · rename_i tok0 hv
      obtain ⟨_, hget⟩ := vecAt_ok _ _ _ hv
      have hlt : (pk_hashtable_find d.state_idx arc.next_state cfg.kNotExist).toNat <
          d.toks.length := (List.getElem?_eq_some.1 hget).1
      split at h
      · cases h
        refine ⟨hols, fun ho => (by simp [ho]), fun ho => (by simp [ho]), fun _ => ?_, fun hr => ?_⟩
        · exact ⟨_, _, by simp [List.getElem?_set, hlt], rfl, Or.inr ⟨hlt, rfl⟩⟩
        · cases hr
      · cases h
        exact ⟨hols, fun ho => (by simp [ho]), fun ho => (by simp [ho]),
          fun hr => (by cases hr), fun _ => rfl⟩

/-- Witness of C16: a discarded arrival (cost `9` against the token of cost `5`)
with output label `7` still adds its record to the arena. -/
theorem InsertTok_arena_append_only_witness :
    InsertTok exampleConfig ⟨1, 7, 3, 0⟩ (-1) 9 beamAtThree =
      .ok (false, { beamAtThree with olabels := [⟨-1, 7⟩] }) ∧
    beamAtThree.olabels <+: [(⟨-1, 7⟩ : OLabel)] ∧
    ((7 : Int) ≠ 0 →
      ({ beamAtThree with olabels := [⟨-1, 7⟩] } : Decoder ℤ).olabels =
        beamAtThree.olabels ++ [⟨-1, 7⟩]) :=
  have h : InsertTok exampleConfig ⟨1, 7, 3, 0⟩ (-1) 9 beamAtThree =
      .ok (false, { beamAtThree with olabels := [⟨-1, 7⟩] }) := rfl
  ⟨h, (InsertTok_arena_append_only exampleConfig ⟨1, 7, 3, 0⟩ (-1) 9 beamAtThree false _ h).1,
    (InsertTok_arena_append_only exampleConfig ⟨1, 7, 3, 0⟩ (-1) 9 beamAtThree false _ h).2.1⟩

/-! ### The cutoff of a frame -/

theorem P1_wideStateSeed : P1 wideStateSeed := by
  obtain ⟨r, d1, h, hp⟩ := InsertTok_preserves_P1_aux exampleConfig
    (⟨0, 0, 16777217, 0⟩ : Arc ℤ) (-1) 0 Decoder.new (by decide) P1_new
  have h' : InsertTok exampleConfig (⟨0, 0, 16777217, 0⟩ : Arc ℤ) (-1) 0 Decoder.new =
      .ok (true, wideStateSeed) := rfl
  rw [h'] at h
  cases h
  exact hp

/-- C20 (the code departs from the claim). `ProcessEmitting` keeps the state of
the best token in a `float`. On `wideStateFst` the best token is at state
`16777217 = 2 ^ 24 + 1`, which the `float` rounds to `16777216`, so the first
pass bounds the cutoff by the arc of state `16777216` (total `0`, bound `16`),
while the sweep, which keeps the state in an `int`, inserts the arc of state
`16777217` (total `10`). `cur` ends with the one token of cost `10`,
`adaptive_beam` is `16`, and the cutoff returned is `16`, not `10 + 16`. -/
theorem ProcessEmitting_bound_from_rounded_state :
    P1 wideStateSeed ∧ wideStateSeed.toks ≠ [] ∧
    stateViaFloat 16777217 = 16777216 ∧
    GetCutoff exampleConfig { wideStateSeed with prev_toks := wideStateSeed.toks, toks := [],
                                                  state_idx := [] } 0 =
      .ok (Ext.fin 16, Ext.fin 16, 0) ∧
    ProcessEmitting exampleConfig wideStateFst (constScorer 1 0) wideStateSeed =
      .ok (Ext.fin 16, wideStateFrame) ∧
    wideStateFrame.toks = [⟨5, 10, -1⟩] ∧ (Ext.fin 16 : Ext ℤ) ≠ Ext.fin (10 + 16) :=
  ⟨P1_wideStateSeed, by decide, by decide, rfl, rfl, rfl, by decide⟩

/-! ### The worklist of `ProcessNonemitting` -/

theorem P1_seedOnly : P1 seedOnly := by
  obtain ⟨r, d1, h, hp⟩ := InsertTok_preserves_P1_aux exampleConfig
    (⟨0, 0, 0, 0⟩ : Arc ℤ) (-1) 0 Decoder.new (by decide) P1_new
  have h1 : InsertTok exampleConfig (⟨0, 0, 0, 0⟩ : Arc ℤ) (-1) 0 Decoder.new =
      .ok (true, seedOnly) := rfl
  rw [h1] at h
  cases h
  exact hp

omit [LinearOrderedCommRing α] in
theorem P1_lookup_some (d : Decoder α) (hP : P1 d) (s p : Int)
    (h : d.state_idx.lookup s = some p) :
    0 ≤ p ∧ ∃ t, d.toks[p.toNat]? = some t ∧ t.state = s ∧ vecAt d.toks p = .ok t := by
  obtain ⟨hp0, hget⟩ := (hP.2 s p).1 h
  obtain ⟨t, ht, hts⟩ : ∃ t, d.toks[p.toNat]? = some t ∧ t.state = s := by
    simpa [List.getElem?_map] using hget
  refine ⟨hp0, t, ht, hts, ?_⟩
  have h0 : ¬ (p < 0) := by omega
  simp [vecAt, h0, ht]

omit [LinearOrderedCommRing α] in
theorem P1_lookup_of_mem (d : Decoder α) (hP : P1 d) (t : Token α) (ht : t ∈ d.toks) :
    ∃ p, d.state_idx.lookup t.state = some p ∧ vecAt d.toks p = .ok t := by
  obtain ⟨n, hn⟩ := List.getElem?_of_mem ht
  have hl : d.state_idx.lookup t.state = some (n : Int) :=
    (hP.2 t.state (n : Int)).2 ⟨by omega, by simp [List.getElem?_map, hn]⟩
  exact ⟨(n : Int), hl, vecAt_natCast d.toks n t hn⟩

omit [LinearOrderedCommRing α] in
theorem costAt_eq_some_iff (d : Decoder α) (hP : P1 d) (s : Int) (c : α) :
    costAt d s = some c ↔ ∃ t ∈ d.toks, t.state = s ∧ t.cost = c := by
  constructor
  · intro h
    unfold costAt at h
    split at h
    · rename_i p hp
      obtain ⟨_, t, ht, hts, hv⟩ := P1_lookup_some d hP s p hp
      rw [hv] at h
      simp only [Option.some.injEq] at h
      exact ⟨t, List.getElem?_mem ht, hts, h⟩
    · cases h
  · rintro ⟨t, ht, hts, htc⟩
    obtain ⟨p, hl, hv⟩ := P1_lookup_of_mem d hP t ht
    rw [← hts]
    simp only [costAt, hl, hv, htc]

omit [LinearOrderedCommRing α] in
theorem costAt_of_lookup (d : Decoder α) (s p : Int) (t : Token α)
    (hl : d.state_idx.lookup s = some p) (hv : vecAt d.toks p = .ok t) :
    costAt d s = some t.cost := by
  simp only [costAt, hl, hv]

omit [LinearOrderedCommRing α] in
theorem costAt_isSome_of_lookup (d : Decoder α) (hP : P1 d) (s p : Int)
    (h : d.state_idx.lookup s = some p) : ∃ c, costAt d s = some c := by
  obtain ⟨_, t, _, _, hv⟩ := P1_lookup_some d hP s p h
  exact ⟨t.cost, costAt_of_lookup d s p t h hv⟩

omit [LinearOrderedCommRing α] in
theorem lookup_of_costAt (d : Decoder α) (s : Int) (c : α) (h : costAt d s = some c) :
    ∃ p, d.state_idx.lookup s = some p := by
  unfold costAt at h
  split at h
  · rename_i p hp; exact ⟨p, hp⟩
  · cases h

/-- What a call of `InsertTok` does to the costs that the state index gives,
from a state that satisfies P1: the call returns and keeps P1 and every binding
of the index; the cost at every other state stays; a discarded arrival leaves
the cost at its state, which was not above the arrival; an inserted one sets
the cost at its state, which was absent or strictly above. -/
theorem InsertTok_costAt (cfg : Config α) (hneg : cfg.kNotExist < 0) (arc : Arc α) (b : Int)
    (cost : α) (d : Decoder α) (hP : P1 d) :
    ∃ r d1, InsertTok cfg arc b cost d = .ok (r, d1) ∧ P1 d1 ∧
      (∀ s p, d.state_idx.lookup s = some p → d1.state_idx.lookup s = some p) ∧
      (∀ s, s ≠ arc.next_state → costAt d1 s = costAt d s) ∧
      (r = false → costAt d1 arc.next_state = costAt d arc.next_state ∧
        ∃ c, costAt d arc.next_state = some c ∧ c ≤ cost) ∧
      (r = true → costAt d1 arc.next_state = some cost ∧
        ∀ c, costAt d arc.next_state = some c → cost < c) := by
  cases h : d.state_idx.lookup arc.next_state with
  | none =>
    refine ⟨_, _, InsertTok_absent cfg arc b cost d h, P1_append d hP _ h _ rfl _, ?_, ?_, ?_, ?_⟩
    · intro s p hs
      show (pk_hashtable_upsert d.state_idx arc.next_state _).lookup s = some p
      rw [lookup_upsert]
      have hne : s ≠ arc.next_state := by
        intro heq; rw [heq, h] at hs; cases hs
      rw [if_neg hne]; exact hs
    · intro s hne
      unfold costAt
      show (match (pk_hashtable_upsert d.state_idx arc.next_state _).lookup s with
        | some p => (match vecAt (d.toks ++ [_]) p with
          | .ok t => some t.cost
          | .error _ => none)
        | none => none) = _
      rw [lookup_upsert, if_neg hne]
      cases hl : d.state_idx.lookup s with
      | none => rfl
      | some p =>
        obtain ⟨hp0, t, ht, _, hv⟩ := P1_lookup_some d hP s p hl
        have hlt : p.toNat < d.toks.length := (List.getElem?_eq_some.1 ht).1
        have hv' : vecAt (d.toks ++ [(⟨arc.next_state, cost,
            if arc.output_label ≠ 0 then (d.olabels.length : Int) else b⟩ : Token α)]) p =
            .ok t := by
          have h0 : ¬ (p < 0) := by omega
          simp [vecAt, h0, List.getElem?_append_left hlt, ht]
        simp only [hv, hv']
    · intro hr; cases hr
    · intro _
      constructor
      · have h0 : ¬ ((d.toks.length : Int) < 0) := by omega
        simp [costAt, lookup_upsert, vecAt, h0]
      · intro c hc
        obtain ⟨p, hp⟩ := lookup_of_costAt d _ c hc
        rw [h] at hp; cases hp
  | some p =>
    obtain ⟨hp0, tok, htok, hts, hv⟩ := P1_lookup_some d hP _ p h
    have hlt : p.toNat < d.toks.length := (List.getElem?_eq_some.1 htok).1
    have hcost : costAt d arc.next_state = some tok.cost := costAt_of_lookup d _ p tok h hv
    have hpres := InsertTok_present cfg arc b cost d hneg p tok h hp0 htok
    by_cases hgt : tok.cost > cost
    · rw [if_pos hgt] at hpres
      refine ⟨_, _, hpres, P1_set d hP _ p h _ rfl _, fun s q hs => hs, ?_, ?_, ?_⟩
      · intro s hne
        unfold costAt
        show (match d.state_idx.lookup s with
          | some q => (match vecAt (d.toks.set p.toNat _) q with
            | .ok t => some t.cost
            | .error _ => none)
          | none => none) = _
        cases hl : d.state_idx.lookup s with
        | none => rfl
        | some q =>
          obtain ⟨hq0, t, ht, htq, hvq⟩ := P1_lookup_some d hP s q hl
          have hqp : p.toNat ≠ q.toNat := by
            intro heq
            rw [heq, ht] at htok
            cases htok
            exact hne (htq.symm.trans hts)
          have hv' : vecAt (d.toks.set p.toNat (⟨arc.next_state, cost,
              if arc.output_label ≠ 0 then (d.olabels.length : Int) else b⟩ : Token α)) q =
              .ok t := by
            have h0 : ¬ (q < 0) := by omega
            simp [vecAt, h0, List.getElem?_set_ne hqp, ht]
          simp only [hvq, hv']
      · intro hr; cases hr
      · intro _
        constructor
        · have h0 : ¬ (p < 0) := by omega
          simp [costAt, h, vecAt, h0, List.getElem?_set, hlt]
        · intro c hc
          rw [hcost] at hc
          cases hc
          exact hgt
    · rw [if_neg hgt] at hpres
      refine ⟨_, _, hpres, P1_olabels d hP _, fun s q hs => hs, fun s _ => rfl, ?_, ?_⟩
      · intro _
        exact ⟨rfl, tok.cost, hcost, not_lt.1 hgt⟩
      · intro hr; cases hr
theorem ClosedAt_mono (cutoff : Ext α) (d d1 : Decoder α) (s : Int) (arcs : List (Arc α))
    (h : ClosedAt cutoff d s arcs) (hs : costAt d1 s = costAt d s)
    (hdec : ∀ s c, costAt d s = some c → ∃ c1, costAt d1 s = some c1 ∧ c1 ≤ c) :
    ClosedAt cutoff d1 s arcs := by
  intro c hc a ha heps hcut
  rw [hs] at hc
  obtain ⟨c1, hc1, hle⟩ := h c hc a ha heps hcut
  obtain ⟨c2, hc2, hle2⟩ := hdec _ c1 hc1
  exact ⟨c2, hc2, le_trans hle2 hle⟩

/-- After a call of `InsertTok` described by `InsertTok_costAt`, every state
that held a token holds one that costs no more. -/
theorem costAt_decreases (d d1 : Decoder α) (next : Int) (cost : α) (r : Bool)
    (hother : ∀ s, s ≠ next → costAt d1 s = costAt d s)
    (hfalse : r = false → costAt d1 next = costAt d next ∧
      ∃ c, costAt d next = some c ∧ c ≤ cost)
    (htrue : r = true → costAt d1 next = some cost ∧
      ∀ c, costAt d next = some c → cost < c) :
    ∀ s c, costAt d s = some c → ∃ c1, costAt d1 s = some c1 ∧ c1 ≤ c := by
  intro s c hc
  by_cases hs : s = next
  · subst hs
    cases r with
    | false => exact ⟨c, by rw [(hfalse rfl).1]; exact hc, le_refl _⟩
    | true => exact ⟨cost, (htrue rfl).1, le_of_lt ((htrue rfl).2 c hc)⟩
  · exact ⟨c, by rw [hother s hs]; exact hc, le_refl _⟩

theorem nonemittingArcs_closed (cfg : Config α) (hneg : cfg.kNotExist < 0) (fst : Fst α)
    (cutoff : Ext α) (st tok_idx : Int) :
    ∀ (arcs done : List (Arc α)) (queue : List Int) (d : Decoder α) (q1 : List Int)
      (d1 : Decoder α), P1 d → d.state_idx.lookup st = some tok_idx →
      (∀ s, s ∉ queue → s ≠ st → ClosedAt cutoff d s (fst.arcs s)) →
      (st ∉ queue → ClosedAt cutoff d st done) →
      nonemittingArcs cfg cutoff tok_idx arcs queue d = .ok (q1, d1) →
      P1 d1 ∧ (∀ s, s ∉ q1 → s ≠ st → ClosedAt cutoff d1 s (fst.arcs s)) ∧
        (st ∉ q1 → ClosedAt cutoff d1 st (done ++ arcs)) := by
  intro arcs
  induction arcs with
  | nil =>
    intro done queue d q1 d1 hP _ hoth hst h
    simp only [nonemittingArcs] at h
    cases h
    exact ⟨hP, hoth, by simpa using hst⟩
  | cons a rest ih =>
    intro done queue d q1 d1 hP hl hoth hst h
    obtain ⟨_, from_tok, _, _, hv⟩ := P1_lookup_some d hP st tok_idx hl
    have hcost : costAt d st = some from_tok.cost := costAt_of_lookup d st tok_idx from_tok hl hv
    simp only [nonemittingArcs, hv] at h
    have happ : done ++ a :: rest = (done ++ [a]) ++ rest := by simp
    rw [happ]
    by_cases heps : a.input_label ≠ 0
    · rw [if_pos heps] at h
      refine ih (done ++ [a]) queue d q1 d1 hP hl hoth ?_ h
      intro hq c hc a1 ha1 heps1 hcut
      rcases List.mem_append.1 ha1 with ha1 | ha1
      · exact hst hq c hc a1 ha1 heps1 hcut
      · simp only [List.mem_singleton] at ha1
        subst ha1
        exact absurd heps1 heps
    · rw [if_neg heps] at h
      by_cases hcut0 : Ext.lt cutoff (Ext.fin (from_tok.cost + a.weight + 0)) = true
      · rw [if_pos hcut0] at h
        refine ih (done ++ [a]) queue d q1 d1 hP hl hoth ?_ h
        intro hq c hc a1 ha1 heps1 hcut
        rcases List.mem_append.1 ha1 with ha1 | ha1
        · exact hst hq c hc a1 ha1 heps1 hcut
        · simp only [List.mem_singleton] at ha1
          subst ha1
          rw [hcost] at hc
          cases hc
          rw [add_zero] at hcut0
          rw [hcut0] at hcut
          cases hcut
      · rw [if_neg hcut0] at h
        obtain ⟨r, d2, hins, hP2, hpersist, hother, hfalse, htrue⟩ :=
          InsertTok_costAt cfg hneg a from_tok.olabel_idx (from_tok.cost + a.weight + 0) d hP
        rw [hins] at h
        simp only at h
        have hdec := costAt_decreases d d2 a.next_state _ r hother hfalse htrue
        have hsub : ∀ s, s ∉ (if r = true then a.next_state :: queue else queue) →
            s ∉ queue ∧ (s = a.next_state → r = false) := by
          intro s hs
          cases r with
          | false => exact ⟨by simpa using hs, fun _ => rfl⟩
          | true =>
            simp only [if_true, List.mem_cons, not_or] at hs
            exact ⟨hs.2, fun heq => absurd heq hs.1⟩
        have hsame : ∀ s, s ∉ (if r = true then a.next_state :: queue else queue) →
            costAt d2 s = costAt d s := by
          intro s hs
          by_cases hsn : s = a.next_state
          · have hr := (hsub s hs).2 hsn
            rw [hsn]
            exact (hfalse hr).1
          · exact hother s hsn
        refine ih (done ++ [a]) _ d2 q1 d1 hP2 (hpersist st tok_idx hl) ?_ ?_ h
        · intro s hs hne
          exact ClosedAt_mono cutoff d d2 s _ (hoth s (hsub s hs).1 hne) (hsame s hs) hdec
        · intro hq c hc a1 ha1 heps1 hcut
          rcases List.mem_append.1 ha1 with ha1 | ha1
          · exact ClosedAt_mono cutoff d d2 st _ (hst (hsub st hq).1) (hsame st hq) hdec
              c hc a1 ha1 heps1 hcut
          · simp only [List.mem_singleton] at ha1
            subst ha1
            rw [hsame st hq, hcost] at hc
            cases hc
            cases r with
            | true =>
              exact ⟨_, (htrue rfl).1, by simp⟩
            | false =>
              obtain ⟨h1, c1, hc1, hle⟩ := hfalse rfl
              exact ⟨c1, by rw [h1]; exact hc1, by simpa using hle⟩

theorem nonemittingLoop_closed (cfg : Config α) (hneg : cfg.kNotExist < 0) (fst : Fst α)
    (cutoff : Ext α) :
    ∀ (fuel : Nat) (queue : List Int) (d d1 : Decoder α), P1 d →
      (∀ s, s ∉ queue → ClosedAt cutoff d s (fst.arcs s)) →
      nonemittingLoop cfg fst cutoff fuel queue d = .ok d1 →
      P1 d1 ∧ ∀ s, ClosedAt cutoff d1 s (fst.arcs s) := by
  intro fuel
  induction fuel with
  | zero =>
    intro queue d d1 hP hcl h
    cases queue with
    | nil =>
      simp only [nonemittingLoop] at h; cases h
      exact ⟨hP, fun s => hcl s (by simp)⟩
    | cons s q => simp only [nonemittingLoop] at h; cases h
  | succ fuel ih =>
    intro queue d d1 hP hcl h
    cases queue with
    | nil =>
      simp only [nonemittingLoop] at h; cases h
      exact ⟨hP, fun s => hcl s (by simp)⟩
    | cons st q =>
      simp only [nonemittingLoop] at h
      split at h
      · cases h
      · rename_i hne
        cases hl : d.state_idx.lookup st with
        | none => simp [pk_hashtable_find, hl] at hne
        | some p =>
          have hfind : pk_hashtable_find d.state_idx st cfg.kNotExist = p := by
            simp [pk_hashtable_find, hl]
          rw [hfind] at h
          split at h
          · cases h
          · rename_i q2 d2 harcs
            obtain ⟨hP2, h2, h3⟩ := nonemittingArcs_closed cfg hneg fst cutoff st p
              (fst.arcs st) [] q d q2 d2 hP hl
              (fun s hs hne => hcl s (by simp [hs, hne]))
              (fun _ c _ a ha => by cases ha) harcs
            refine ih q2 d2 d1 hP2 ?_ h
            intro s hs
            by_cases hst : s = st
            · subst hst; simpa using h3 hs
            · exact h2 s hs hst

theorem pathEnds_self (fst : Fst α) (n : Nat) (s : Int) (c : α) :
    (s, c) ∈ fst.pathEnds n s c := by
  cases n <;> simp [Fst.pathEnds]

theorem pathEnds_mono (fst : Fst α) :
    ∀ (n : Nat) (s : Int) (c : α) (x : Int × α),
      x ∈ fst.pathEnds n s c → x ∈ fst.pathEnds (n + 1) s c := by
  intro n
  induction n with
  | zero =>
    intro s c x hx
    simp only [Fst.pathEnds, List.mem_singleton] at hx
    subst hx
    exact pathEnds_self fst 1 s c
  | succ n ih =>
    intro s c x hx
    rw [Fst.pathEnds] at hx ⊢
    rcases List.mem_cons.1 hx with hx | hx
    · exact List.mem_cons.2 (Or.inl hx)
    · refine List.mem_cons.2 (Or.inr ?_)
      obtain ⟨a, ha, hxa⟩ := List.mem_flatMap.1 hx
      exact List.mem_flatMap.2 ⟨a, ha, ih _ _ x hxa⟩

theorem pathEnds_mono_le (fst : Fst α) (n m : Nat) (hnm : n ≤ m) (s : Int) (c : α)
    (x : Int × α) (hx : x ∈ fst.pathEnds n s c) : x ∈ fst.pathEnds m s c := by
  induction hnm with
  | refl => exact hx
  | step _ ih => exact pathEnds_mono fst _ s c x ih

/-- A walk counted by `pathEnds` stays counted, one step deeper, when an
epsilon-input arc is added at its end. -/
theorem pathEnds_extend (fst : Fst α) :
    ∀ (n : Nat) (s : Int) (c : α) (s1 : Int) (c1 : α) (a : Arc α),
      (s1, c1) ∈ fst.pathEnds n s c → a ∈ fst.arcs s1 → a.input_label = 0 →
      (a.next_state, c1 + a.weight) ∈ fst.pathEnds (n + 1) s c := by
  intro n
  induction n with
  | zero =>
    intro s c s1 c1 a hx ha heps
    simp only [Fst.pathEnds, List.mem_singleton, Prod.mk.injEq] at hx
    obtain ⟨rfl, rfl⟩ := hx
    rw [Fst.pathEnds]
    refine List.mem_cons.2 (Or.inr (List.mem_flatMap.2 ⟨a, ?_, pathEnds_self fst 0 _ _⟩))
    simp [ha, heps]
  | succ n ih =>
    intro s c s1 c1 a hx ha heps
    rw [Fst.pathEnds] at hx
    rcases List.mem_cons.1 hx with hx | hx
    · simp only [Prod.mk.injEq] at hx
      obtain ⟨rfl, rfl⟩ := hx
      rw [Fst.pathEnds]
      refine List.mem_cons.2 (Or.inr (List.mem_flatMap.2 ⟨a, ?_, pathEnds_self fst _ _ _⟩))
      simp [ha, heps]
    · obtain ⟨b, hb, hxb⟩ := List.mem_flatMap.1 hx
      rw [Fst.pathEnds]
      exact List.mem_cons.2 (Or.inr (List.mem_flatMap.2 ⟨b, hb, ih _ _ s1 c1 a hxb ha heps⟩))

theorem EpsPath_mono (fst : Fst α) (init : Int → Option α) (H H1 : Int → α → Prop)
    (hH : ∀ s c, H s c → H1 s c) (s : Int) (c : α) (vis : List Int)
    (h : EpsPath fst init H s c vis) : EpsPath fst init H1 s c vis := by
  induction h with
  | init s c hi hh => exact EpsPath.init s c hi (hH s c hh)
  | step s c vis a _ ha heps hnot hh ih =>
    exact EpsPath.step s c vis a ih ha heps hnot (hH _ _ hh)

/-- The states a path visits: it ends at the first one, visits none twice,
stays inside a set of states closed under the epsilon-input arcs, and from each
of them the end is reached by a walk that accounts for the cost. -/
theorem EpsPath_visits (fst : Fst α) (init : Int → Option α) (H : Int → α → Prop)
    (S : List Int) (hinit : ∀ s c, init s = some c → s ∈ S)
    (hclosed : ∀ s ∈ S, ∀ a ∈ fst.arcs s, a.input_label = 0 → a.next_state ∈ S)
    (s : Int) (c : α) (vis : List Int) (h : EpsPath fst init H s c vis) :
    s ∈ vis ∧ vis.Nodup ∧ (∀ x ∈ vis, x ∈ S) ∧
    (∀ x ∈ vis, ∃ c1 w, H x c1 ∧ fst.EpsReach x w s ∧ c = c1 + w) := by
  induction h with
  | init s c hi hh =>
    refine ⟨by simp, by simp, ?_, ?_⟩
    · intro x hx
      simp only [List.mem_singleton] at hx
      subst hx; exact hinit _ c hi
    · intro x hx
      simp only [List.mem_singleton] at hx
      subst hx
      exact ⟨c, 0, hh, Fst.EpsReach.refl _, by simp⟩
  | step s c vis a _ ha heps hnot hh ih =>
    obtain ⟨hs, hnd, hsub, hreach⟩ := ih
    refine ⟨by simp, List.nodup_cons.2 ⟨hnot, hnd⟩, ?_, ?_⟩
    · intro x hx
      rcases List.mem_cons.1 hx with rfl | hx
      · exact hclosed s (hsub s hs) a ha heps
      · exact hsub x hx
    · intro x hx
      rcases List.mem_cons.1 hx with rfl | hx
      · exact ⟨c + a.weight, 0, hh, Fst.EpsReach.refl _, by simp⟩
      · obtain ⟨c1, w, h1, h2, h3⟩ := hreach x hx
        exact ⟨c1, w + a.weight, h1, Fst.EpsReach.tail x w s a h2 ha heps, by rw [h3, add_assoc]⟩

theorem EpsPath_pathEnds (fst : Fst α) (init : Int → Option α) (H : Int → α → Prop)
    (s : Int) (c : α) (vis : List Int) (h : EpsPath fst init H s c vis) :
    1 ≤ vis.length ∧
    ∃ s0 c0, init s0 = some c0 ∧ (s, c) ∈ fst.pathEnds (vis.length - 1) s0 c0 := by
  induction h with
  | init s c hi _ => exact ⟨by simp, s, c, hi, by simp [Fst.pathEnds]⟩
  | step s c vis a _ ha heps _ _ ih =>
    obtain ⟨hlen, s0, c0, hi, hmem⟩ := ih
    refine ⟨by simp, s0, c0, hi, ?_⟩
    have := pathEnds_extend fst (vis.length - 1) s0 c0 s c a hmem ha heps
    have hl : (a.next_state :: vis).length - 1 = vis.length - 1 + 1 := by
      simp only [List.length_cons]; omega
    rw [hl]
    exact this

/-- The cost a path ends with is among the candidate costs. -/
theorem EpsPath_cost_mem (fst : Fst α) (d0 : Decoder α) (hP0 : P1 d0) (H : Int → α → Prop)
    (S : List Int) (hS : ∀ t ∈ d0.toks, t.state ∈ S)
    (hclosed : ∀ s ∈ S, ∀ a ∈ fst.arcs s, a.input_label = 0 → a.next_state ∈ S)
    (s : Int) (c : α) (vis : List Int) (h : EpsPath fst (costAt d0) H s c vis) :
    s ∈ S ∧ c ∈ fst.pathCosts S.length d0.toks := by
  have hinit : ∀ s c, costAt d0 s = some c → s ∈ S := by
    intro s c hc
    obtain ⟨t, ht, hts, _⟩ := (costAt_eq_some_iff d0 hP0 s c).1 hc
    rw [← hts]; exact hS t ht
  obtain ⟨hs, hnd, hsub, _⟩ := EpsPath_visits fst _ H S hinit hclosed s c vis h
  obtain ⟨hlen, s0, c0, hi, hmem⟩ := EpsPath_pathEnds fst _ H s c vis h
  refine ⟨hsub s hs, ?_⟩
  have hle : vis.length ≤ S.length := (List.subperm_of_subset hnd hsub).length_le
  obtain ⟨t, ht, hts, htc⟩ := (costAt_eq_some_iff d0 hP0 s0 c0).1 hi
  have hmem' := pathEnds_mono_le fst (vis.length - 1) S.length (by omega) s0 c0 (s, c) hmem
  unfold Fst.pathCosts
  refine List.mem_flatMap.2 ⟨t, ht, List.mem_map.2 ⟨(s, c), ?_, rfl⟩⟩
  rw [hts, htc]
  exact hmem'
theorem countP_lt_of_mem (V : List α) (c c1 : α) (hlt : c < c1) (hmem : c ∈ V) :
    V.countP (fun v => decide (v < c)) < V.countP (fun v => decide (v < c1)) := by
  induction V with
  | nil => cases hmem
  | cons v V ih =>
    have hmono : V.countP (fun v => decide (v < c)) ≤ V.countP (fun v => decide (v < c1)) :=
      List.countP_mono_left (fun x _ hx => by
        simp only [decide_eq_true_eq] at hx ⊢
        exact lt_trans hx hlt)
    rcases List.mem_cons.1 hmem with rfl | hmem
    · rw [List.countP_cons_of_neg _ _ (by simp), List.countP_cons_of_pos _ _ (by simpa using hlt)]
      omega
    · have := ih hmem
      rw [List.countP_cons, List.countP_cons]
      have h2 : (if decide (v < c) = true then 1 else 0) ≤
          (if decide (v < c1) = true then 1 else 0) := by
        by_cases hv : v < c
        · have hv1 : v < c1 := lt_trans hv hlt
          simp [hv, hv1]
        · simp [hv]
      omega

theorem sum_map_lt (l : List Int) (f g : Int → Nat) (hle : ∀ x ∈ l, g x ≤ f x) (s : Int)
    (hs : s ∈ l) (hlt : g s < f s) : (l.map g).sum + 1 ≤ (l.map f).sum := by
  induction l with
  | nil => cases hs
  | cons x l ih =>
    simp only [List.map_cons, List.sum_cons]
    have hx := hle x (List.mem_cons_self _ _)
    have hle' : ∀ y ∈ l, g y ≤ f y := fun y hy => hle y (List.mem_cons_of_mem _ hy)
    have hsum : (l.map g).sum ≤ (l.map f).sum := by
      apply List.sum_le_sum
      intro y hy
      exact hle' y hy
    rcases List.mem_cons.1 hs with rfl | hs
    · omega
    · have := ih hle' hs
      omega

/-- A call of `InsertTok` described by `InsertTok_costAt` lowers the measure
by at least one when it inserts, the state being in `S` and the cost among the
candidates, and leaves it when it discards. -/
theorem rankSum_step (S : List Int) (V : List α) (d d1 : Decoder α) (next : Int) (cost : α)
    (r : Bool) (hother : ∀ s, s ≠ next → costAt d1 s = costAt d s)
    (hfalse : r = false → costAt d1 next = costAt d next ∧
      ∃ c, costAt d next = some c ∧ c ≤ cost)
    (htrue : r = true → costAt d1 next = some cost ∧
      ∀ c, costAt d next = some c → cost < c)
    (hS : r = true → next ∈ S) (hV : r = true → cost ∈ V) :
    rankSum S V d1 + (if r = true then 1 else 0) ≤ rankSum S V d := by
  cases r with
  | false =>
    have hall : ∀ s, costAt d1 s = costAt d s := by
      intro s
      by_cases hs : s = next
      · rw [hs]; exact (hfalse rfl).1
      · exact hother s hs
    simp [rankSum, hall]
  | true =>
    simp only [if_true]
    have hnext : costRank V (costAt d1 next) < costRank V (costAt d next) := by
      rw [(htrue rfl).1]
      cases hc : costAt d next with
      | none =>
        simp only [costRank]
        exact Nat.lt_succ_of_le (List.countP_le_length _)
      | some c1 =>
        simp only [costRank]
        exact countP_lt_of_mem V cost c1 ((htrue rfl).2 c1 hc) (hV rfl)
    unfold rankSum
    refine sum_map_lt S _ _ ?_ next (hS rfl) hnext
    intro s _
    by_cases hs : s = next
    · rw [hs]; exact le_of_lt hnext
    · rw [hother s hs]

theorem Derived_refl (fst : Fst α) (d0 : Decoder α) : Derived fst d0 d0 := by
  intro s c hc
  exact ⟨[s], EpsPath.init s c hc ⟨c, hc, le_refl _⟩⟩

/-- The arrival that `ProcessNonemitting` sends along the epsilon-input arc `a`
of the state `st` keeps the costs derived, where no cycle of epsilon-input arcs
is negative; and when it is inserted, its state is in `S` and its cost among
the candidates. -/
theorem Derived_step (fst : Fst α) (hnoneg : fst.NoNegEpsCycle) (d0 : Decoder α)
    (hP0 : P1 d0) (S : List Int) (hS : ∀ t ∈ d0.toks, t.state ∈ S)
    (hclosed : ∀ s ∈ S, ∀ a ∈ fst.arcs s, a.input_label = 0 → a.next_state ∈ S)
    (d d1 : Decoder α) (hG : Derived fst d0 d) (st : Int) (cst : α)
    (hst : costAt d st = some cst) (a : Arc α) (ha : a ∈ fst.arcs st)
    (heps : a.input_label = 0) (r : Bool)
    (hother : ∀ s, s ≠ a.next_state → costAt d1 s = costAt d s)
    (hfalse : r = false → costAt d1 a.next_state = costAt d a.next_state ∧
      ∃ c, costAt d a.next_state = some c ∧ c ≤ cst + a.weight)
    (htrue : r = true → costAt d1 a.next_state = some (cst + a.weight) ∧
      ∀ c, costAt d a.next_state = some c → cst + a.weight < c) :
    Derived fst d0 d1 ∧
    (r = true → a.next_state ∈ S ∧ cst + a.weight ∈ fst.pathCosts S.length d0.toks) := by
  have hdec := costAt_decreases d d1 a.next_state _ r hother hfalse htrue
  have hH : ∀ s c, (∃ c2, costAt d s = some c2 ∧ c2 ≤ c) →
      (∃ c2, costAt d1 s = some c2 ∧ c2 ≤ c) := by
    rintro s c ⟨c2, hc2, hle⟩
    obtain ⟨c3, hc3, hle3⟩ := hdec s c2 hc2
    exact ⟨c3, hc3, le_trans hle3 hle⟩
  have hinit : ∀ s c, costAt d0 s = some c → s ∈ S := by
    intro s c hc
    obtain ⟨t, ht, hts, _⟩ := (costAt_eq_some_iff d0 hP0 s c).1 hc
    rw [← hts]; exact hS t ht
  have hnew : r = true → ∃ vis, EpsPath fst (costAt d0)
      (fun s1 c1 => ∃ c2, costAt d1 s1 = some c2 ∧ c2 ≤ c1) a.next_state (cst + a.weight)
        vis := by
    intro hr
    obtain ⟨vis, hpath⟩ := hG st cst hst
    obtain ⟨_, _, _, hreach⟩ := EpsPath_visits fst _ _ S hinit hclosed st cst vis hpath
    have hnot : a.next_state ∉ vis := by
      intro hin
      obtain ⟨c1, w, ⟨c2, hc2, hle⟩, hwalk, heq⟩ := hreach _ hin
      have hcyc := hnoneg _ _ (Fst.EpsReach.tail _ w st a hwalk ha heps)
      have hlt := (htrue hr).2 c2 hc2
      have h1 : c1 ≤ cst + a.weight := by
        rw [heq, add_assoc]
        exact le_add_of_nonneg_right hcyc
      exact absurd (lt_of_le_of_lt (le_trans hle h1) hlt) (lt_irrefl _)
    exact ⟨_, EpsPath.step st cst vis a (EpsPath_mono fst _ _ _ hH st cst vis hpath) ha heps
      hnot ⟨_, (htrue hr).1, le_refl _⟩⟩
  constructor
  · intro s c hc
    by_cases hs : s = a.next_state
    · subst hs
      cases r with
      | false =>
        rw [(hfalse rfl).1] at hc
        obtain ⟨vis, hpath⟩ := hG _ c hc
        exact ⟨vis, EpsPath_mono fst _ _ _ hH _ c vis hpath⟩
      | true =>
        rw [(htrue rfl).1] at hc
        cases hc
        exact hnew rfl
    · rw [hother s hs] at hc
      obtain ⟨vis, hpath⟩ := hG _ c hc
      exact ⟨vis, EpsPath_mono fst _ _ _ hH _ c vis hpath⟩
  · intro hr
    obtain ⟨vis, hpath⟩ := hnew hr
    exact EpsPath_cost_mem fst d0 hP0 _ S hS hclosed _ _ vis hpath
/-- The sweep over the arcs of one popped state returns, and what it pushes on
the worklist it takes from the measure. -/
theorem nonemittingArcs_returns (cfg : Config α) (hneg : cfg.kNotExist < 0) (fst : Fst α)
    (hnoneg : fst.NoNegEpsCycle) (d0 : Decoder α) (hP0 : P1 d0) (S : List Int)
    (hS : ∀ t ∈ d0.toks, t.state ∈ S)
    (hclosed : ∀ s ∈ S, ∀ a ∈ fst.arcs s, a.input_label = 0 → a.next_state ∈ S)
    (cutoff : Ext α) (st tok_idx : Int) :
    ∀ (arcs : List (Arc α)) (queue : List Int) (d : Decoder α), P1 d → Derived fst d0 d →
      d.state_idx.lookup st = some tok_idx → (∀ a ∈ arcs, a ∈ fst.arcs st) →
      (∀ s ∈ queue, ∃ p, d.state_idx.lookup s = some p) →
      ∃ q1 d1, nonemittingArcs cfg cutoff tok_idx arcs queue d = .ok (q1, d1) ∧ P1 d1 ∧
        Derived fst d0 d1 ∧ (∀ s ∈ q1, ∃ p, d1.state_idx.lookup s = some p) ∧
        q1.length + rankSum S (fst.pathCosts S.length d0.toks) d1 ≤
          queue.length + rankSum S (fst.pathCosts S.length d0.toks) d := by
  intro arcs
  induction arcs with
  | nil =>
    intro queue d hP hG _ _ hq
    exact ⟨queue, d, by simp only [nonemittingArcs], hP, hG, hq, le_refl _⟩
  | cons a rest ih =>
    intro queue d hP hG hl harcs hq
    obtain ⟨_, from_tok, _, _, hv⟩ := P1_lookup_some d hP st tok_idx hl
    have hcost : costAt d st = some from_tok.cost := costAt_of_lookup d st tok_idx from_tok hl hv
    have hrest : ∀ a1 ∈ rest, a1 ∈ fst.arcs st :=
      fun a1 h1 => harcs a1 (List.mem_cons_of_mem _ h1)
    simp only [nonemittingArcs, hv, add_zero]
    by_cases heps : a.input_label ≠ 0
    · rw [if_pos heps]
      exact ih queue d hP hG hl hrest hq
    · rw [if_neg heps]
      have heps0 : a.input_label = 0 := not_not.1 heps
      by_cases hcut0 : Ext.lt cutoff (Ext.fin (from_tok.cost + a.weight)) = true
      · rw [if_pos hcut0]
        exact ih queue d hP hG hl hrest hq
      · rw [if_neg hcut0]
        obtain ⟨r, d2, hins, hP2, hpersist, hother, hfalse, htrue⟩ :=
          InsertTok_costAt cfg hneg a from_tok.olabel_idx (from_tok.cost + a.weight) d hP
        rw [hins]
        simp only
        obtain ⟨hG2, hnew⟩ := Derived_step fst hnoneg d0 hP0 S hS hclosed d d2 hG st
          from_tok.cost hcost a (harcs a (List.mem_cons_self _ _)) heps0 r hother hfalse htrue
        have hrank := rankSum_step S (fst.pathCosts S.length d0.toks) d d2 a.next_state
          (from_tok.cost + a.weight) r hother hfalse htrue (fun hr => (hnew hr).1)
          (fun hr => (hnew hr).2)
        have hq2 : ∀ s ∈ (if r = true then a.next_state :: queue else queue),
            ∃ p, d2.state_idx.lookup s = some p := by
          intro s hs
          have hold : s ∈ queue → ∃ p, d2.state_idx.lookup s = some p := by
            intro hsq
            obtain ⟨p, hp⟩ := hq s hsq
            exact ⟨p, hpersist s p hp⟩
          cases r with
          | false => exact hold (by simpa using hs)
          | true =>
            simp only [if_true] at hs
            rcases List.mem_cons.1 hs with rfl | hs
            · exact lookup_of_costAt d2 _ _ (htrue rfl).1
            · exact hold hs
        obtain ⟨q1, d1, hrun, hP1, hG1, hq1, hle⟩ :=
          ih _ d2 hP2 hG2 (hpersist st tok_idx hl) hrest hq2
        refine ⟨q1, d1, hrun, hP1, hG1, hq1, le_trans hle ?_⟩
        cases r with
        | false => simpa using hrank
        | true =>
          simp only [if_true, List.length_cons] at hrank ⊢
          omega

/-- With fuel for the length of the worklist and the measure, the worklist
loop returns. -/
theorem nonemittingLoop_returns (cfg : Config α) (hneg : cfg.kNotExist < 0) (fst : Fst α)
    (hnoneg : fst.NoNegEpsCycle) (d0 : Decoder α) (hP0 : P1 d0) (S : List Int)
    (hS : ∀ t ∈ d0.toks, t.state ∈ S)
    (hclosed : ∀ s ∈ S, ∀ a ∈ fst.arcs s, a.input_label = 0 → a.next_state ∈ S)
    (cutoff : Ext α) :
    ∀ (fuel : Nat) (queue : List Int) (d : Decoder α), P1 d → Derived fst d0 d →
      (∀ s ∈ queue, ∃ p, d.state_idx.lookup s = some p) →
      queue.length + rankSum S (fst.pathCosts S.length d0.toks) d ≤ fuel →
      ∃ d1, nonemittingLoop cfg fst cutoff fuel queue d = .ok d1 := by
  intro fuel
  induction fuel with
  | zero =>
    intro queue d _ _ _ hle
    cases queue with
    | nil => exact ⟨d, by simp only [nonemittingLoop]⟩
    | cons s q => simp at hle
  | succ fuel ih =>
    intro queue d hP hG hq hle
    cases queue with
    | nil => exact ⟨d, by simp only [nonemittingLoop]⟩
    | cons st q =>
      obtain ⟨p, hp⟩ := hq st (List.mem_cons_self _ _)
      obtain ⟨hp0, _⟩ := P1_lookup_some d hP st p hp
      have hfind : pk_hashtable_find d.state_idx st cfg.kNotExist = p := by
        simp [pk_hashtable_find, hp]
      have hne : ¬ p = cfg.kNotExist := by
        intro h
        rw [h] at hp0
        exact absurd hneg (not_lt.2 hp0)
      obtain ⟨q1, d1, hrun, hP1, hG1, hq1, hle1⟩ :=
        nonemittingArcs_returns cfg hneg fst hnoneg d0 hP0 S hS hclosed cutoff st p
          (fst.arcs st) q d hP hG hp (fun a ha => ha)
          (fun s hs => hq s (List.mem_cons_of_mem _ hs))
      simp only [nonemittingLoop, hfind, if_neg hne, hrun]
      refine ih q1 d1 hP1 hG1 hq1 ?_
      simp only [List.length_cons] at hle
      omega
theorem NoNegEpsCycle_of_nonneg (fst : Fst α)
    (h : ∀ s, ∀ a ∈ fst.arcs s, a.input_label = 0 → 0 ≤ a.weight) : fst.NoNegEpsCycle := by
  have hall : ∀ s w s1, fst.EpsReach s w s1 → 0 ≤ w := by
    intro s w s1 hr
    induction hr with
    | refl => exact le_refl _
    | tail w s1 a _ ha heps ih => exact add_nonneg ih (h s1 a ha heps)
  intro s w hr
  exact hall s w s hr

theorem negLoop_diverges : ∀ (fuel : Nat) (k : ℤ),
    nonemittingLoop exampleConfig negLoopFst Ext.pinf fuel [0] (negLoopSeed k) =
      .error .outOfFuel := by
  intro fuel
  induction fuel with
  | zero => intro k; rfl
  | succ fuel ih =>
    intro k
    have hstep : nonemittingArcs exampleConfig Ext.pinf 0 [⟨0, 0, 0, -1⟩] [] (negLoopSeed k) =
        .ok ([0], negLoopSeed (k + -1 + 0)) := by
      have hv : vecAt (negLoopSeed k).toks 0 = .ok ⟨0, k, -1⟩ := rfl
      have hf : pk_hashtable_find (negLoopSeed k).state_idx 0 exampleConfig.kNotExist = 0 :=
        rfl
      have hne : ¬ ((0 : Int) = exampleConfig.kNotExist) := by decide
      have hgt : k > k + -1 + 0 := by omega
      have hins : InsertTok exampleConfig ⟨0, 0, 0, -1⟩ (-1) (k + -1 + 0) (negLoopSeed k) =
          .ok (true, negLoopSeed (k + -1 + 0)) := by
        simp only [InsertTok, hf, hv, if_neg hne]
        rw [if_pos hgt]
        rfl
      have hl : (0 : Int) ≠ 0 ↔ False := by simp
      simp only [nonemittingArcs, hv, hl, if_false, Ext.lt, hins]
      rfl
    have hfind : pk_hashtable_find (negLoopSeed k).state_idx 0 exampleConfig.kNotExist = 0 :=
      rfl
    have harcs : negLoopFst.arcs 0 = [⟨0, 0, 0, -1⟩] := rfl
    have hne : ¬ ((0 : Int) = exampleConfig.kNotExist) := by decide
    simp only [nonemittingLoop, hfind, harcs, if_neg hne, hstep]
    exact ih (k + -1 + 0)

/-- The worklist on exact costs, where no rounding ends a descent. The worklist
loop of `ProcessNonemitting(cutoff)` empties within
`|cur| + rankSum S (pathCosts |S| cur) cur` pops, for every cutoff, from every
`cur` that satisfies P1, when the states of `cur` lie in a finite list `S` of
states that is closed under the arcs with input label `0` and no cycle of such
arcs has a negative total weight. The absent value `kNotExist` is taken to be
negative. -/
theorem ProcessNonemitting_terminates (cfg : Config α) (hneg : cfg.kNotExist < 0)
    (fst : Fst α) (hnoneg : fst.NoNegEpsCycle) (S : List Int)
    (hclosed : ∀ s ∈ S, ∀ a ∈ fst.arcs s, a.input_label = 0 → a.next_state ∈ S)
    (cutoff : Ext α) (d : Decoder α) (hP : P1 d) (hS : ∀ t ∈ d.toks, t.state ∈ S)
    (fuel : Nat)
    (hfuel : d.toks.length + rankSum S (fst.pathCosts S.length d.toks) d ≤ fuel) :
    ∃ d1, ProcessNonemitting cfg fst fuel cutoff d = .ok d1 ∧ P1 d1 := by
  have hq : ∀ s ∈ (d.toks.map Token.state).reverse, ∃ p, d.state_idx.lookup s = some p := by
    intro s hs
    obtain ⟨t, ht, hts⟩ := List.mem_map.1 (List.mem_reverse.1 hs)
    obtain ⟨p, hp, _⟩ := P1_lookup_of_mem d hP t ht
    exact ⟨p, by rw [← hts]; exact hp⟩
  obtain ⟨d1, h⟩ := nonemittingLoop_returns cfg hneg fst hnoneg d hP S hS hclosed cutoff fuel
    (d.toks.map Token.state).reverse d hP (Derived_refl fst d) hq (by simpa using hfuel)
  have hinit : ∀ s, s ∉ (d.toks.map Token.state).reverse → ClosedAt cutoff d s (fst.arcs s) := by
    intro s hs c hc
    obtain ⟨t, ht, hts, _⟩ := (costAt_eq_some_iff d hP s c).1 hc
    exact absurd (List.mem_reverse.2 (List.mem_map.2 ⟨t, ht, hts⟩)) hs
  exact ⟨d1, h, (nonemittingLoop_closed cfg hneg fst cutoff fuel _ d d1 hP hinit h).1⟩

theorem ProcessNonemitting_terminates_witness :
    epsCycleFst.NoNegEpsCycle ∧ P1 seedOnly ∧
    ∃ d1, ProcessNonemitting exampleConfig epsCycleFst 5 Ext.pinf seedOnly = .ok d1 ∧ P1 d1 :=
  have hno : epsCycleFst.NoNegEpsCycle :=
    NoNegEpsCycle_of_nonneg epsCycleFst (by
      intro s a ha _
      simp only [epsCycleFst] at ha
      split at ha
      · simp only [List.mem_singleton] at ha; subst ha; decide
      · split at ha
        · simp only [List.mem_singleton] at ha; subst ha; decide
        · cases ha)
  ⟨hno, P1_seedOnly, ProcessNonemitting_terminates exampleConfig (by decide) epsCycleFst hno
    [0, 1] (by decide) Ext.pinf seedOnly P1_seedOnly (by decide) 5 (by decide)⟩

/-- On exact costs a cycle of epsilon arcs of negative weight keeps the
worklist going. On the WFST whose one state `0` has an epsilon-input self-loop
of weight `-1`, from the `cur` that `InitDecoding` seeds (one token at state
`0`, which satisfies P1) and with the cutoff `+infinity` of `InitDecoding`, the
worklist on exact costs is not empty after any number of pops. The program
holds its costs as `float`s and leaves this loop when the cost stops changing:
see the worklist on `float` costs below. -/
theorem ProcessNonemitting_negative_loop_diverges :
    P1 seedOnly ∧ ∀ fuel : Nat,
      ProcessNonemitting exampleConfig negLoopFst fuel Ext.pinf seedOnly =
        .error .outOfFuel :=
  ⟨P1_seedOnly, fun fuel => negLoop_diverges fuel 0⟩

/-! ### The worklist on `float` costs -/

theorem F32.key_lt (x : F32) : F32.key x < 4294967296 := by
  have he := x.expo.isLt
  have hf := x.frac.isLt
  unfold F32.key
  split <;> omega

/-- The magnitude of a `float` grows with its exponent-and-fraction bits. -/
theorem F32.scaled_mono (x y : F32)
    (h : x.expo.val * 8388608 + x.frac.val ≤ y.expo.val * 8388608 + y.frac.val) :
    x.scaled ≤ y.scaled := by
  have hfx := x.frac.isLt
  have hfy := y.frac.isLt
  have hexp : x.expo.val ≤ y.expo.val := by omega
  unfold F32.scaled
  rcases Nat.eq_or_lt_of_le hexp with heq | hlt
  · have hfr : x.frac.val ≤ y.frac.val := by omega
    rw [heq]
    split
    · exact hfr
    · exact Nat.mul_le_mul_right _ (by omega)
  · have hy0 : ¬ y.expo.val = 0 := by omega
    rw [if_neg hy0]
    have hbase : 8388608 * 2 ^ (y.expo.val - 1) ≤
        (8388608 + y.frac.val) * 2 ^ (y.expo.val - 1) :=
      Nat.mul_le_mul_right _ (by omega)
    refine le_trans ?_ hbase
    split
    · have h1 : 1 ≤ 2 ^ (y.expo.val - 1) := Nat.one_le_two_pow
      calc x.frac.val ≤ 8388608 * 1 := by omega
        _ ≤ 8388608 * 2 ^ (y.expo.val - 1) := Nat.mul_le_mul_left _ h1
    · rename_i hx0
      have hpow : 2 ^ (x.expo.val - 1) * 2 ≤ 2 ^ (y.expo.val - 1) := by
        rw [← pow_succ]
        exact Nat.pow_le_pow_right (by decide) (by omega)
      calc (8388608 + x.frac.val) * 2 ^ (x.expo.val - 1)
          ≤ (8388608 * 2) * 2 ^ (x.expo.val - 1) := Nat.mul_le_mul_right _ (by omega)
        _ = 8388608 * (2 ^ (x.expo.val - 1) * 2) := by ring
        _ ≤ 8388608 * 2 ^ (y.expo.val - 1) := Nat.mul_le_mul_left _ hpow

theorem F32.scaled_eq_zero (x : F32) (h : x.expo.val * 8388608 + x.frac.val = 0) :
    x.scaled = 0 := by
  have he : x.expo.val = 0 := by omega
  have hf : x.frac.val = 0 := by omega
  simp [F32.scaled, he, hf]

/-- The comparison `x > y` of two `float`s moves down in the order of the
places: `key y < key x`. -/
theorem F32.key_lt_of_gt (x y : F32) (h : Ext.lt y.toExt x.toExt = true) :
    F32.key y < F32.key x := by
  have hex := x.expo.isLt
  have hey := y.expo.isLt
  have hfx := x.frac.isLt
  have hfy := y.frac.isLt
  have hpos : (0 : ℚ) < 2 ^ 149 := by positivity
  unfold F32.toExt at h
  by_cases hy : y.expo.val = 255
  · rw [if_pos hy] at h
    by_cases hyf : y.frac.val = 0
    · rw [if_pos hyf] at h
      cases hys : y.sign
      · rw [hys] at h
        simp only [Bool.false_eq_true, if_false] at h
        split at h
        · split at h
          · split at h <;> simp [Ext.lt] at h
          · simp [Ext.lt] at h
        · simp [Ext.lt] at h
      · rw [hys] at h
        simp only [if_true] at h
        by_cases hx : x.expo.val = 255
        · rw [if_pos hx] at h
          by_cases hxf : x.frac.val = 0
          · rw [if_pos hxf] at h
            cases hxs : x.sign
            · simp [F32.key, hys, hxs]
              omega
            · rw [hxs] at h
              simp [Ext.lt] at h
          · rw [if_neg hxf] at h
            simp [Ext.lt] at h
        · simp only [F32.key, hys, if_true]
          split <;> omega
    · rw [if_neg hyf] at h
      simp [Ext.lt] at h
  · rw [if_neg hy] at h
    by_cases hx : x.expo.val = 255
    · rw [if_pos hx] at h
      by_cases hxf : x.frac.val = 0
      · rw [if_pos hxf] at h
        cases hxs : x.sign
        · simp only [F32.key, hxs, Bool.false_eq_true, if_false]
          split <;> omega
        · rw [hxs] at h
          simp [Ext.lt] at h
      · rw [if_neg hxf] at h
        simp [Ext.lt] at h
    · rw [if_neg hx] at h
      simp only [Ext.lt, decide_eq_true_eq] at h
      have h1 := (div_lt_div_iff_of_pos_right hpos).1 h
      cases hxs : x.sign <;> cases hys : y.sign <;>
        simp only [hxs, hys, if_true, Bool.false_eq_true, if_false] at h1 <;>
        simp only [F32.key, hxs, hys, if_true, Bool.false_eq_true, if_false]
      · have h2 : y.scaled < x.scaled := by exact_mod_cast h1
        have h3 : ¬ (x.expo.val * 8388608 + x.frac.val ≤ y.expo.val * 8388608 + y.frac.val) :=
          fun hle => absurd (F32.scaled_mono x y hle) (not_le.2 h2)
        omega
      · by_cases hz : x.expo.val * 8388608 + x.frac.val = 0 ∧
            y.expo.val * 8388608 + y.frac.val = 0
        · rw [F32.scaled_eq_zero x hz.1, F32.scaled_eq_zero y hz.2] at h1
          simp at h1
        · omega
      · have hx0 : (0 : ℚ) ≤ (x.scaled : ℚ) := Nat.cast_nonneg _
        have hy0 : (0 : ℚ) ≤ (y.scaled : ℚ) := Nat.cast_nonneg _
        linarith
      · have h2 : x.scaled < y.scaled := by
          have : (x.scaled : ℚ) < (y.scaled : ℚ) := by linarith
          exact_mod_cast this
        have h3 : ¬ (y.expo.val * 8388608 + y.frac.val ≤ x.expo.val * 8388608 + x.frac.val) :=
          fun hle => absurd (F32.scaled_mono y x hle) (not_le.2 h2)
        omega

theorem InsertTokFloat_absent (cfg : Config F32) (arc : Arc (Ext ℚ)) (b : Int) (cost : F32)
    (d : Decoder F32) (h : d.state_idx.lookup arc.next_state = none) :
    InsertTokFloat cfg arc b cost d = .ok (true, { d with
      olabels := if arc.output_label ≠ 0 then d.olabels ++ [⟨b, arc.output_label⟩]
        else d.olabels
      toks := d.toks ++ [⟨arc.next_state, cost,
        if arc.output_label ≠ 0 then (d.olabels.length : Int) else b⟩]
      state_idx := pk_hashtable_upsert d.state_idx arc.next_state (d.toks.length : Int) }) := by
  simp [InsertTokFloat, pk_hashtable_find, h]

theorem InsertTokFloat_present (cfg : Config F32) (arc : Arc (Ext ℚ)) (b : Int) (cost : F32)
    (d : Decoder F32) (hneg : cfg.kNotExist < 0) (p : Int) (tok : Token F32)
    (h : d.state_idx.lookup arc.next_state = some p) (hp : 0 ≤ p)
    (hv : vecAt d.toks p = .ok tok) :
    InsertTokFloat cfg arc b cost d =
      if Ext.lt cost.toExt tok.cost.toExt = true then
        .ok (true, { d with
          olabels := if arc.output_label ≠ 0 then d.olabels ++ [⟨b, arc.output_label⟩]
            else d.olabels
          toks := d.toks.set p.toNat ⟨arc.next_state, cost,
            if arc.output_label ≠ 0 then (d.olabels.length : Int) else b⟩ })
      else
        .ok (false, { d with
          olabels := if arc.output_label ≠ 0 then d.olabels ++ [⟨b, arc.output_label⟩]
            else d.olabels }) := by
  have hne : ¬ p = cfg.kNotExist := by
    intro heq
    rw [heq] at hp
    exact absurd hneg (not_lt.2 hp)
  simp only [InsertTokFloat, pk_hashtable_find, h, if_neg hne, hv]

theorem costAtFloat_congr (d d1 : Decoder F32) (s : Int)
    (hl : d1.state_idx.lookup s = d.state_idx.lookup s)
    (hv : ∀ p, d.state_idx.lookup s = some p → vecAt d1.toks p = vecAt d.toks p) :
    costAt d1 s = costAt d s := by
  unfold costAt
  rw [hl]
  cases h : d.state_idx.lookup s with
  | none => rfl
  | some p => simp only [hv p h]

/-- What a call of `InsertTok` on `float` costs does to the costs that the
state index gives, from a state that satisfies P1: the call returns and keeps
P1 and every binding of the index; the cost at every other state stays; a
discarded arrival leaves the cost at its state; an inserted one sets the cost
at its state, which was absent or compared greater. -/
theorem InsertTokFloat_costAt (cfg : Config F32) (hneg : cfg.kNotExist < 0) (arc : Arc (Ext ℚ))
    (b : Int) (cost : F32) (d : Decoder F32) (hP : P1 d) :
    ∃ r d1, InsertTokFloat cfg arc b cost d = .ok (r, d1) ∧ P1 d1 ∧
      (∀ s p, d.state_idx.lookup s = some p → d1.state_idx.lookup s = some p) ∧
      (∀ s, s ≠ arc.next_state → costAt d1 s = costAt d s) ∧
      (r = false → costAt d1 arc.next_state = costAt d arc.next_state) ∧
      (r = true → costAt d1 arc.next_state = some cost ∧
        ∀ c, costAt d arc.next_state = some c → Ext.lt cost.toExt c.toExt = true) := by
  cases h : d.state_idx.lookup arc.next_state with
  | none =>
    refine ⟨_, _, InsertTokFloat_absent cfg arc b cost d h, P1_append d hP _ h _ rfl _,
      ?_, ?_, ?_, ?_⟩
    · intro s p hs
      show (pk_hashtable_upsert d.state_idx arc.next_state _).lookup s = some p
      rw [lookup_upsert]
      have hne : s ≠ arc.next_state := by
        intro heq; rw [heq, h] at hs; cases hs
      rw [if_neg hne]; exact hs
    · intro s hne
      refine costAtFloat_congr d _ s ?_ ?_
      · show (pk_hashtable_upsert d.state_idx arc.next_state _).lookup s = _
        rw [lookup_upsert, if_neg hne]
      · intro p hl
        obtain ⟨hp0, t, ht, _, hv⟩ := P1_lookup_some d hP s p hl
        have hlt : p.toNat < d.toks.length := (List.getElem?_eq_some.1 ht).1
        have h0 : ¬ (p < 0) := by omega
        rw [hv]
        simp [vecAt, h0, List.getElem?_append_left hlt, ht]
    · intro hr; cases hr
    · intro _
      constructor
      · have h0 : ¬ ((d.toks.length : Int) < 0) := by omega
        simp [costAt, lookup_upsert, vecAt, h0]
      · intro c hc
        obtain ⟨p, hp⟩ := lookup_of_costAt d _ c hc
        rw [h] at hp; cases hp
  | some p =>
    obtain ⟨hp0, tok, htok, hts, hv⟩ := P1_lookup_some d hP _ p h
    have hlt : p.toNat < d.toks.length := (List.getElem?_eq_some.1 htok).1
    have hcost : costAt d arc.next_state = some tok.cost := costAt_of_lookup d _ p tok h hv
    have hpres := InsertTokFloat_present cfg arc b cost d hneg p tok h hp0 hv
    by_cases hgt : Ext.lt cost.toExt tok.cost.toExt = true
    · rw [if_pos hgt] at hpres
      refine ⟨_, _, hpres, P1_set d hP _ p h _ rfl _, fun s q hs => hs, ?_, ?_, ?_⟩
      · intro s hne
        refine costAtFloat_congr d _ s rfl ?_
        intro q hl
        obtain ⟨hq0, t, ht, htq, hvq⟩ := P1_lookup_some d hP s q hl
        have hqp : p.toNat ≠ q.toNat := by
          intro heq
          rw [heq, ht] at htok
          cases htok
          exact hne (htq.symm.trans hts)
        have h0 : ¬ (q < 0) := by omega
        rw [hvq]
        simp [vecAt, h0, List.getElem?_set_ne hqp, ht]
      · intro hr; cases hr
      · intro _
        constructor
        · have h0 : ¬ (p < 0) := by omega
          simp [costAt, h, vecAt, h0, List.getElem?_set, hlt]
        · intro c hc
          rw [hcost] at hc
          cases hc
          exact hgt
    · rw [if_neg hgt] at hpres
      refine ⟨_, _, hpres, P1_olabels d hP _, fun s q hs => hs, fun s _ => rfl, ?_, ?_⟩
      · intro _; rfl
      · intro hr; cases hr

/-- A call of `InsertTok` described by `InsertTokFloat_costAt` lowers the
measure by at least one when it inserts at a state of `S`, and leaves it when
it discards. -/
theorem rankSumFloat_step (S : List Int) (d d1 : Decoder F32) (next : Int) (cost : F32)
    (r : Bool) (hother : ∀ s, s ≠ next → costAt d1 s = costAt d s)
    (hfalse : r = false → costAt d1 next = costAt d next)
    (htrue : r = true → costAt d1 next = some cost ∧
      ∀ c, costAt d next = some c → Ext.lt cost.toExt c.toExt = true)
    (hS : next ∈ S) :
    rankSumFloat S d1 + (if r = true then 1 else 0) ≤ rankSumFloat S d := by
  cases r with
  | false =>
    have hall : ∀ s, costAt d1 s = costAt d s := by
      intro s
      by_cases hs : s = next
      · rw [hs]; exact hfalse rfl
      · exact hother s hs
    simp [rankSumFloat, hall]
  | true =>
    simp only [if_true]
    have hnext : F32.rank (costAt d1 next) < F32.rank (costAt d next) := by
      rw [(htrue rfl).1]
      cases hc : costAt d next with
      | none => exact F32.key_lt cost
      | some c1 => exact F32.key_lt_of_gt c1 cost ((htrue rfl).2 c1 hc)
    unfold rankSumFloat
    refine sum_map_lt S _ _ ?_ next hS hnext
    intro s _
    by_cases hs : s = next
    · rw [hs]; exact le_of_lt hnext
    · rw [hother s hs]

theorem rankSumFloat_le (S : List Int) (d : Decoder F32) :
    rankSumFloat S d ≤ S.length * 4294967296 := by
  unfold rankSumFloat
  induction S with
  | nil => simp
  | cons s S ih =>
    simp only [List.map_cons, List.sum_cons, List.length_cons]
    have h1 : F32.rank (costAt d s) ≤ 4294967296 := by
      cases costAt d s with
      | none => exact le_refl _
      | some c => exact le_of_lt (F32.key_lt c)
    omega

/-- The sweep over the arcs of one popped state on `float` costs returns, and
what it pushes on the worklist it takes from the measure. -/
theorem nonemittingArcsFloat_returns (cfg : Config F32) (hneg : cfg.kNotExist < 0)
    (plus : Ext ℚ → Ext ℚ → Ext ℚ) (S : List Int) (cutoff : Ext ℚ) (tok_idx : Int) :
    ∀ (arcs : List (Arc (Ext ℚ))) (queue : List Int) (d : Decoder F32), P1 d →
      (∃ st, d.state_idx.lookup st = some tok_idx) →
      (∀ a ∈ arcs, a.input_label = 0 → a.next_state ∈ S) →
      (∀ s ∈ queue, s ∈ S ∧ ∃ p, d.state_idx.lookup s = some p) →
      ∃ q1 d1, nonemittingArcsFloat cfg plus cutoff tok_idx arcs queue d = .ok (q1, d1) ∧
        P1 d1 ∧ (∀ s ∈ q1, s ∈ S ∧ ∃ p, d1.state_idx.lookup s = some p) ∧
        q1.length + rankSumFloat S d1 ≤ queue.length + rankSumFloat S d := by
  intro arcs
  induction arcs with
  | nil =>
    intro queue d hP _ _ hq
    exact ⟨queue, d, by simp only [nonemittingArcsFloat], hP, hq, le_refl _⟩
  | cons a rest ih =>
    intro queue d hP hl harcs hq
    obtain ⟨st, hst⟩ := hl
    obtain ⟨_, from_tok, _, _, hv⟩ := P1_lookup_some d hP st tok_idx hst
    have hrest : ∀ a1 ∈ rest, a1.input_label = 0 → a1.next_state ∈ S :=
      fun a1 h1 => harcs a1 (List.mem_cons_of_mem _ h1)
    simp only [nonemittingArcsFloat, hv]
    by_cases heps : a.input_label ≠ 0
    · rw [if_pos heps]
      exact ih queue d hP ⟨st, hst⟩ hrest hq
    · rw [if_neg heps]
      have heps0 : a.input_label = 0 := not_not.1 heps
      by_cases hcut0 : Ext.lt cutoff
          (plus (plus from_tok.cost.toExt a.weight) (Ext.fin 0)) = true
      · rw [if_pos hcut0]
        exact ih queue d hP ⟨st, hst⟩ hrest hq
      · rw [if_neg hcut0]
        obtain ⟨r, d2, hins, hP2, hpersist, hother, hfalse, htrue⟩ :=
          InsertTokFloat_costAt cfg hneg a from_tok.olabel_idx
            (F32.ofExt (plus (plus from_tok.cost.toExt a.weight) (Ext.fin 0))) d hP
        rw [hins]
        simp only
        have hnext : a.next_state ∈ S := harcs a (List.mem_cons_self _ _) heps0
        have hrank := rankSumFloat_step S d d2 a.next_state _ r hother hfalse htrue hnext
        have hq2 : ∀ s ∈ (if r = true then a.next_state :: queue else queue),
            s ∈ S ∧ ∃ p, d2.state_idx.lookup s = some p := by
          intro s hs
          have hold : s ∈ queue → s ∈ S ∧ ∃ p, d2.state_idx.lookup s = some p := by
            intro hsq
            obtain ⟨hsS, p, hp⟩ := hq s hsq
            exact ⟨hsS, p, hpersist s p hp⟩
          cases r with
          | false => exact hold (by simpa using hs)
          | true =>
            simp only [if_true] at hs
            rcases List.mem_cons.1 hs with rfl | hs
            · exact ⟨hnext, lookup_of_costAt d2 _ _ (htrue rfl).1⟩
            · exact hold hs
        obtain ⟨q1, d1, hrun, hP1, hq1, hle⟩ :=
          ih _ d2 hP2 ⟨st, hpersist st tok_idx hst⟩ hrest hq2
        refine ⟨q1, d1, hrun, hP1, hq1, le_trans hle ?_⟩
        cases r with
        | false => simpa using hrank
        | true =>
          simp only [if_true, List.length_cons] at hrank ⊢
          omega

/-- With fuel for the length of the worklist and the measure, the worklist
loop on `float` costs returns. -/
theorem nonemittingLoopFloat_returns (cfg : Config F32) (hneg : cfg.kNotExist < 0)
    (plus : Ext ℚ → Ext ℚ → Ext ℚ) (fst : Fst (Ext ℚ)) (S : List Int)
    (hclosed : ∀ s ∈ S, ∀ a ∈ fst.arcs s, a.input_label = 0 → a.next_state ∈ S)
    (cutoff : Ext ℚ) :
    ∀ (fuel : Nat) (queue : List Int) (d : Decoder F32), P1 d →
      (∀ s ∈ queue, s ∈ S ∧ ∃ p, d.state_idx.lookup s = some p) →
      queue.length + rankSumFloat S d ≤ fuel →
      ∃ d1, nonemittingLoopFloat cfg plus fst cutoff fuel queue d = .ok d1 ∧ P1 d1 := by
  intro fuel
  induction fuel with
  | zero =>
    intro queue d hP _ hle
    cases queue with
    | nil => exact ⟨d, by simp only [nonemittingLoopFloat], hP⟩
    | cons s q => simp at hle
  | succ fuel ih =>
    intro queue d hP hq hle
    cases queue with
    | nil => exact ⟨d, by simp only [nonemittingLoopFloat], hP⟩
    | cons st q =>
      obtain ⟨hstS, p, hp⟩ := hq st (List.mem_cons_self _ _)
      obtain ⟨hp0, _⟩ := P1_lookup_some d hP st p hp
      have hfind : pk_hashtable_find d.state_idx st cfg.kNotExist = p := by
        simp [pk_hashtable_find, hp]
      have hne : ¬ p = cfg.kNotExist := by
        intro h
        rw [h] at hp0
        exact absurd hneg (not_lt.2 hp0)
      obtain ⟨q1, d1, hrun, hP1, hq1, hle1⟩ :=
        nonemittingArcsFloat_returns cfg hneg plus S cutoff p (fst.arcs st) q d hP ⟨st, hp⟩
          (hclosed st hstS) (fun s hs => hq s (List.mem_cons_of_mem _ hs))
      simp only [nonemittingLoopFloat, hfind, if_neg hne, hrun]
      refine ih q1 d1 hP1 hq1 ?_
      simp only [List.length_cons] at hle
      omega

theorem P1_floatSeed (c : F32) : P1 (floatSeed c) := by
  constructor
  · simp [floatSeed]
  · intro s p
    simp only [floatSeed, List.map_cons, List.map_nil]
    rw [List.lookup_cons]
    by_cases hs : s = 0
    · subst hs
      simp only [beq_self_eq_true, Option.some.injEq]
      constructor
      · intro h
        subst h
        exact ⟨le_refl _, rfl⟩
      · rintro ⟨h0, h1⟩
        have hlt := (List.getElem?_eq_some.1 h1).1
        simp only [List.length_singleton] at hlt
        omega
    · have hb : (s == 0) = false := by simpa using hs
      rw [hb]
      simp only [List.lookup_nil]
      constructor
      · intro h; cases h
      · rintro ⟨h0, h1⟩
        have hmem := List.getElem?_mem h1
        simp only [List.mem_singleton] at hmem
        exact absurd hmem hs

/-- C13. Termination of the epsilon worklist. For every WFST, whatever the
weights of its arcs, every finite list `S` of states that holds the states of
`cur` and is closed under the arcs with input label `0` (the list of all states
of a WFST with finitely many states is one), every `cur` that satisfies P1 and
every cutoff, the `+infinity` of `InitDecoding` among them, the worklist loop of
`ProcessNonemitting` empties within `|cur| + |S| * 2 ^ 32` pops: with that much
fuel the call returns, and P1 holds again. The costs are `float`s, as
`InsertTok` takes them; the absent value `kNotExist` is taken to be negative. -/
theorem ProcessNonemitting_float_terminates (cfg : Config F32) (hneg : cfg.kNotExist < 0)
    (plus : Ext ℚ → Ext ℚ → Ext ℚ) (fst : Fst (Ext ℚ)) (S : List Int)
    (hclosed : ∀ s ∈ S, ∀ a ∈ fst.arcs s, a.input_label = 0 → a.next_state ∈ S)
    (cutoff : Ext ℚ) (d : Decoder F32) (hP : P1 d) (hS : ∀ t ∈ d.toks, t.state ∈ S)
    (fuel : Nat) (hfuel : d.toks.length + S.length * 4294967296 ≤ fuel) :
    ∃ d1, ProcessNonemittingFloat cfg plus fst fuel cutoff d = .ok d1 ∧ P1 d1 := by
  have hq : ∀ s ∈ (d.toks.map Token.state).reverse,
      s ∈ S ∧ ∃ p, d.state_idx.lookup s = some p := by
    intro s hs
    obtain ⟨t, ht, hts⟩ := List.mem_map.1 (List.mem_reverse.1 hs)
    obtain ⟨p, hp, _⟩ := P1_lookup_of_mem d hP t ht
    exact ⟨by rw [← hts]; exact hS t ht, p, by rw [← hts]; exact hp⟩
  have hrank := rankSumFloat_le S d
  exact nonemittingLoopFloat_returns cfg hneg plus fst S hclosed cutoff fuel
    (d.toks.map Token.state).reverse d hP hq (by
      simp only [List.length_reverse, List.length_map]
      omega)

theorem ProcessNonemitting_float_terminates_witness :
    P1 (floatSeed ⟨false, 0, 0⟩) ∧
    ∃ d1, ProcessNonemittingFloat floatConfig Ext.add negLoopFloatFst 4294967297 Ext.pinf
      (floatSeed ⟨false, 0, 0⟩) = .ok d1 ∧ P1 d1 :=
  ⟨P1_floatSeed _, ProcessNonemitting_float_terminates floatConfig (by decide) Ext.add
    negLoopFloatFst [0] (by decide) Ext.pinf (floatSeed ⟨false, 0, 0⟩) (P1_floatSeed _)
    (by decide) 4294967297 (by decide)⟩

theorem Ext.lt_pinf_left (x : Ext ℚ) : Ext.lt Ext.pinf x = false := by
  cases x <;> rfl

/-- One pop of the worklist on the `-1.0` self-loop, from one token of cost `c`
at state `0`: the arrival `c + -1.0`, converted to `float`, replaces the token
and state `0` is pushed again when it compares less than `c`, and is discarded
otherwise. -/
theorem negLoopFloat_step (plus : Ext ℚ → Ext ℚ → Ext ℚ) (c : F32) :
    nonemittingArcsFloat floatConfig plus Ext.pinf 0 (negLoopFloatFst.arcs 0) [] (floatSeed c) =
      if Ext.lt (F32.ofExt (plus (plus c.toExt (Ext.fin (-1))) (Ext.fin 0))).toExt
          c.toExt = true then
        .ok ([0], floatSeed (F32.ofExt (plus (plus c.toExt (Ext.fin (-1)))
          (Ext.fin 0))))
      else .ok ([], floatSeed c) := by
  have harcs : negLoopFloatFst.arcs 0 = [⟨0, 0, 0, Ext.fin (-1)⟩] := rfl
  have hv : vecAt (floatSeed c).toks 0 = .ok ⟨0, c, -1⟩ := rfl
  have hf : pk_hashtable_find (floatSeed c).state_idx 0 floatConfig.kNotExist = 0 := rfl
  have hne : ¬ ((0 : Int) = floatConfig.kNotExist) := by decide
  have hl : (0 : Int) ≠ 0 ↔ False := by simp
  by_cases hgt : Ext.lt (F32.ofExt (plus (plus c.toExt (Ext.fin (-1)))
      (Ext.fin 0))).toExt c.toExt = true
  · simp only [harcs, nonemittingArcsFloat, hv, hl, if_false, Ext.lt_pinf_left,
      Bool.false_eq_true, InsertTokFloat, hf, if_neg hne, hgt, if_true]
    rfl
  · simp only [harcs, nonemittingArcsFloat, hv, hl, if_false, Ext.lt_pinf_left,
      Bool.false_eq_true, InsertTokFloat, hf, if_neg hne, hgt]

theorem F32.toExt_neg_16777215 : F32.toExt ⟨true, 150, 8388607⟩ = Ext.fin (-16777215) := by
  have he : ((150 : Fin 256).val) = 150 := rfl
  have hf : ((8388607 : Fin 8388608).val) = 8388607 := rfl
  simp only [F32.toExt, F32.scaled, he, hf]
  norm_num

theorem F32.toExt_neg_16777216 : F32.toExt ⟨true, 151, 0⟩ = Ext.fin (-16777216) := by
  have he : ((151 : Fin 256).val) = 151 := rfl
  have hf : ((0 : Fin 8388608).val) = 0 := rfl
  simp only [F32.toExt, F32.scaled, he, hf]
  norm_num

/-- The worklist on the `-1.0` self-loop, started from one token of cost
`-16777215.0` at state `0`, with the cutoff `+infinity`: the first pop lowers
the cost to `-16777216.0`; at the second pop the arrival `-16777217.0` is
converted to `-16777216.0`, which is not less than the cost held, so nothing
is pushed and the worklist is empty. The same with the additions evaluated
exactly and in `float`. -/
theorem negLoopFloat_saturates :
    ProcessNonemittingFloat floatConfig Ext.add negLoopFloatFst 2 Ext.pinf
      (floatSeed ⟨true, 150, 8388607⟩) = .ok (floatSeed ⟨true, 151, 0⟩) ∧
    ProcessNonemittingFloat floatConfig F32.plus negLoopFloatFst 2 Ext.pinf
      (floatSeed ⟨true, 150, 8388607⟩) = .ok (floatSeed ⟨true, 151, 0⟩) := by
  have hf : ∀ c, pk_hashtable_find (floatSeed c).state_idx 0 floatConfig.kNotExist = 0 :=
    fun _ => rfl
  have hne : ¬ ((0 : Int) = floatConfig.kNotExist) := by decide
  have hq : ∀ c, ((floatSeed c).toks.map Token.state).reverse = [0] := fun _ => rfl
  have r1 : F32.ofRat (-16777216) = ⟨true, 151, 0⟩ := by decide
  have r2 : F32.ofRat (-16777217) = ⟨true, 151, 0⟩ := by decide
  have a1 : ((-16777215 : ℚ) + -1) = -16777216 := by norm_num
  have a2 : ((-16777216 : ℚ) + -1) = -16777217 := by norm_num
  have a3 : ((-16777216 : ℚ) + 0) = -16777216 := by norm_num
  have a4 : ((-16777217 : ℚ) + 0) = -16777217 := by norm_num
  have s1 : F32.ofExt (Ext.add (Ext.add (Ext.fin (-16777215)) (Ext.fin (-1))) (Ext.fin 0)) =
      ⟨true, 151, 0⟩ := by
    simp only [Ext.add, F32.ofExt, a1, a3, r1]
  have s2 : F32.ofExt (Ext.add (Ext.add (Ext.fin (-16777216)) (Ext.fin (-1))) (Ext.fin 0)) =
      ⟨true, 151, 0⟩ := by
    simp only [Ext.add, F32.ofExt, a2, a4, r2]
  have p1 : F32.ofExt (F32.plus (F32.plus (Ext.fin (-16777215)) (Ext.fin (-1))) (Ext.fin 0)) =
      ⟨true, 151, 0⟩ := by
    simp only [F32.plus, Ext.add, F32.ofExt, a1, a3, r1, F32.toExt_neg_16777216]
  have p2 : F32.ofExt (F32.plus (F32.plus (Ext.fin (-16777216)) (Ext.fin (-1))) (Ext.fin 0)) =
      ⟨true, 151, 0⟩ := by
    simp only [F32.plus, Ext.add, F32.ofExt, a2, a3, r1, r2, F32.toExt_neg_16777216]
  have l1 : Ext.lt (Ext.fin (-16777216 : ℚ)) (Ext.fin (-16777215)) = true := by
    simp only [Ext.lt]; norm_num
  have l2 : Ext.lt (Ext.fin (-16777216 : ℚ)) (Ext.fin (-16777216)) = false := by
    simp only [Ext.lt]; norm_num
  have st1 : nonemittingArcsFloat floatConfig Ext.add Ext.pinf 0 (negLoopFloatFst.arcs 0) []
      (floatSeed ⟨true, 150, 8388607⟩) = .ok ([0], floatSeed ⟨true, 151, 0⟩) := by
    rw [negLoopFloat_step, F32.toExt_neg_16777215, s1,
      F32.toExt_neg_16777216, if_pos l1]
  have st2 : nonemittingArcsFloat floatConfig Ext.add Ext.pinf 0 (negLoopFloatFst.arcs 0) []
      (floatSeed ⟨true, 151, 0⟩) = .ok ([], floatSeed ⟨true, 151, 0⟩) := by
    rw [negLoopFloat_step, F32.toExt_neg_16777216, s2,
      F32.toExt_neg_16777216, l2]
    rfl
  have pt1 : nonemittingArcsFloat floatConfig F32.plus Ext.pinf 0 (negLoopFloatFst.arcs 0) []
      (floatSeed ⟨true, 150, 8388607⟩) = .ok ([0], floatSeed ⟨true, 151, 0⟩) := by
    rw [negLoopFloat_step, F32.toExt_neg_16777215, p1,
      F32.toExt_neg_16777216, if_pos l1]
  have pt2 : nonemittingArcsFloat floatConfig F32.plus Ext.pinf 0 (negLoopFloatFst.arcs 0) []
      (floatSeed ⟨true, 151, 0⟩) = .ok ([], floatSeed ⟨true, 151, 0⟩) := by
    rw [negLoopFloat_step, F32.toExt_neg_16777216, p2,
      F32.toExt_neg_16777216, l2]
    rfl
  constructor
  · unfold ProcessNonemittingFloat
    rw [hq]
    simp only [nonemittingLoopFloat, hf, if_neg hne, st1, st2]
  · unfold ProcessNonemittingFloat
    rw [hq]
    simp only [nonemittingLoopFloat, hf, if_neg hne, pt1, pt2]

end pocketkaldi
